import Mathlib

/-!
# cutils: singly-linked list with slot cursor, and the chained hash map built on it

A shallow embedding of `list.c` / `list.h` / `map.c` / `map.h` / `hash.c`.

Memory model.  A pointer to a list element is `Option Nat`: `none` is the null
pointer, `some a` the address `a`.  The elements a list owns live in a store
`mem : Nat → Option (list_element_t V)`; `mem a = none` means that no element is
allocated at `a`.  A `list_element_t**` (the cursor of `list_iterator_t`) is a
`slot_t`: either the `head` field of the list or the `next` field of the element
at some address.  Every operation returns `Option`; `none` stands for undefined
behaviour of the C program (a null or dangling dereference) or, for loops, for
running out of fuel.
-/

namespace Cutils

/-! ## Definitions: generic.h, errors.h -/

/-- A `generic_value_t` is a 64-bit union that the containers never inspect; it
is represented by its bit pattern read as an unsigned number. -/
abbrev generic_value_t := Nat

/-- Result code of the allocating operations (`0` is success). -/
abbrev error_t := Nat

/-- Modelled from the spec: `errors.h` is not among the sources, so the only
error kind of the library, out-of-memory, is given a fixed code; the sources
test it with `if (result)`, hence it is not zero. -/
def ERROR_OUT_OF_MEMORY : error_t := 1

/-- The C expression `n--` on a `size_t`: it wraps at zero. -/
def size_dec (n : Nat) : Nat := if n = 0 then 2 ^ 64 - 1 else n - 1

/-- The C expression `n++` on a `size_t` that counts live heap objects.  Every
counted object occupies its own bytes of a 64-bit address space, so the counter
stays far below `2 ^ 64` and the increment is the one of the naturals. -/
def size_inc (n : Nat) : Nat := n + 1

/-! ## Definitions: list.h, list.c -/

/-- Struct `list_element_t`. -/
structure list_element_t (V : Type) where
  next : Option Nat
  value : V

/-- Struct `list_t`, together with the store holding the elements it owns. -/
structure list_t (V : Type) where
  value_deallocator : Option Nat
  head : Option Nat
  tail : Option Nat
  size : Nat
  mem : Nat → Option (list_element_t V)

/-- A `list_element_t**`: the address of `list->head`, or of `element->next`. -/
inductive slot_t where
  | head : slot_t
  | next (element : Nat) : slot_t
deriving DecidableEq, Repr

/-- Struct `list_iterator_t`; its `list` field is the list passed along. -/
structure list_iterator_t where
  current : slot_t
deriving DecidableEq, Repr

/-- Reading through a slot, `*slot`. -/
def slot_load {V : Type} (l : list_t V) : slot_t → Option (Option Nat)
  | slot_t.head => some l.head
  | slot_t.next a =>
    match l.mem a with
    | none => none
    | some e => some e.next

/-- Writing through a slot, `*slot = p`. -/
def slot_store {V : Type} (l : list_t V) (s : slot_t) (p : Option Nat) : Option (list_t V) :=
  match s with
  | slot_t.head => some { l with head := p }
  | slot_t.next a =>
    match l.mem a with
    | none => none
    | some e => some { l with mem := Function.update l.mem a (some { e with next := p }) }

/-- The expression `(list_element_t*)((char*)slot - offsetof(list_element_t, next))`:
the element whose `next` field the slot is.  For the slot `&list->head` the
result is not an element of the list. -/
def slot_owner : slot_t → Option Nat
  | slot_t.head => none
  | slot_t.next a => some a

/-- Function `list_create_with_value_deallocator`; `ok` tells whether `calloc`
succeeded. -/
def list_create_with_value_deallocator {V : Type} (ok : Bool)
    (value_deallocator : Option Nat) : error_t × Option (list_t V) :=
  if ok then
    (0, some { value_deallocator := value_deallocator, head := none, tail := none,
               size := 0, mem := fun _ => none })
  else (ERROR_OUT_OF_MEMORY, none)

/-- Function `list_create`. -/
def list_create {V : Type} (ok : Bool) : error_t × Option (list_t V) :=
  list_create_with_value_deallocator ok none

/-- Inline function `list_get_back`. -/
def list_get_back {V : Type} (l : list_t V) : Option V :=
  match l.tail with
  | none => none
  | some t =>
    match l.mem t with
    | none => none
    | some e => some e.value

/-- Inline function `list_get_front`. -/
def list_get_front {V : Type} (l : list_t V) : Option V :=
  match l.head with
  | none => none
  | some h =>
    match l.mem h with
    | none => none
    | some e => some e.value

/-- Inline function `list_size`. -/
def list_size {V : Type} (l : list_t V) : Nat := l.size

/-- Inline function `list_empty`. -/
def list_empty {V : Type} (l : list_t V) : Bool := l.size == 0

/-- Function `list_push_back`.  `r` is what `calloc` returned inside
`list_element_create`: `none` for a failed allocation, else the address of the
new zeroed element. -/
def list_push_back {V : Type} (l : list_t V) (r : Option Nat) (value : V) :
    Option (error_t × list_t V) :=
  match r with
  | none => some (ERROR_OUT_OF_MEMORY, l)
  | some element =>
    let mem1 := Function.update l.mem element (some { next := none, value := value })
    match l.head with
    | none =>
      some (0, { l with head := some element, tail := some element,
                        size := size_inc l.size, mem := mem1 })
    | some _ =>
      match l.tail with
      | none => none
      | some t =>
        match mem1 t with
        | none => none
        | some e =>
          some (0, { l with tail := some element, size := size_inc l.size,
                            mem := Function.update mem1 t (some { e with next := some element }) })

/-- Function `list_push_front`; `r` as in `list_push_back`. -/
def list_push_front {V : Type} (l : list_t V) (r : Option Nat) (value : V) :
    Option (error_t × list_t V) :=
  match r with
  | none => some (ERROR_OUT_OF_MEMORY, l)
  | some element =>
    match l.head with
    | none =>
      some (0, { l with head := some element, tail := some element, size := size_inc l.size,
                        mem := Function.update l.mem element (some { next := none, value := value }) })
    | some h =>
      some (0, { l with head := some element, size := size_inc l.size,
                        mem := Function.update l.mem element (some { next := some h, value := value }) })

/-- Function `list_pop_front`: the value and the list afterwards. -/
def list_pop_front {V : Type} (l : list_t V) : Option (V × list_t V) :=
  match l.head with
  | none => none
  | some tmp =>
    match l.mem tmp with
    | none => none
    | some e =>
      let tail1 := match e.next with
        | none => none
        | some _ => l.tail
      some (e.value, { l with head := e.next, tail := tail1,
                              mem := Function.update l.mem tmp none, size := size_dec l.size })

/-- Inline function `list_iterator_create`. -/
def list_iterator_create {V : Type} (_l : list_t V) : list_iterator_t :=
  { current := slot_t.head }

/-- Inline function `list_iterator_has_current`. -/
def list_iterator_has_current {V : Type} (l : list_t V) (iter : list_iterator_t) : Option Bool :=
  match slot_load l iter.current with
  | none => none
  | some p => some p.isSome

/-- Inline function `list_iterator_get_current`. -/
def list_iterator_get_current {V : Type} (l : list_t V) (iter : list_iterator_t) : Option V :=
  match slot_load l iter.current with
  | some (some a) =>
    match l.mem a with
    | none => none
    | some e => some e.value
  | _ => none

/-- Inline function `list_iterator_next`. -/
def list_iterator_next {V : Type} (l : list_t V) (iter : list_iterator_t) : Option list_iterator_t :=
  match slot_load l iter.current with
  | some (some a) => some { current := slot_t.next a }
  | _ => none

/-- The tail repair inside `list_iterator_remove_current`, run after the slot
has been rewritten; `tmp` is the element being removed. -/
def list_iterator_fix_tail {V : Type} (l1 : list_t V) (iter : list_iterator_t) (tmp : Nat) :
    Option (list_t V) :=
  if l1.tail = some tmp then
    match l1.head with
    | none => some { l1 with tail := none }
    | some _ =>
      match slot_owner iter.current with
      | none => none
      | some prev => some { l1 with tail := some prev }
  else some l1

/-- Function `list_iterator_remove_current`: the removed value and the list
afterwards; the iterator itself is not written. -/
def list_iterator_remove_current {V : Type} (l : list_t V) (iter : list_iterator_t) :
    Option (V × list_t V) :=
  match slot_load l iter.current with
  | some (some tmp) =>
    match l.mem tmp with
    | none => none
    | some e =>
      match slot_store l iter.current e.next with
      | none => none
      | some l1 =>
        match list_iterator_fix_tail l1 iter tmp with
        | none => none
        | some l2 =>
          some (e.value, { l2 with mem := Function.update l2.mem tmp none,
                                   size := size_dec l2.size })
  | _ => none

/-! ## Definitions: the loops of list_test.c -/

/-- The loop `while (has_current) { get_current; next; }` of the tests, from a
given cursor on: the values it reads, in order. -/
def list_iterate_from {V : Type} : Nat → list_t V → list_iterator_t → Option (List V)
  | 0, _, _ => none
  | fuel + 1, l, iter =>
    match list_iterator_has_current l iter with
    | none => none
    | some false => some []
    | some true =>
      match list_iterator_get_current l iter with
      | none => none
      | some v =>
        match list_iterator_next l iter with
        | none => none
        | some iter1 =>
          match list_iterate_from fuel l iter1 with
          | none => none
          | some vs => some (v :: vs)

/-- Forward cursor iteration from `list_iterator_create`. -/
def list_iterate {V : Type} (fuel : Nat) (l : list_t V) : Option (List V) :=
  list_iterate_from fuel l (list_iterator_create l)

/-- The loop of `test_list_iterator_remove_current`, from a given cursor on:
remove the current element when `p` holds of its value, else advance. -/
def list_remove_if_from {V : Type} (p : V → Bool) :
    Nat → list_t V → list_iterator_t → Option (list_t V)
  | 0, _, _ => none
  | fuel + 1, l, iter =>
    match list_iterator_has_current l iter with
    | none => none
    | some false => some l
    | some true =>
      match list_iterator_get_current l iter with
      | none => none
      | some v =>
        if p v then
          match list_iterator_remove_current l iter with
          | none => none
          | some (_, l1) => list_remove_if_from p fuel l1 iter
        else
          match list_iterator_next l iter with
          | none => none
          | some iter1 => list_remove_if_from p fuel l iter1

/-- A single forward traversal from `list_iterator_create` removing what
satisfies `p`. -/
def list_remove_if {V : Type} (p : V → Bool) (fuel : Nat) (l : list_t V) : Option (list_t V) :=
  list_remove_if_from p fuel l (list_iterator_create l)

/-- The loop `while (!list_empty(list)) list_pop_front(list)` of
`test_list_pop_front`: the popped values in order and the list afterwards. -/
def list_pop_all {V : Type} : Nat → list_t V → Option (List V × list_t V)
  | 0, _ => none
  | fuel + 1, l =>
    if list_empty l then some ([], l)
    else
      match list_pop_front l with
      | none => none
      | some (v, l1) =>
        match list_pop_all fuel l1 with
        | none => none
        | some (vs, l2) => some (v :: vs, l2)

/-- Pushing values one by one with `list_push_back`, each push asserted to
succeed as in the tests; every value comes with the address `calloc` returned
for its element. -/
def list_push_back_all {V : Type} (l : list_t V) : List (Nat × V) → Option (list_t V)
  | [] => some l
  | (a, v) :: rest =>
    match list_push_back l (some a) v with
    | none => none
    | some (err, l1) => if err = 0 then list_push_back_all l1 rest else none

/-- Pushing values one by one with `list_push_front`, as `list_push_back_all`. -/
def list_push_front_all {V : Type} (l : list_t V) : List (Nat × V) → Option (list_t V)
  | [] => some l
  | (a, v) :: rest =>
    match list_push_front l (some a) v with
    | none => none
    | some (err, l1) => if err = 0 then list_push_front_all l1 rest else none

/-! ## Definitions: what the list claims speak about -/

/-- The elements reached from pointer `p` by following `next` until pointer `q`
are exactly `xs`, given as (address, value) pairs in order. -/
def list_segment {V : Type} (mem : Nat → Option (list_element_t V)) :
    Option Nat → List (Nat × V) → Option Nat → Prop
  | p, [], q => p = q
  | p, x :: rest, q =>
    p = some x.1 ∧ ∃ n, mem x.1 = some { next := n, value := x.2 } ∧ list_segment mem n rest q

/-- The content sequence of a list: the elements reachable from `head`, up to
the null pointer. -/
def list_content {V : Type} (l : list_t V) (xs : List (Nat × V)) : Prop :=
  list_segment l.mem l.head xs none

/-- The list invariant of the data model: `size` is the number of elements
reachable from `head`; `tail` is null iff the chain is empty; `tail`, when not
null, is the final element reachable from `head` and has no successor. -/
def list_invariant {V : Type} (l : list_t V) : Prop :=
  ∃ xs : List (Nat × V), list_content l xs ∧ l.size = xs.length ∧
    (l.tail = none ↔ xs = []) ∧
    ∀ t, l.tail = some t →
      xs.getLast?.map Prod.fst = some t ∧ ∃ e, l.mem t = some e ∧ e.next = none

/-- The invariant with the content named: chain, size and tail all agree with `xs`. -/
def list_rep {V : Type} (l : list_t V) (xs : List (Nat × V)) : Prop :=
  list_content l xs ∧ l.size = xs.length ∧ l.tail = xs.getLast?.map Prod.fst

/-- The store of the list holds nothing but the elements of `xs`. -/
def list_owns {V : Type} (l : list_t V) (xs : List (Nat × V)) : Prop :=
  ∀ b, b ∉ xs.map Prod.fst → l.mem b = none

/-- The cursor is at position `i` of the content `xs`: it holds the slot that
points to the element at position `i`, which is `head` for `i = 0` and the
`next` field of the element at position `i - 1` otherwise. -/
def cursor_at {V : Type} (iter : list_iterator_t) (xs : List (Nat × V)) : Nat → Prop
  | 0 => iter.current = slot_t.head
  | j + 1 => ∃ x, xs[j]? = some x ∧ iter.current = slot_t.next x.1

/-! ## Definitions: the lists of list_test.c -/

/-- The list of `test_list_iterator_remove_current_two_elements_remove_first`:
values 0 and 1, held by elements at addresses 1 and 2. -/
def example_list_two : list_t Nat :=
  { value_deallocator := none
    head := some 1
    tail := some 2
    size := 2
    mem := fun a => if a = 1 then some { next := some 2, value := 0 }
                    else if a = 2 then some { next := none, value := 1 } else none }

/-- The list of `test_list_iterator_remove_current`: values 0 to 9 in push
order, the value `a` held by the element at address `a`. -/
def example_list_ten : list_t Nat :=
  { value_deallocator := none
    head := some 0
    tail := some 9
    size := 10
    mem := fun a => if a < 9 then some { next := some (a + 1), value := a }
                    else if a = 9 then some { next := none, value := 9 } else none }

/-- The content of `example_list_ten`. -/
def example_content_ten : List (Nat × Nat) :=
  [(0, 0), (1, 1), (2, 2), (3, 3), (4, 4), (5, 5), (6, 6), (7, 7), (8, 8), (9, 9)]

/-- The test of `test_list_iterator_remove_current`: the value is odd. -/
def value_is_odd (v : Nat) : Bool := v % 2 == 1

/-! ## Definitions: hash.c -/

/-- A C string is represented by the list of its bytes before the terminating
NUL, so the bytes in the list are between 1 and 255. -/
abbrev c_string := List Nat

/-- The conversion of `char c` to `uint64_t` in `hash += c` and `hash *= c`.
Plain `char` is signed here (as with gcc and clang on x86-64): a byte of 128 or
more is a negative `char`, which converts to `2 ^ 64 - 256 + byte`. -/
def char_to_uint64 (c : Nat) : Nat :=
  if c % 256 < 128 then c % 256 else 2 ^ 64 - 256 + c % 256

/-- One round of the loop of `hash_string`: five statements on a `uint64_t`. -/
def hash_string_step (hash c : Nat) : Nat :=
  let h1 := (hash + char_to_uint64 c) % 2 ^ 64
  let h2 := (h1 * char_to_uint64 c) % 2 ^ 64
  let h3 := (h2 + h2 / 2 ^ 8) % 2 ^ 64
  let h4 := (h3 + h3 / 2 ^ 16) % 2 ^ 64
  (h4 + h4 / 2 ^ 32) % 2 ^ 64

/-- Function `hash_string`. -/
def hash_string (s : c_string) : Nat := s.foldl hash_string_step 0

/-! ## Definitions: map.h, map.c -/

/-- Struct `map_element_t`; the key is the duplicate made by `string_copy`. -/
structure map_element_t where
  key : c_string
  hash_code : Nat
  value : generic_value_t
  value_deallocator : Option Nat
deriving DecidableEq, Repr

/-- A bucket: a list whose values are the `map_element_t*` it owns.  Each entry
is owned by exactly one list element, so the pointer is embedded as the entry
itself. -/
abbrev bucket_t := list_t map_element_t

/-- Struct `map_t`; `buckets i` is the slot `map->buckets[i]`, `none` when the
slot is null. -/
structure map_t where
  value_deallocator : Option Nat
  size : Nat
  capacity : Nat
  buckets : Nat → Option bucket_t

/-- Constant `INITIAL_CAPACITY`. -/
def INITIAL_CAPACITY : Nat := 10

/-- The function pointer `map_element_deallocator` handed to the bucket lists;
only its being non-null is used. -/
def map_element_deallocator_address : Nat := 1

/-- What the allocations inside one call of `map_insert` return: whether the
`calloc` of `list_create_with_value_deallocator`, the `calloc` of the entry and
the `malloc` of `string_copy` succeed, and the pointer returned by the `calloc`
of `list_element_create`. -/
structure map_allocs where
  bucket_ok : Bool
  element_ok : Bool
  key_ok : Bool
  node : Option Nat
deriving DecidableEq, Repr

/-- Function `map_create_with_value_deallocator`; `ok_map` and `ok_buckets` tell
whether the two `calloc` calls succeed. -/
def map_create_with_value_deallocator (ok_map ok_buckets : Bool)
    (value_deallocator : Option Nat) : error_t × Option map_t :=
  if !ok_map then (ERROR_OUT_OF_MEMORY, none)
  else if !ok_buckets then (ERROR_OUT_OF_MEMORY, none)
  else (0, some { value_deallocator := value_deallocator, size := 0,
                  capacity := INITIAL_CAPACITY, buckets := fun _ => none })

/-- Function `map_create`. -/
def map_create (ok_map ok_buckets : Bool) : error_t × Option map_t :=
  map_create_with_value_deallocator ok_map ok_buckets none

/-- The loop of `map_find_element` from a given cursor on.  The result is
`some none` for `false` and `some (some iter)` for `true` with `*iter` set. -/
def map_find_element_from (key : c_string) :
    Nat → bucket_t → list_iterator_t → Option (Option list_iterator_t)
  | 0, _, _ => none
  | fuel + 1, bucket, iter_tmp =>
    match list_iterator_has_current bucket iter_tmp with
    | none => none
    | some false => some none
    | some true =>
      match list_iterator_get_current bucket iter_tmp with
      | none => none
      | some tmp =>
        if tmp.key = key then some (some iter_tmp)
        else
          match list_iterator_next bucket iter_tmp with
          | none => none
          | some iter1 => map_find_element_from key fuel bucket iter1

/-- Function `map_find_element`. -/
def map_find_element (fuel : Nat) (bucket : bucket_t) (key : c_string) :
    Option (Option list_iterator_t) :=
  map_find_element_from key fuel bucket (list_iterator_create bucket)

/-- The statement `element->value = value` for the entry `element` read with
`list_iterator_get_current(&iter).p`. -/
def map_element_set_value (bucket : bucket_t) (iter : list_iterator_t)
    (value : generic_value_t) : Option bucket_t :=
  match slot_load bucket iter.current with
  | some (some a) =>
    match bucket.mem a with
    | none => none
    | some e =>
      some { bucket with
        mem := Function.update bucket.mem a (some { e with value := { e.value with value := value } }) }
  | _ => none

/-- The part of `map_insert` after the comment `Add new value.`, together with
the label `out_of_memory`.  `bucket` is the list the entry goes to and
`new_bucket` tells whether this call created it. -/
def map_insert_new (map : map_t) (index : Nat) (bucket : bucket_t) (new_bucket : Bool)
    (al : map_allocs) (hash_code : Nat) (key : c_string) (value : generic_value_t) :
    Option (error_t × map_t) :=
  let out_of_memory : map_t :=
    if new_bucket then { map with buckets := Function.update map.buckets index none } else map
  if !al.element_ok then some (ERROR_OUT_OF_MEMORY, out_of_memory)
  else if !al.key_ok then some (ERROR_OUT_OF_MEMORY, out_of_memory)
  else
    match list_push_back bucket al.node
        { key := key, hash_code := hash_code, value := value,
          value_deallocator := map.value_deallocator } with
    | none => none
    | some (err, bucket1) =>
      if err ≠ 0 then some (ERROR_OUT_OF_MEMORY, out_of_memory)
      else some (0, { map with buckets := Function.update map.buckets index (some bucket1),
                               size := size_inc map.size })

/-- Function `map_insert`. -/
def map_insert (fuel : Nat) (map : map_t) (al : map_allocs) (key : c_string)
    (value : generic_value_t) : Option (error_t × map_t) :=
  if map.capacity = 0 then none
  else
    let hash_code := hash_string key
    let index := hash_code % map.capacity
    match map.buckets index with
    | none =>
      match list_create_with_value_deallocator al.bucket_ok
          (some map_element_deallocator_address) with
      | (error, none) => some (error, map)
      | (_, some bucket) => map_insert_new map index bucket true al hash_code key value
    | some bucket =>
      match map_find_element fuel bucket key with
      | none => none
      | some (some iter) =>
        match map_element_set_value bucket iter value with
        | none => none
        | some bucket1 =>
          some (0, { map with buckets := Function.update map.buckets index (some bucket1) })
      | some none => map_insert_new map index bucket false al hash_code key value

/-- Function `map_get`; `out` is the content of `*value` before the call, and
the result carries the returned flag and the content of `*value` afterwards. -/
def map_get (fuel : Nat) (map : map_t) (key : c_string) (out : generic_value_t) :
    Option (Bool × generic_value_t) :=
  if map.capacity = 0 then none
  else
    let hash_code := hash_string key
    let index := hash_code % map.capacity
    match map.buckets index with
    | none => some (false, out)
    | some bucket =>
      match map_find_element fuel bucket key with
      | none => none
      | some none => some (false, out)
      | some (some iter) =>
        match list_iterator_get_current bucket iter with
        | none => none
        | some element => some (true, element.value)

/-- Function `map_remove`; `out` as in `map_get`, and the map afterwards. -/
def map_remove (fuel : Nat) (map : map_t) (key : c_string) (out : generic_value_t) :
    Option (Bool × generic_value_t × map_t) :=
  if map.capacity = 0 then none
  else
    let hash_code := hash_string key
    let index := hash_code % map.capacity
    match map.buckets index with
    | none => some (false, out, map)
    | some bucket =>
      match map_find_element fuel bucket key with
      | none => none
      | some none => some (false, out, map)
      | some (some iter) =>
        match list_iterator_remove_current bucket iter with
        | none => none
        | some (element, bucket1) =>
          let map1 : map_t :=
            { map with buckets := Function.update map.buckets index (some bucket1),
                       size := size_dec map.size }
          if list_size bucket1 = 0 then
            some (true, element.value,
              { map1 with buckets := Function.update map1.buckets index none })
          else some (true, element.value, map1)

/-- Inline function `map_size`. -/
def map_size (map : map_t) : Nat := map.size

/-- The insert loops of `map_test.c`: the pairs are inserted one by one, each
`map_insert` asserted to return 0; every pair comes with what the allocations
of its call return. -/
def map_insert_all (fuel : Nat) (map : map_t) :
    List (map_allocs × c_string × generic_value_t) → Option map_t
  | [] => some map
  | (al, key, value) :: rest =>
    match map_insert fuel map al key value with
    | none => none
    | some (err, map1) => if err = 0 then map_insert_all fuel map1 rest else none

/-! ## Definitions: what the map claims speak about -/

/-- The number of entries in the bucket at slot `i` (zero for a null slot). -/
def map_bucket_size (map : map_t) (i : Nat) : Nat :=
  match map.buckets i with
  | none => 0
  | some bucket => list_size bucket

/-- The map invariant of the data model: every non-null bucket slot holds a
list that satisfies the list invariant and is not empty, and the cached size is
the sum of the sizes of all bucket lists.  The capacity is not zero. -/
def map_invariant (map : map_t) : Prop :=
  0 < map.capacity ∧
  (∀ i, i < map.capacity → ∀ bucket, map.buckets i = some bucket →
    list_invariant bucket ∧ list_size bucket ≠ 0) ∧
  map.size = ∑ i ∈ Finset.range map.capacity, map_bucket_size map i

/-- The placement and uniqueness invariant: every entry of the bucket at slot
`i` has `hash_string key % capacity = i` and caches `hash_string key`, and no
two entries of a bucket have the same key. -/
def map_key_invariant (map : map_t) : Prop :=
  ∀ i, i < map.capacity → ∀ bucket es, map.buckets i = some bucket →
    list_content bucket es →
    (∀ x ∈ es, hash_string x.2.key % map.capacity = i ∧ x.2.hash_code = hash_string x.2.key) ∧
    (es.map (fun x => x.2.key)).Nodup

/-- The map invariants together. -/
def map_invariants (map : map_t) : Prop :=
  map_invariant map ∧ map_key_invariant map

/-- What `calloc` may return inside `map_insert` for the list element: a
pointer that is not the address of an element of the bucket the key selects. -/
def map_allocs_fresh (map : map_t) (al : map_allocs) (key : c_string) : Prop :=
  ∀ a bucket, al.node = some a →
    map.buckets (hash_string key % map.capacity) = some bucket → bucket.mem a = none

/-- The entries of the bucket at slot `i`, as (address, entry) pairs in list
order: none for a null slot, else the content of a well-formed non-empty list. -/
def map_bucket_rep (map : map_t) (i : Nat) (es : List (Nat × map_element_t)) : Prop :=
  match map.buckets i with
  | none => es = []
  | some bucket => list_rep bucket es ∧ es ≠ []

/-- The entry `x` with its value replaced by `value`. -/
def map_entry_with_value (x : Nat × map_element_t) (value : generic_value_t) :
    Nat × map_element_t :=
  (x.1, { x.2 with value := value })

/-- Every address at which some bucket of the map holds a list element is in `used`. -/
def map_mem_within (map : map_t) (used : List Nat) : Prop :=
  ∀ i bucket a, map.buckets i = some bucket → bucket.mem a ≠ none → a ∈ used

/-- The entry `map_insert` builds for a key that is not present. -/
def map_new_entry (map : map_t) (key : c_string) (value : generic_value_t) : map_element_t :=
  { key := key, hash_code := hash_string key, value := value,
    value_deallocator := map.value_deallocator }

/-- Every allocation of a call of `map_insert` succeeds. -/
def map_allocs_ok (al : map_allocs) : Prop :=
  al.bucket_ok = true ∧ al.element_ok = true ∧ al.key_ok = true ∧ al.node ≠ none

/-- The addresses `calloc` returns for list elements over a run of inserts. -/
def map_ops_nodes (ops : List (map_allocs × c_string × generic_value_t)) : List Nat :=
  ops.filterMap (fun op => op.1.node)

/-- The keys of a run of inserts, in order. -/
def map_ops_keys (ops : List (map_allocs × c_string × generic_value_t)) : List c_string :=
  ops.map (fun op => op.2.1)

/-- The value of the last insert of `key` in a run of inserts, if there is one. -/
def map_last_inserted (key : c_string) :
    List (map_allocs × c_string × generic_value_t) → Option generic_value_t
  | [] => none
  | op :: rest =>
    match map_last_inserted key rest with
    | some v => some v
    | none => if op.2.1 = key then some op.2.2 else none

/-! ## Definitions: the map iterator of map.h, map.c -/

/-- Struct `map_iterator_t`; its `map` field is the map passed along.
`bucket_list` is the field `bucket_iter.list`: a bucket list is owned by one
slot of the bucket array, so the pointer is given as the index of that slot
(`none` for the null pointer of the initialiser `{map, 0}`), and `bucket_iter`
keeps the cursor of the embedded `list_iterator_t`. -/
structure map_iterator_t where
  bucket_index : Nat
  bucket_list : Option Nat
  bucket_iter : list_iterator_t
deriving DecidableEq, Repr

/-- The loop of `map_iterator_find_bucket`, run for at most `steps` rounds. -/
def map_iterator_find_bucket_loop (map : map_t) : Nat → map_iterator_t → map_iterator_t
  | 0, iter => iter
  | steps + 1, iter =>
    if iter.bucket_index < map.capacity then
      match map.buckets iter.bucket_index with
      | some bucket =>
        { iter with bucket_list := some iter.bucket_index,
                    bucket_iter := list_iterator_create bucket }
      | none =>
        map_iterator_find_bucket_loop map steps { iter with bucket_index := iter.bucket_index + 1 }
    else iter

/-- Function `map_iterator_find_bucket`.  Every round that does not leave the
loop increments `bucket_index`, so the loop ends within
`capacity - bucket_index` rounds and the function is total. -/
def map_iterator_find_bucket (map : map_t) (iter : map_iterator_t) : map_iterator_t :=
  map_iterator_find_bucket_loop map (map.capacity - iter.bucket_index) iter

/-- Function `map_iterator_create`.  The initialiser `{map, 0}` zeroes
`bucket_iter`; its null `current` is given as the head slot of no list. -/
def map_iterator_create (map : map_t) : map_iterator_t :=
  map_iterator_find_bucket map
    { bucket_index := 0, bucket_list := none, bucket_iter := { current := slot_t.head } }

/-- Inline function `map_iterator_has_current`. -/
def map_iterator_has_current (map : map_t) (iter : map_iterator_t) : Bool :=
  decide (iter.bucket_index < map.capacity)

/-- Inline function `map_iterator_get_current`: the key and the value it sets. -/
def map_iterator_get_current (map : map_t) (iter : map_iterator_t) :
    Option (c_string × generic_value_t) :=
  match iter.bucket_list with
  | none => none
  | some li =>
    match map.buckets li with
    | none => none
    | some bucket =>
      match list_iterator_get_current bucket iter.bucket_iter with
      | none => none
      | some element => some (element.key, element.value)

/-- Function `map_iterator_remove_current`: what it returns, the map and the
iterator afterwards.  The function returns the `generic_value_t` it got from
`list_iterator_remove_current`, that is the list value, whose member `p` is the
pointer to the entry (embedded as the entry); `map_element_delete` has freed
that entry before the return. -/
def map_iterator_remove_current (map : map_t) (iter : map_iterator_t) :
    Option (map_element_t × map_t × map_iterator_t) :=
  match iter.bucket_list with
  | none => none
  | some li =>
    match map.buckets li with
    | none => none
    | some bucket0 =>
      match list_iterator_remove_current bucket0 iter.bucket_iter with
      | none => none
      | some (value, bucket1) =>
        let map1 : map_t := { map with buckets := Function.update map.buckets li (some bucket1) }
        match list_iterator_has_current bucket1 iter.bucket_iter with
        | none => none
        | some true => some (value, { map1 with size := size_dec map1.size }, iter)
        | some false =>
          if map1.capacity ≤ iter.bucket_index then none
          else
            match map1.buckets iter.bucket_index with
            | none => none
            | some bucket =>
              let map2 : map_t :=
                if list_size bucket = 0 then
                  { map1 with buckets := Function.update map1.buckets iter.bucket_index none }
                else map1
              let iter1 := map_iterator_find_bucket map2
                { iter with bucket_index := iter.bucket_index + 1 }
              some (value, { map2 with size := size_dec map2.size }, iter1)

/-- Function `map_iterator_next`. -/
def map_iterator_next (map : map_t) (iter : map_iterator_t) : Option map_iterator_t :=
  match iter.bucket_list with
  | none => none
  | some li =>
    match map.buckets li with
    | none => none
    | some bucket =>
      match list_iterator_next bucket iter.bucket_iter with
      | none => none
      | some iter1 =>
        match list_iterator_has_current bucket iter1 with
        | none => none
        | some true => some { iter with bucket_iter := iter1 }
        | some false =>
          some (map_iterator_find_bucket map
            { iter with bucket_iter := iter1, bucket_index := iter.bucket_index + 1 })

/-- The traversal loop of `test_map_iterator_next` from a given iterator on:
`get_current` then `next` while `has_current`; the (key, value) pairs read. -/
def map_iterate_from : Nat → map_t → map_iterator_t → Option (List (c_string × generic_value_t))
  | 0, _, _ => none
  | fuel + 1, map, iter =>
    if map_iterator_has_current map iter then
      match map_iterator_get_current map iter with
      | none => none
      | some kv =>
        match map_iterator_next map iter with
        | none => none
        | some iter1 =>
          match map_iterate_from fuel map iter1 with
          | none => none
          | some rest => some (kv :: rest)
    else some []

/-- A full traversal from `map_iterator_create`. -/
def map_iterate (fuel : Nat) (map : map_t) : Option (List (c_string × generic_value_t)) :=
  map_iterate_from fuel map (map_iterator_create map)

/-- The loop of `test_map_iterator_remove_current` from a given iterator on:
remove the current entry when `p` holds of its key and value, else advance. -/
def map_remove_if_from (p : c_string → generic_value_t → Bool) :
    Nat → map_t → map_iterator_t → Option map_t
  | 0, _, _ => none
  | fuel + 1, map, iter =>
    if map_iterator_has_current map iter then
      match map_iterator_get_current map iter with
      | none => none
      | some kv =>
        if p kv.1 kv.2 then
          match map_iterator_remove_current map iter with
          | none => none
          | some (_, map1, iter1) => map_remove_if_from p fuel map1 iter1
        else
          match map_iterator_next map iter with
          | none => none
          | some iter1 => map_remove_if_from p fuel map iter1
    else some map

/-- A single traversal from `map_iterator_create` removing what satisfies `p`. -/
def map_remove_if (p : c_string → generic_value_t → Bool) (fuel : Nat) (map : map_t) :
    Option map_t :=
  map_remove_if_from p fuel map (map_iterator_create map)

/-! ## Definitions: what the map iterator claims speak about -/

/-- The content of every bucket slot of the map: `E i` for slot `i`. -/
def map_rep (map : map_t) (E : Nat → List (Nat × map_element_t)) : Prop :=
  ∀ i, i < map.capacity → map_bucket_rep map i (E i)

/-- The entries of `n` consecutive bucket slots from slot `k` on, in order. -/
def map_entries_from (E : Nat → List (Nat × map_element_t)) : Nat → Nat → List (Nat × map_element_t)
  | 0, _ => []
  | n + 1, k => E k ++ map_entries_from E n (k + 1)

/-- The iterator is on the entry at position `j` of the bucket at slot `i`. -/
def map_cursor_at (map : map_t) (E : Nat → List (Nat × map_element_t)) (iter : map_iterator_t)
    (i j : Nat) : Prop :=
  iter.bucket_index = i ∧ i < map.capacity ∧ iter.bucket_list = some i ∧
    cursor_at iter.bucket_iter (E i) j ∧ j < (E i).length

/-- The iterator is at a position of the traversal, with `R` the entries still
to visit: either exhausted, or on an entry, with the rest of its bucket and the
buckets after it to come. -/
def map_iterator_pos (map : map_t) (E : Nat → List (Nat × map_element_t)) (iter : map_iterator_t)
    (R : List (Nat × map_element_t)) : Prop :=
  (map.capacity ≤ iter.bucket_index ∧ R = []) ∨
  ∃ i j, map_cursor_at map E iter i j ∧
    R = (E i).drop j ++ map_entries_from E (map.capacity - (i + 1)) (i + 1)

/-- The map iterator invariant of the data model: whenever the iterator reports
a current element, the bucket at `bucket_index` is not null, it is the list the
embedded cursor walks, and that cursor reports a current element. -/
def map_iterator_invariant (map : map_t) (iter : map_iterator_t) : Prop :=
  map_iterator_has_current map iter = true →
    ∃ bucket, map.buckets iter.bucket_index = some bucket ∧
      iter.bucket_list = some iter.bucket_index ∧
      list_iterator_has_current bucket iter.bucket_iter = some true

/-- The states (map, iterator) reached from `map_iterator_create` on `map0` by
calls of `map_iterator_next` and `map_iterator_remove_current`, each made while
`map_iterator_has_current` is true. -/
inductive map_iterator_reachable (map0 : map_t) : map_t → map_iterator_t → Prop where
  | create : map_iterator_reachable map0 map0 (map_iterator_create map0)
  | next (map : map_t) (iter iter1 : map_iterator_t) :
      map_iterator_reachable map0 map iter → map_iterator_has_current map iter = true →
      map_iterator_next map iter = some iter1 → map_iterator_reachable map0 map iter1
  | remove (map map1 : map_t) (iter iter1 : map_iterator_t) (value : map_element_t) :
      map_iterator_reachable map0 map iter → map_iterator_has_current map iter = true →
      map_iterator_remove_current map iter = some (value, map1, iter1) →
      map_iterator_reachable map0 map1 iter1

/-- During the removal traversal with `R` still to visit: the entry `y` stays if
it has been visited and kept, that is if it is not in `R`, or if `p` does not
hold of it. -/
def map_keep (p : c_string → generic_value_t → Bool) (R : List (Nat × map_element_t))
    (y : Nat × map_element_t) : Bool :=
  decide (y ∉ R) || !p y.2.key y.2.value

/-- The maps reached from a freshly created map by calls of `map_insert` (with
any allocation outcome, the list element address being fresh), of `map_remove`,
and by traversals from `map_iterator_create` that call `map_iterator_next` and
`map_iterator_remove_current` while `map_iterator_has_current` is true. -/
inductive map_reachable : map_t → Prop where
  | create (dealloc : Option Nat) (map0 : map_t) :
      map_create_with_value_deallocator true true dealloc = (0, some map0) → map_reachable map0
  | insert (fuel : Nat) (map map1 : map_t) (al : map_allocs) (key : c_string)
      (value : generic_value_t) (e : error_t) :
      map_reachable map → map.size < fuel → map_allocs_fresh map al key →
      map_insert fuel map al key value = some (e, map1) → map_reachable map1
  | remove (fuel : Nat) (map map1 : map_t) (key : c_string) (out out1 : generic_value_t)
      (found : Bool) :
      map_reachable map → map.size < fuel →
      map_remove fuel map key out = some (found, out1, map1) → map_reachable map1
  | iterate (map map1 : map_t) (iter : map_iterator_t) :
      map_reachable map → map_iterator_reachable map map1 iter → map_reachable map1

/-! ## Definitions: the history of a map -/

/-- The keys and values of a map in the order in which its entries were created,
after a `map_insert` of `key` with `value` that returned 0: the value of a key
that is present is replaced where it stands, a key that is not present goes to
the end. -/
def map_live_insert (L : List (c_string × generic_value_t)) (key : c_string)
    (value : generic_value_t) : List (c_string × generic_value_t) :=
  if key ∈ L.map Prod.fst then L.map (fun kv => if kv.1 = key then (key, value) else kv)
  else L ++ [(key, value)]

/-- The keys and values left, in their order, after the entries of the keys
`removed` are removed. -/
def map_live_remove (L : List (c_string × generic_value_t)) (removed : List c_string) :
    List (c_string × generic_value_t) :=
  L.filter (fun kv => decide (kv.1 ∉ removed))

/-- The part of the keys and values `L` that belongs to the bucket at slot `i`:
those whose key has `hash_string key % capacity = i`, in the order of `L`. -/
def map_live_bucket (L : List (c_string × generic_value_t)) (capacity i : Nat) :
    List (c_string × generic_value_t) :=
  L.filter (fun kv => decide (hash_string kv.1 % capacity = i))

/-- The states of a traversal of `map0` from `map_iterator_create`, with the
keys of the entries that `map_iterator_remove_current` has removed so far (the
key is the one `map_iterator_get_current` reports just before the removal). -/
inductive map_traversal (map0 : map_t) : map_t → map_iterator_t → List c_string → Prop where
  | create : map_traversal map0 map0 (map_iterator_create map0) []
  | next (map : map_t) (iter iter1 : map_iterator_t) (removed : List c_string) :
      map_traversal map0 map iter removed → map_iterator_has_current map iter = true →
      map_iterator_next map iter = some iter1 → map_traversal map0 map iter1 removed
  | remove (map map1 : map_t) (iter iter1 : map_iterator_t) (removed : List c_string)
      (key : c_string) (v : generic_value_t) (value : map_element_t) :
      map_traversal map0 map iter removed → map_iterator_has_current map iter = true →
      map_iterator_get_current map iter = some (key, v) →
      map_iterator_remove_current map iter = some (value, map1, iter1) →
      map_traversal map0 map1 iter1 (key :: removed)

/-- The maps reached from a freshly created map, each with the keys and values
it holds in the order in which its entries were created: `map_insert` that
returns 0 acts as `map_live_insert`, a failed `map_insert` changes nothing,
`map_remove` and the removals of a traversal drop the removed keys. -/
inductive map_history : map_t → List (c_string × generic_value_t) → Prop where
  | create (dealloc : Option Nat) (map0 : map_t) :
      map_create_with_value_deallocator true true dealloc = (0, some map0) →
      map_history map0 []
  | insert (fuel : Nat) (map map1 : map_t) (al : map_allocs) (key : c_string)
      (value : generic_value_t) (L : List (c_string × generic_value_t)) :
      map_history map L → map.size < fuel → map_allocs_fresh map al key →
      map_insert fuel map al key value = some (0, map1) →
      map_history map1 (map_live_insert L key value)
  | insert_failed (fuel : Nat) (map map1 : map_t) (al : map_allocs) (key : c_string)
      (value : generic_value_t) (e : error_t) (L : List (c_string × generic_value_t)) :
      map_history map L → map.size < fuel → map_allocs_fresh map al key → e ≠ 0 →
      map_insert fuel map al key value = some (e, map1) → map_history map1 L
  | remove (fuel : Nat) (map map1 : map_t) (key : c_string) (out out1 : generic_value_t)
      (found : Bool) (L : List (c_string × generic_value_t)) :
      map_history map L → map.size < fuel →
      map_remove fuel map key out = some (found, out1, map1) →
      map_history map1 (map_live_remove L [key])
  | traverse (map map1 : map_t) (iter : map_iterator_t) (removed : List c_string)
      (L : List (c_string × generic_value_t)) :
      map_history map L → map_traversal map map1 iter removed →
      map_history map1 (map_live_remove L removed)

/-- The keys of a sequence of inserts in the order in which they were first
inserted: every key once, at the place of its first insert. -/
def map_keys_first_inserted : List c_string → List c_string
  | [] => []
  | k :: ks => k :: (map_keys_first_inserted ks).filter (fun k1 => decide (k1 ≠ k))

/-! ## Definitions: the hash formula of the specification -/

/-- One round of the string hash as the specification words it: the three
shifts are of the accumulator value on the right-hand side of one assignment,
and `c` is the value of the byte. -/
def hash_string_spec_step (acc c : Nat) : Nat :=
  let a1 := (acc + c) % 2 ^ 64
  let a2 := (a1 * c) % 2 ^ 64
  (a2 + (a2 >>> 8) + (a2 >>> 16) + (a2 >>> 32)) % 2 ^ 64

/-- The string hash as the specification words it. -/
def hash_string_spec (s : c_string) : Nat := s.foldl hash_string_spec_step 0

/-- The string hash with every statement reading the accumulator as the
statement before left it, `c` being the value of the byte. -/
def hash_string_sequential : Nat → c_string → Nat
  | acc, [] => acc
  | acc, c :: s =>
    let a1 := (acc + c) % 2 ^ 64
    let a2 := (a1 * c) % 2 ^ 64
    let a3 := (a2 + (a2 >>> 8)) % 2 ^ 64
    let a4 := (a3 + (a3 >>> 16)) % 2 ^ 64
    let a5 := (a4 + (a4 >>> 32)) % 2 ^ 64
    hash_string_sequential a5 s

/-- Some allocation that a call of `map_insert` for an absent key performs
fails: the bucket list when the selected slot is null, the entry, the key
duplicate or the list element. -/
def map_insert_alloc_fails (map : map_t) (al : map_allocs) (key : c_string) : Prop :=
  (map.buckets (hash_string key % map.capacity) = none ∧ al.bucket_ok = false) ∨
  al.element_ok = false ∨ al.key_ok = false ∨ al.node = none

/-! ## Definitions: the maps of map_test.c -/

/-- The allocations of a call of `map_insert` when all succeed and `calloc`
returns the address `a` for the list element. -/
def example_allocs (a : Nat) : map_allocs :=
  { bucket_ok := true, element_ok := true, key_ok := true, node := some a }

/-- The inserts of `test_map_get`: the one-byte keys with byte values 1 to 10
and the values 0 to 9; the list element of the `i`-th insert is at address `i`. -/
def example_map_ops : List (map_allocs × c_string × generic_value_t) :=
  [(example_allocs 0, [1], 0), (example_allocs 1, [2], 1), (example_allocs 2, [3], 2),
   (example_allocs 3, [4], 3), (example_allocs 4, [5], 4), (example_allocs 5, [6], 5),
   (example_allocs 6, [7], 6), (example_allocs 7, [8], 7), (example_allocs 8, [9], 8),
   (example_allocs 9, [10], 9)]

/-- A freshly created map. -/
def example_map_empty : map_t :=
  { value_deallocator := none, size := 0, capacity := INITIAL_CAPACITY, buckets := fun _ => none }

/-- The entry of the key with the single byte 1 and the value 0. -/
def example_entry_one : map_element_t :=
  { key := [1], hash_code := 1, value := 0, value_deallocator := none }

/-- The bucket of `example_map_one`: one list element at address 0. -/
def example_bucket_one : bucket_t :=
  { value_deallocator := some map_element_deallocator_address
    head := some 0
    tail := some 0
    size := 1
    mem := fun a => if a = 0 then some { next := none, value := example_entry_one } else none }

/-- The map after the first insert of `test_map_get`: the key with the single
byte 1, which selects bucket 1, holds the value 0. -/
def example_map_one : map_t :=
  { value_deallocator := none
    size := 1
    capacity := INITIAL_CAPACITY
    buckets := fun i => if i = 1 then some example_bucket_one else none }

/-- The map of the tests of `map_test.c`: the ten inserts of `example_map_ops`
into a fresh map. -/
def example_map_ten : map_t :=
  (map_insert_all 11 example_map_empty example_map_ops).getD example_map_empty

/-- The test of `test_map_iterator_remove_current`: the value is odd. -/
def entry_is_odd (_key : c_string) (value : generic_value_t) : Bool := value % 2 == 1

/-- A fresh map after `map_insert` of the one-byte key 1 with value 0, the list
element being at address 0. -/
def example_history_one : map_t :=
  ((map_insert 5 example_map_empty (example_allocs 0) [1] 0).map Prod.snd).getD example_map_empty

/-- The map `example_history_one` after `map_insert` of the one-byte key 9 with
value 8, the list element being at address 9; both keys select bucket 1. -/
def example_history_two : map_t :=
  ((map_insert 5 example_history_one (example_allocs 9) [9] 8).map Prod.snd).getD
    example_map_empty

/-- The map `example_history_two` after `map_remove` of the key 1. -/
def example_history_three : map_t :=
  ((map_remove 5 example_history_two [1] 0).map (fun r => r.2.2)).getD example_map_empty

/-- The map `example_history_three` after `map_insert` of the key 1 with value 0
again, the list element being at the address 0 that the removal freed. -/
def example_history_four : map_t :=
  ((map_insert 5 example_history_three (example_allocs 0) [1] 0).map Prod.snd).getD
    example_map_empty

/-- The map `example_history_four` after a traversal that starts with
`map_iterator_create` and calls `map_iterator_remove_current` at once, which
removes the key 9. -/
def example_history_five : map_t :=
  ((map_iterator_remove_current example_history_four
    (map_iterator_create example_history_four)).map (fun r => r.2.1)).getD example_map_empty

/-! ## Lemmas: list segments -/

theorem list_segment_congr {V : Type} {mem mem1 : Nat → Option (list_element_t V)}
    (xs : List (Nat × V)) (p q : Option Nat)
    (hsame : ∀ a ∈ xs.map Prod.fst, mem1 a = mem a)
    (h : list_segment mem p xs q) : list_segment mem1 p xs q := by
  induction xs generalizing p with
  | nil => exact h
  | cons x rest ih =>
    obtain ⟨hp, n, hm, hrest⟩ := h
    refine ⟨hp, n, ?_, ih n (fun a ha => hsame a (by simp at ha ⊢; exact Or.inr ha)) hrest⟩
    rw [hsame x.1 (by simp)]; exact hm

theorem list_segment_append {V : Type} (mem : Nat → Option (list_element_t V))
    (xs ys : List (Nat × V)) (p q : Option Nat) :
    list_segment mem p (xs ++ ys) q ↔ ∃ m, list_segment mem p xs m ∧ list_segment mem m ys q := by
  induction xs generalizing p with
  | nil =>
    constructor
    · intro h; exact ⟨p, rfl, h⟩
    · rintro ⟨m, hm, h⟩
      have : p = m := hm
      subst this; exact h
  | cons x rest ih =>
    constructor
    · rintro ⟨hp, n, hm, hrest⟩
      obtain ⟨m, h1, h2⟩ := (ih n).1 hrest
      exact ⟨m, ⟨hp, n, hm, h1⟩, h2⟩
    · rintro ⟨m, ⟨hp, n, hm, h1⟩, h2⟩
      exact ⟨hp, n, hm, (ih n).2 ⟨m, h1, h2⟩⟩

theorem list_chain_functional {V : Type} (mem : Nat → Option (list_element_t V))
    (xs ys : List (Nat × V)) (p : Option Nat)
    (hx : list_segment mem p xs none) (hy : list_segment mem p ys none) : xs = ys := by
  induction xs generalizing p ys with
  | nil =>
    cases ys with
    | nil => rfl
    | cons y rest =>
      have h1 : p = none := hx
      have h2 : p = some y.1 := hy.1
      rw [h1] at h2; cases h2
  | cons x rest ih =>
    cases ys with
    | nil =>
      have h1 : p = none := hy
      have h2 : p = some x.1 := hx.1
      rw [h1] at h2; cases h2
    | cons y rest2 =>
      obtain ⟨hp, n, hm, hrest⟩ := hx
      obtain ⟨hp2, n2, hm2, hrest2⟩ := hy
      rw [hp] at hp2
      have hxy : x.1 = y.1 := Option.some.inj hp2
      rw [← hxy, hm] at hm2
      have hinj := Option.some.inj hm2
      have hn : n = n2 := congrArg list_element_t.next hinj
      have hv : x.2 = y.2 := congrArg list_element_t.value hinj
      subst hn
      rw [ih rest2 n hrest hrest2, Prod.ext hxy hv]

theorem list_chain_not_mem {V : Type} (mem : Nat → Option (list_element_t V))
    (x : Nat × V) (rest : List (Nat × V)) (p : Option Nat)
    (h : list_segment mem p (x :: rest) none) : x.1 ∉ rest.map Prod.fst := by
  intro hmem
  obtain ⟨y, hy, hyx⟩ := List.mem_map.1 hmem
  obtain ⟨r1, r2, hsplit⟩ := List.append_of_mem hy
  obtain ⟨hp, n, _, hrest⟩ := h
  have hwhole : list_segment mem p (x :: rest) none := ⟨hp, n, by assumption, hrest⟩
  rw [hsplit] at hrest
  obtain ⟨m, _, h2⟩ := (list_segment_append mem r1 (y :: r2) n none).1 hrest
  have hm : m = p := by rw [hp, h2.1, hyx]
  rw [hm] at h2
  have := list_chain_functional mem _ _ p hwhole h2
  have hlen := congrArg List.length this
  rw [hsplit] at hlen
  simp at hlen
  omega

theorem list_chain_nodup {V : Type} (mem : Nat → Option (list_element_t V))
    (xs : List (Nat × V)) (p : Option Nat)
    (h : list_segment mem p xs none) : (xs.map Prod.fst).Nodup := by
  induction xs generalizing p with
  | nil => simp
  | cons x rest ih =>
    have hnot := list_chain_not_mem mem x rest p h
    obtain ⟨_, n, _, hrest⟩ := h
    simpa using ⟨by simpa using hnot, ih n hrest⟩

theorem list_segment_update {V : Type} (mem : Nat → Option (list_element_t V))
    (xs : List (Nat × V)) (p q : Option Nat) (a : Nat) (e : Option (list_element_t V))
    (ha : a ∉ xs.map Prod.fst) (h : list_segment mem p xs q) :
    list_segment (Function.update mem a e) p xs q := by
  refine list_segment_congr xs p q (fun b hb => ?_) h
  have : b ≠ a := fun hba => ha (hba ▸ hb)
  simp [Function.update, this]

theorem list_getLast_split {V : Type} (pre : List (Nat × V)) (x : Nat × V) (rest : List (Nat × V))
    (hnd : ((pre ++ x :: rest).map Prod.fst).Nodup) :
    (pre ++ x :: rest).getLast?.map Prod.fst = some x.1 ↔ rest = [] := by
  constructor
  · intro h
    by_contra hne
    obtain ⟨z, hz⟩ : ∃ z, rest.getLast? = some z := by
      cases hr : rest.getLast? with
      | none => exact absurd (List.getLast?_eq_none_iff.1 hr) hne
      | some z => exact ⟨z, rfl⟩
    have hlast : (pre ++ x :: rest).getLast? = some z := by
      rw [List.getLast?_append, List.getLast?_cons]
      simp [hz]
    rw [hlast] at h
    have hzx : z.1 = x.1 := by simpa using h
    have hzmem : z ∈ rest := List.mem_of_getLast?_eq_some hz
    have hx : x.1 ∈ rest.map Prod.fst := List.mem_map.2 ⟨z, hzmem, hzx⟩
    rw [List.map_append, List.map_cons] at hnd
    have h2 := (List.nodup_append.1 hnd).2.1
    exact (List.nodup_cons.1 h2).1 hx
  · rintro rfl
    simp

theorem list_getLast_split_ne {V : Type} (pre : List (Nat × V)) (x : Nat × V)
    (rest : List (Nat × V)) (hne : rest ≠ []) :
    (pre ++ x :: rest).getLast? = (pre ++ rest).getLast? := by
  obtain ⟨z, hz⟩ : ∃ z, rest.getLast? = some z := by
    cases hr : rest.getLast? with
    | none => exact absurd (List.getLast?_eq_none_iff.1 hr) hne
    | some z => exact ⟨z, rfl⟩
  rw [List.getLast?_append, List.getLast?_append, List.getLast?_cons]
  simp [hz]

/-- Where the cursor at position `i` points: the slot can be read, and what it
holds is the start of the remaining content. -/
theorem cursor_slot {V : Type} (l : list_t V) (iter : list_iterator_t) (xs : List (Nat × V))
    (i : Nat) (hc : list_content l xs) (hcur : cursor_at iter xs i) :
    ∃ p, slot_load l iter.current = some p ∧ list_segment l.mem p (xs.drop i) none := by
  cases i with
  | zero =>
    have h0 : iter.current = slot_t.head := hcur
    exact ⟨l.head, by rw [h0]; rfl, by simpa using hc⟩
  | succ j =>
    obtain ⟨x, hx, hslot⟩ := hcur
    have hj : j < xs.length := (List.getElem?_eq_some_iff.1 hx).1
    have hsplit : xs = xs.take j ++ x :: xs.drop (j + 1) := by
      have := (List.getElem?_eq_some_iff.1 hx).2
      rw [← this]
      simp
    have hc2 : list_segment l.mem l.head (xs.take j ++ x :: xs.drop (j + 1)) none := by
      rw [← hsplit]; exact hc
    obtain ⟨m, _, hm, n, hmem, hrest⟩ := (list_segment_append _ _ _ _ _).1 hc2
    refine ⟨n, ?_, hrest⟩
    rw [hslot]
    simp [slot_load, hmem]

theorem list_segment_drop_get {V : Type} (mem : Nat → Option (list_element_t V))
    (xs : List (Nat × V)) (i : Nat) (p : Option Nat) (x : Nat × V) (hx : xs[i]? = some x)
    (h : list_segment mem p (xs.drop i) none) :
    p = some x.1 ∧ ∃ n, mem x.1 = some { next := n, value := x.2 } ∧
      list_segment mem n (xs.drop (i + 1)) none := by
  have hi : i < xs.length := (List.getElem?_eq_some_iff.1 hx).1
  have hd : xs.drop i = x :: xs.drop (i + 1) := by
    have := (List.getElem?_eq_some_iff.1 hx).2
    rw [← this]; simp
  rw [hd] at h
  exact h

theorem list_iterator_has_current_at {V : Type} (l : list_t V) (iter : list_iterator_t)
    (xs : List (Nat × V)) (i : Nat) (hc : list_content l xs) (hcur : cursor_at iter xs i) :
    list_iterator_has_current l iter = some (decide (i < xs.length)) := by
  obtain ⟨p, hp, hseg⟩ := cursor_slot l iter xs i hc hcur
  unfold list_iterator_has_current
  rw [hp]
  by_cases hi : i < xs.length
  · obtain ⟨x, hx⟩ : ∃ x, xs[i]? = some x := ⟨xs[i], List.getElem?_eq_getElem hi⟩
    obtain ⟨hpx, _⟩ := list_segment_drop_get l.mem xs i p x hx hseg
    simp [hpx, hi]
  · have hd : xs.drop i = [] := List.drop_eq_nil_of_le (by omega)
    rw [hd] at hseg
    have : p = none := hseg
    simp [this, hi]

theorem list_iterator_get_current_at {V : Type} (l : list_t V) (iter : list_iterator_t)
    (xs : List (Nat × V)) (i : Nat) (x : Nat × V) (hc : list_content l xs)
    (hcur : cursor_at iter xs i) (hx : xs[i]? = some x) :
    list_iterator_get_current l iter = some x.2 := by
  obtain ⟨p, hp, hseg⟩ := cursor_slot l iter xs i hc hcur
  obtain ⟨hpx, n, hmem, _⟩ := list_segment_drop_get l.mem xs i p x hx hseg
  unfold list_iterator_get_current
  rw [hp, hpx]
  simp [hmem]

theorem list_iterator_next_at {V : Type} (l : list_t V) (iter : list_iterator_t)
    (xs : List (Nat × V)) (i : Nat) (x : Nat × V) (hc : list_content l xs)
    (hcur : cursor_at iter xs i) (hx : xs[i]? = some x) :
    ∃ iter1, list_iterator_next l iter = some iter1 ∧ cursor_at iter1 xs (i + 1) := by
  obtain ⟨p, hp, hseg⟩ := cursor_slot l iter xs i hc hcur
  obtain ⟨hpx, _⟩ := list_segment_drop_get l.mem xs i p x hx hseg
  refine ⟨{ current := slot_t.next x.1 }, ?_, x, hx, rfl⟩
  unfold list_iterator_next
  rw [hp, hpx]

theorem size_dec_succ (n : Nat) : size_dec (n + 1) = n := by
  simp [size_dec]

theorem list_segment_head_some {V : Type} (mem : Nat → Option (list_element_t V))
    (pre : List (Nat × V)) (x : Nat × V) (rest : List (Nat × V)) (p q : Option Nat)
    (h : list_segment mem p (pre ++ x :: rest) q) : ∃ a, p = some a := by
  cases pre with
  | nil => exact ⟨x.1, h.1⟩
  | cons y pre1 => exact ⟨y.1, h.1⟩

/-- Removing the element at the cursor, with the content split around it. -/
theorem list_iterator_remove_current_rep {V : Type} (l : list_t V) (iter : list_iterator_t)
    (pre : List (Nat × V)) (x : Nat × V) (rest : List (Nat × V))
    (hrep : list_rep l (pre ++ x :: rest))
    (hcur : cursor_at iter (pre ++ x :: rest) pre.length) :
    ∃ l1, list_iterator_remove_current l iter = some (x.2, l1) ∧ list_rep l1 (pre ++ rest) ∧
      cursor_at iter (pre ++ rest) pre.length ∧
      (list_owns l (pre ++ x :: rest) → list_owns l1 (pre ++ rest)) ∧
      l1.value_deallocator = l.value_deallocator := by
  obtain ⟨hc, hsize, htail⟩ := hrep
  have hnd := list_chain_nodup l.mem _ l.head hc
  have htl := list_getLast_split pre x rest hnd
  rw [← htail] at htl
  rcases List.eq_nil_or_concat pre with hpre | ⟨pre1, y, hpre⟩
  · subst hpre
    have h0 : iter.current = slot_t.head := hcur
    obtain ⟨hh, n, hm, hrest⟩ := hc
    have hxr : x.1 ∉ rest.map Prod.fst := by
      have h1 := hnd
      rw [List.nil_append, List.map_cons, List.nodup_cons] at h1
      exact h1.1
    by_cases hr : rest = []
    · subst hr
      have hn : n = none := hrest
      subst hn
      have ht : l.tail = some x.1 := htl.2 rfl
      refine ⟨{ l with head := none, tail := none, mem := Function.update l.mem x.1 none,
                       size := size_dec l.size }, ?_, ⟨rfl, ?_, rfl⟩, h0, ?_, rfl⟩
      · simp [list_iterator_remove_current, h0, slot_load, slot_store, hh, hm,
          list_iterator_fix_tail, ht]
      · show size_dec l.size = 0
        rw [hsize]; rfl
      · intro _ b _
        show Function.update l.mem x.1 none b = none
        by_cases hb : b = x.1
        · rw [hb, Function.update_same]
        · rw [Function.update_noteq hb]
          apply_assumption
          simpa using hb
    · have ht : l.tail ≠ some x.1 := fun h => hr (htl.1 h)
      refine ⟨{ l with head := n, mem := Function.update l.mem x.1 none,
                       size := size_dec l.size }, ?_, ⟨?_, ?_, ?_⟩, h0, ?_, rfl⟩
      · simp [list_iterator_remove_current, h0, slot_load, slot_store, hh, hm,
          list_iterator_fix_tail, ht]
      · exact list_segment_update l.mem rest n none x.1 none hxr hrest
      · show size_dec l.size = (rest).length
        rw [hsize]; simp [size_dec]
      · show l.tail = _
        rw [htail]
        have := list_getLast_split_ne [] x rest hr
        simp only [List.nil_append] at this ⊢
        rw [this]
      · intro hown b hb
        show Function.update l.mem x.1 none b = none
        by_cases hbx : b = x.1
        · rw [hbx, Function.update_same]
        · rw [Function.update_noteq hbx]
          apply hown
          simp only [List.nil_append, List.map_cons, List.mem_cons, not_or] at hb ⊢
          exact ⟨hbx, hb⟩
  · rw [List.concat_eq_append] at hpre
    subst hpre
    obtain ⟨z, hz, hslot⟩ : ∃ z, (pre1 ++ [y] ++ x :: rest)[pre1.length]? = some z ∧
        iter.current = slot_t.next z.1 := by
      have := hcur
      rw [List.length_append] at this
      exact this
    have hzy : z = y := by
      have : (pre1 ++ [y] ++ x :: rest)[pre1.length]? = some y := by
        rw [List.append_assoc, List.getElem?_append_right (le_refl _)]
        simp
      rw [this] at hz; exact (Option.some.inj hz).symm
    subst hzy
    have hc1 : list_segment l.mem l.head (pre1 ++ z :: x :: rest) none := by
      simpa using hc
    obtain ⟨hd, hhd⟩ := list_segment_head_some _ _ _ _ _ _ hc1
    obtain ⟨m, hpre1, hmz, nz, hmemz, hnz, n, hmemx, hrest⟩ :=
      (list_segment_append _ _ _ _ _).1 hc1
    have hzx : nz = some x.1 := hnz
    subst hzx
    have hnd1 : ((pre1 ++ z :: x :: rest).map Prod.fst).Nodup := by simpa using hnd
    rw [List.map_append, List.nodup_append] at hnd1
    obtain ⟨_, hnd2, hdisj⟩ := hnd1
    simp only [List.map_cons, List.nodup_cons, List.mem_cons, not_or] at hnd2
    obtain ⟨⟨hzx, hzrest⟩, hxrest, _⟩ := hnd2
    have hzpre : z.1 ∉ pre1.map Prod.fst := fun h => hdisj h (by simp)
    have hxpre : x.1 ∉ pre1.map Prod.fst := fun h => hdisj h (by simp)
    let mem1 := Function.update l.mem z.1 (some { next := n, value := z.2 })
    let mem2 := Function.update mem1 x.1 none
    have hseg2 : list_segment mem2 l.head (pre1 ++ z :: rest) none := by
      refine (list_segment_append _ _ _ _ _).2 ⟨m, ?_, hmz, n, ?_, ?_⟩
      · exact list_segment_update _ _ _ _ _ _ hxpre
          (list_segment_update _ _ _ _ _ _ hzpre hpre1)
      · show Function.update mem1 x.1 none z.1 = _
        rw [Function.update_noteq hzx]
        simp [mem1]
      · exact list_segment_update _ _ _ _ _ _ hxrest
          (list_segment_update _ _ _ _ _ _ hzrest hrest)
    have hown2 : list_owns l (pre1 ++ [z] ++ x :: rest) →
        ∀ b, b ∉ (pre1 ++ [z] ++ rest).map Prod.fst → mem2 b = none := by
      intro hown b hb
      show Function.update mem1 x.1 none b = none
      by_cases hbx : b = x.1
      · rw [hbx, Function.update_same]
      · rw [Function.update_noteq hbx]
        have hbz : b ≠ z.1 := by
          intro h; apply hb; simp [h]
        show Function.update l.mem z.1 _ b = none
        rw [Function.update_noteq hbz]
        apply hown
        simp only [List.map_append, List.map_cons, List.mem_append, List.mem_cons,
          List.map_nil, List.not_mem_nil, or_false, not_or] at hb ⊢
        exact ⟨⟨hb.1.1, hb.1.2⟩, hbx, hb.2⟩
    have hcur2 : cursor_at iter (pre1 ++ [z] ++ rest) (pre1 ++ [z]).length := by
      have hlen : (pre1 ++ [z]).length = pre1.length + 1 := by simp
      rw [hlen]
      refine ⟨z, ?_, hslot⟩
      rw [List.append_assoc, List.getElem?_append_right (le_refl _)]
      simp
    by_cases hr : rest = []
    · subst hr
      have ht : l.tail = some x.1 := htl.2 rfl
      refine ⟨{ l with tail := some z.1, mem := mem2, size := size_dec l.size },
        ?_, ⟨?_, ?_, ?_⟩, hcur2, hown2, rfl⟩
      · simp [list_iterator_remove_current, hslot, slot_load, slot_store, hmemz, hmemx,
          list_iterator_fix_tail, ht, hhd, slot_owner, mem1, mem2]
      · simpa using hseg2
      · show size_dec l.size = _
        rw [hsize]; simp [size_dec]
      · simp
    · have ht : l.tail ≠ some x.1 := fun h => hr (htl.1 h)
      refine ⟨{ l with mem := mem2, size := size_dec l.size },
        ?_, ⟨?_, ?_, ?_⟩, hcur2, hown2, rfl⟩
      · simp [list_iterator_remove_current, hslot, slot_load, slot_store, hmemz, hmemx,
          list_iterator_fix_tail, ht, mem1, mem2]
      · simpa using hseg2
      · show size_dec l.size = _
        rw [hsize]; simp [size_dec]
      · show l.tail = _
        rw [htail]
        exact congrArg _ (list_getLast_split_ne (pre1 ++ [z]) x rest hr)

theorem list_segment_allocated {V : Type} (mem : Nat → Option (list_element_t V))
    (xs : List (Nat × V)) (p q : Option Nat) (h : list_segment mem p xs q) :
    ∀ b ∈ xs.map Prod.fst, mem b ≠ none := by
  induction xs generalizing p with
  | nil => intro b hb; simp at hb
  | cons x rest ih =>
    obtain ⟨_, n, hm, hrest⟩ := h
    intro b hb
    rw [List.map_cons, List.mem_cons] at hb
    rcases hb with hb | hb
    · rw [hb, hm]; simp
    · exact ih n hrest b hb

theorem list_segment_none {V : Type} (mem : Nat → Option (list_element_t V))
    (xs : List (Nat × V)) (h : list_segment mem none xs none) : xs = [] := by
  cases xs with
  | nil => rfl
  | cons x rest => exact absurd h.1 (by simp)

/-- Appending with `list_push_back`, given a fresh address. -/
theorem list_push_back_rep {V : Type} (l : list_t V) (xs : List (Nat × V)) (a : Nat) (v : V)
    (hrep : list_rep l xs) (hfresh : l.mem a = none) :
    ∃ l1, list_push_back l (some a) v = some (0, l1) ∧ list_rep l1 (xs ++ [(a, v)]) ∧
      (list_owns l xs → list_owns l1 (xs ++ [(a, v)])) ∧
      l1.value_deallocator = l.value_deallocator := by
  obtain ⟨hc, hsize, htail⟩ := hrep
  have ha : a ∉ xs.map Prod.fst := fun h => list_segment_allocated _ _ _ _ hc a h hfresh
  rcases List.eq_nil_or_concat xs with hxs | ⟨pre, y, hxs⟩
  · subst hxs
    have hh : l.head = none := hc
    refine ⟨{ l with head := some a, tail := some a, size := size_inc l.size,
                     mem := Function.update l.mem a (some { next := none, value := v }) },
      ?_, ⟨?_, ?_, rfl⟩, ?_, rfl⟩
    · simp [list_push_back, hh]
    · exact ⟨rfl, none, by simp, rfl⟩
    · show size_inc l.size = _
      rw [hsize]; rfl
    · intro _ b hb
      have hba : b ≠ a := by simpa using hb
      show Function.update l.mem a _ b = none
      rw [Function.update_noteq hba]
      apply_assumption
      simp
  · rw [List.concat_eq_append] at hxs
    subst hxs
    obtain ⟨hd, hhd⟩ := list_segment_head_some _ pre y [] _ _ hc
    have ht : l.tail = some y.1 := by rw [htail]; simp
    obtain ⟨m, hpre, hm, ny, hmemy, hny⟩ := (list_segment_append _ _ _ _ _).1 hc
    have hny2 : ny = none := hny
    subst hny2
    have hya : y.1 ≠ a := by
      intro h; apply ha; simp [h]
    have hapre : a ∉ pre.map Prod.fst := by
      intro h; apply ha; simp only [List.map_append, List.mem_append]; exact Or.inl h
    have hypre : y.1 ∉ pre.map Prod.fst := by
      have hnd := list_chain_nodup _ _ _ hc
      rw [List.map_append, List.nodup_append] at hnd
      intro h; exact hnd.2.2 h (by simp)
    let mem1 := Function.update l.mem a (some { next := none, value := v })
    let mem2 := Function.update mem1 y.1 (some { next := some a, value := y.2 })
    refine ⟨{ l with tail := some a, size := size_inc l.size, mem := mem2 },
      ?_, ⟨?_, ?_, ?_⟩, ?_, rfl⟩
    · simp [list_push_back, hhd, ht, Function.update_noteq hya, hmemy, mem1, mem2]
    · show list_segment mem2 l.head (pre ++ [y] ++ [(a, v)]) none
      rw [List.append_assoc]
      refine (list_segment_append _ _ _ _ _).2 ⟨m, ?_, hm, some a, ?_, rfl, none, ?_, rfl⟩
      · exact list_segment_update _ _ _ _ _ _ hypre
          (list_segment_update _ _ _ _ _ _ hapre hpre)
      · show Function.update mem1 y.1 _ y.1 = _
        rw [Function.update_same]
      · show Function.update mem1 y.1 _ a = _
        rw [Function.update_noteq (Ne.symm hya)]
        show Function.update l.mem a _ a = _
        rw [Function.update_same]
    · show size_inc l.size = _
      rw [hsize]; simp [size_inc]
    · simp
    · intro hown b hb
      simp only [List.map_append, List.map_cons, List.map_nil, List.mem_append, List.mem_cons,
        List.not_mem_nil, or_false, not_or] at hb
      show Function.update mem1 y.1 _ b = none
      rw [Function.update_noteq hb.1.2]
      show Function.update l.mem a _ b = none
      rw [Function.update_noteq hb.2]
      apply hown
      simp only [List.map_append, List.map_cons, List.map_nil, List.mem_append, List.mem_cons,
        List.not_mem_nil, or_false, not_or]
      exact hb.1

/-- Prepending with `list_push_front`, given a fresh address. -/
theorem list_push_front_rep {V : Type} (l : list_t V) (xs : List (Nat × V)) (a : Nat) (v : V)
    (hrep : list_rep l xs) (hfresh : l.mem a = none) :
    ∃ l1, list_push_front l (some a) v = some (0, l1) ∧ list_rep l1 ((a, v) :: xs) ∧
      (list_owns l xs → list_owns l1 ((a, v) :: xs)) ∧
      l1.value_deallocator = l.value_deallocator := by
  obtain ⟨hc, hsize, htail⟩ := hrep
  have ha : a ∉ xs.map Prod.fst := fun h => list_segment_allocated _ _ _ _ hc a h hfresh
  have hown : ∀ (m : Nat → Option (list_element_t V)) (e : Option (list_element_t V)),
      (∀ b, b ∉ xs.map Prod.fst → l.mem b = none) →
      ∀ b, b ∉ ((a, v) :: xs).map Prod.fst → Function.update l.mem a e b = none := by
    intro _ e hown b hb
    simp only [List.map_cons, List.mem_cons, not_or] at hb
    rw [Function.update_noteq hb.1]
    exact hown b hb.2
  cases hh : l.head with
  | none =>
    have hxs : xs = [] := by
      have := hc; unfold list_content at this; rw [hh] at this
      exact list_segment_none _ _ this
    subst hxs
    refine ⟨{ l with head := some a, tail := some a, size := size_inc l.size,
                     mem := Function.update l.mem a (some { next := none, value := v }) },
      ?_, ⟨?_, ?_, rfl⟩, hown l.mem _, rfl⟩
    · simp [list_push_front, hh]
    · exact ⟨rfl, none, by simp, rfl⟩
    · show size_inc l.size = _
      rw [hsize]; rfl
  | some h =>
    have hne : xs ≠ [] := by
      rintro rfl
      have : l.head = none := hc
      rw [hh] at this; cases this
    refine ⟨{ l with head := some a, size := size_inc l.size,
                     mem := Function.update l.mem a (some { next := some h, value := v }) },
      ?_, ⟨?_, ?_, ?_⟩, hown l.mem _, rfl⟩
    · simp [list_push_front, hh]
    · refine ⟨rfl, some h, by simp, ?_⟩
      rw [← hh]
      exact list_segment_update _ _ _ _ _ _ ha hc
    · show size_inc l.size = _
      rw [hsize]; simp [size_inc]
    · show l.tail = _
      rw [htail]
      cases xs with
      | nil => exact absurd rfl hne
      | cons y ys => rw [List.getLast?_cons_cons]

/-- Removing the first element with `list_pop_front`. -/
theorem list_pop_front_rep {V : Type} (l : list_t V) (x : Nat × V) (rest : List (Nat × V))
    (hrep : list_rep l (x :: rest)) :
    ∃ l1, list_pop_front l = some (x.2, l1) ∧ list_rep l1 rest ∧
      (list_owns l (x :: rest) → list_owns l1 rest) ∧
      l1.value_deallocator = l.value_deallocator := by
  obtain ⟨hc, hsize, htail⟩ := hrep
  have hxr := list_chain_not_mem _ _ _ _ hc
  obtain ⟨hh, n, hm, hrest⟩ := hc
  have hown : (∀ b, b ∉ (x :: rest).map Prod.fst → l.mem b = none) →
      ∀ b, b ∉ rest.map Prod.fst → Function.update l.mem x.1 none b = none := by
    intro hown b hb
    by_cases hbx : b = x.1
    · rw [hbx, Function.update_same]
    · rw [Function.update_noteq hbx]
      apply hown
      simp only [List.map_cons, List.mem_cons, not_or]
      exact ⟨hbx, hb⟩
  cases rest with
  | nil =>
    have hn : n = none := hrest
    subst hn
    refine ⟨{ l with head := none, tail := none, mem := Function.update l.mem x.1 none,
                     size := size_dec l.size }, ?_, ⟨rfl, ?_, rfl⟩, hown, rfl⟩
    · simp [list_pop_front, hh, hm]
    · show size_dec l.size = _
      rw [hsize]; rfl
  | cons y ys =>
    have hn : n = some y.1 := hrest.1
    subst hn
    refine ⟨{ l with head := some y.1, mem := Function.update l.mem x.1 none,
                     size := size_dec l.size }, ?_, ⟨?_, ?_, ?_⟩, hown, rfl⟩
    · simp [list_pop_front, hh, hm]
    · exact list_segment_update _ _ _ _ _ _ hxr hrest
    · show size_dec l.size = _
      rw [hsize]; simp [size_dec]
    · show l.tail = _
      rw [htail, List.getLast?_cons_cons]

theorem list_rep_invariant {V : Type} (l : list_t V) (xs : List (Nat × V))
    (hrep : list_rep l xs) : list_invariant l := by
  obtain ⟨hc, hsize, htail⟩ := hrep
  refine ⟨xs, hc, hsize, ?_, ?_⟩
  · rw [htail]
    constructor
    · intro h
      have : xs.getLast? = none := by
        cases hl : xs.getLast? with
        | none => rfl
        | some z => rw [hl] at h; cases h
      exact List.getLast?_eq_none_iff.1 this
    · rintro rfl; rfl
  · intro t ht
    rw [htail] at ht
    refine ⟨ht, ?_⟩
    rcases List.eq_nil_or_concat xs with hxs | ⟨pre, y, hxs⟩
    · subst hxs; cases ht
    · rw [List.concat_eq_append] at hxs
      subst hxs
      have hy : y.1 = t := by simpa using ht
      obtain ⟨m, _, _, ny, hmemy, hny⟩ := (list_segment_append _ _ _ _ _).1 hc
      have hny2 : ny = none := hny
      exact ⟨_, hy ▸ hmemy, hny2⟩

theorem list_invariant_rep {V : Type} (l : list_t V) (xs : List (Nat × V))
    (hinv : list_invariant l) (hc : list_content l xs) : list_rep l xs := by
  obtain ⟨ys, hcy, hsize, hnull, hlast⟩ := hinv
  have hxy : ys = xs := list_chain_functional _ _ _ _ hcy hc
  subst hxy
  refine ⟨hc, hsize, ?_⟩
  cases ht : l.tail with
  | none => rw [hnull.1 ht]; rfl
  | some t => exact ((hlast t ht).1).symm

theorem list_invariant_content {V : Type} (l : list_t V) (hinv : list_invariant l) :
    ∃ xs, list_rep l xs := by
  obtain ⟨xs, hc, _⟩ := id hinv
  exact ⟨xs, list_invariant_rep l xs hinv hc⟩

theorem list_get_front_rep {V : Type} (l : list_t V) (xs : List (Nat × V))
    (hrep : list_rep l xs) : list_get_front l = (xs.map Prod.snd).head? := by
  obtain ⟨hc, _, _⟩ := hrep
  cases xs with
  | nil =>
    have : l.head = none := hc
    simp [list_get_front, this]
  | cons x rest =>
    obtain ⟨hh, n, hm, _⟩ := hc
    simp [list_get_front, hh, hm]

theorem list_get_back_rep {V : Type} (l : list_t V) (xs : List (Nat × V))
    (hrep : list_rep l xs) : list_get_back l = (xs.map Prod.snd).getLast? := by
  obtain ⟨hc, _, htail⟩ := hrep
  rcases List.eq_nil_or_concat xs with hxs | ⟨pre, y, hxs⟩
  · subst hxs
    have : l.tail = none := htail
    simp [list_get_back, this]
  · rw [List.concat_eq_append] at hxs
    subst hxs
    have ht : l.tail = some y.1 := by rw [htail]; simp
    obtain ⟨m, _, _, ny, hmemy, _⟩ := (list_segment_append _ _ _ _ _).1 hc
    simp [list_get_back, ht, hmemy]

/-- Iterating from position `pre.length` reads the rest of the content. -/
theorem list_iterate_from_rep {V : Type} (l : list_t V) (post : List (Nat × V)) :
    ∀ (pre : List (Nat × V)) (iter : list_iterator_t) (fuel : Nat),
      list_content l (pre ++ post) → cursor_at iter (pre ++ post) pre.length →
      post.length < fuel → list_iterate_from fuel l iter = some (post.map Prod.snd) := by
  induction post with
  | nil =>
    intro pre iter fuel hc hcur hfuel
    obtain ⟨k, rfl⟩ : ∃ k, fuel = k + 1 := ⟨fuel - 1, by omega⟩
    have hhas := list_iterator_has_current_at l iter _ _ hc hcur
    simp [list_iterate_from, hhas]
  | cons x rest ih =>
    intro pre iter fuel hc hcur hfuel
    obtain ⟨k, rfl⟩ : ∃ k, fuel = k + 1 := ⟨fuel - 1, by omega⟩
    have hx : (pre ++ x :: rest)[pre.length]? = some x := by
      rw [List.getElem?_append_right (le_refl _)]; simp
    have hhas := list_iterator_has_current_at l iter _ _ hc hcur
    have hget := list_iterator_get_current_at l iter _ _ x hc hcur hx
    obtain ⟨iter1, hnext, hcur1⟩ := list_iterator_next_at l iter _ _ x hc hcur hx
    have hsplit : pre ++ x :: rest = (pre ++ [x]) ++ rest := by simp
    have hlen : pre.length + 1 = (pre ++ [x]).length := by simp
    rw [hsplit] at hc hcur1
    rw [hlen] at hcur1
    have hrec := ih (pre ++ [x]) iter1 k hc hcur1 (by simpa using hfuel)
    simp [list_iterate_from, hhas, hget, hnext, hrec]

theorem list_iterate_rep {V : Type} (l : list_t V) (xs : List (Nat × V)) (fuel : Nat)
    (hc : list_content l xs) (hfuel : xs.length < fuel) :
    list_iterate fuel l = some (xs.map Prod.snd) :=
  list_iterate_from_rep l xs [] (list_iterator_create l) fuel hc rfl hfuel

/-- The removal loop from position `pre.length` on. -/
theorem list_remove_if_from_rep {V : Type} (p : V → Bool) (post : List (Nat × V)) :
    ∀ (l : list_t V) (pre : List (Nat × V)) (iter : list_iterator_t) (fuel : Nat),
      list_rep l (pre ++ post) → cursor_at iter (pre ++ post) pre.length →
      post.length < fuel →
      ∃ l1, list_remove_if_from p fuel l iter = some l1 ∧
        list_rep l1 (pre ++ post.filter (fun x => !p x.2)) := by
  induction post with
  | nil =>
    intro l pre iter fuel hrep hcur hfuel
    obtain ⟨k, rfl⟩ : ∃ k, fuel = k + 1 := ⟨fuel - 1, by omega⟩
    have hhas := list_iterator_has_current_at l iter _ _ hrep.1 hcur
    exact ⟨l, by simp [list_remove_if_from, hhas], by simpa using hrep⟩
  | cons x rest ih =>
    intro l pre iter fuel hrep hcur hfuel
    obtain ⟨k, rfl⟩ : ∃ k, fuel = k + 1 := ⟨fuel - 1, by omega⟩
    have hx : (pre ++ x :: rest)[pre.length]? = some x := by
      rw [List.getElem?_append_right (le_refl _)]; simp
    have hhas := list_iterator_has_current_at l iter _ _ hrep.1 hcur
    have hget := list_iterator_get_current_at l iter _ _ x hrep.1 hcur hx
    by_cases hp : p x.2 = true
    · obtain ⟨l1, hrm, hrep1, hcur1, _⟩ :=
        list_iterator_remove_current_rep l iter pre x rest hrep hcur
      obtain ⟨l2, hrec, hrep2⟩ := ih l1 pre iter k hrep1 hcur1 (by simpa using hfuel)
      refine ⟨l2, ?_, ?_⟩
      · simp [list_remove_if_from, hhas, hget, hp, hrm, hrec]
      · simpa [List.filter_cons, hp] using hrep2
    · obtain ⟨iter1, hnext, hcur1⟩ := list_iterator_next_at l iter _ _ x hrep.1 hcur hx
      have hsplit : pre ++ x :: rest = (pre ++ [x]) ++ rest := by simp
      have hlen : pre.length + 1 = (pre ++ [x]).length := by simp
      rw [hsplit] at hrep hcur1
      rw [hlen] at hcur1
      obtain ⟨l2, hrec, hrep2⟩ := ih l (pre ++ [x]) iter1 k hrep hcur1 (by simpa using hfuel)
      refine ⟨l2, ?_, ?_⟩
      · simp [list_remove_if_from, hhas, hget, hp, hnext, hrec]
      · simpa [List.filter_cons, hp] using hrep2

theorem list_pop_all_rep {V : Type} (xs : List (Nat × V)) :
    ∀ (l : list_t V) (fuel : Nat), list_rep l xs → xs.length < fuel →
      ∃ l1, list_pop_all fuel l = some (xs.map Prod.snd, l1) ∧ list_rep l1 [] := by
  induction xs with
  | nil =>
    intro l fuel hrep hfuel
    obtain ⟨k, rfl⟩ : ∃ k, fuel = k + 1 := ⟨fuel - 1, by omega⟩
    have hs : l.size = 0 := hrep.2.1
    exact ⟨l, by simp [list_pop_all, list_empty, hs], hrep⟩
  | cons x rest ih =>
    intro l fuel hrep hfuel
    obtain ⟨k, rfl⟩ : ∃ k, fuel = k + 1 := ⟨fuel - 1, by omega⟩
    have hs : l.size = rest.length + 1 := hrep.2.1
    obtain ⟨l1, hpop, hrep1, _⟩ := list_pop_front_rep l x rest hrep
    obtain ⟨l2, hrec, hrep2⟩ := ih l1 k hrep1 (by simpa using hfuel)
    exact ⟨l2, by simp [list_pop_all, list_empty, hs, hpop, hrec], hrep2⟩

theorem list_push_back_all_rep {V : Type} (avs : List (Nat × V)) :
    ∀ (l : list_t V) (xs : List (Nat × V)), list_rep l xs → list_owns l xs →
      ((xs ++ avs).map Prod.fst).Nodup →
      ∃ l1, list_push_back_all l avs = some l1 ∧ list_rep l1 (xs ++ avs) ∧
        list_owns l1 (xs ++ avs) := by
  induction avs with
  | nil =>
    intro l xs hrep hown _
    exact ⟨l, rfl, by simpa using hrep, by simpa using hown⟩
  | cons y rest ih =>
    intro l xs hrep hown hnd
    have hsplit : xs ++ y :: rest = (xs ++ [y]) ++ rest := by simp
    have hfresh : l.mem y.1 = none := by
      apply hown
      rw [List.map_append, List.nodup_append] at hnd
      intro h; exact hnd.2.2 h (by simp)
    obtain ⟨l1, hpush, hrep1, hown1, _⟩ := list_push_back_rep l xs y.1 y.2 hrep hfresh
    rw [hsplit] at hnd ⊢
    obtain ⟨l2, hrec, hrep2, hown2⟩ := ih l1 (xs ++ [y]) hrep1 (hown1 hown) hnd
    exact ⟨l2, by simp [list_push_back_all, hpush, hrec], hrep2, hown2⟩

theorem list_push_front_all_rep {V : Type} (avs : List (Nat × V)) :
    ∀ (l : list_t V) (xs : List (Nat × V)), list_rep l xs → list_owns l xs →
      ((avs.reverse ++ xs).map Prod.fst).Nodup →
      ∃ l1, list_push_front_all l avs = some l1 ∧ list_rep l1 (avs.reverse ++ xs) ∧
        list_owns l1 (avs.reverse ++ xs) := by
  induction avs with
  | nil =>
    intro l xs hrep hown _
    exact ⟨l, rfl, by simpa using hrep, by simpa using hown⟩
  | cons y rest ih =>
    intro l xs hrep hown hnd
    have hsplit : (y :: rest).reverse ++ xs = rest.reverse ++ (y :: xs) := by simp
    have hfresh : l.mem y.1 = none := by
      apply hown
      rw [hsplit, List.map_append, List.nodup_append] at hnd
      exact (List.nodup_cons.1 hnd.2.1).1
    obtain ⟨l1, hpush, hrep1, hown1, _⟩ := list_push_front_rep l xs y.1 y.2 hrep hfresh
    rw [hsplit] at hnd ⊢
    obtain ⟨l2, hrec, hrep2, hown2⟩ := ih l1 (y :: xs) hrep1 (hown1 hown) hnd
    exact ⟨l2, by simp [list_push_front_all, hpush, hrec], hrep2, hown2⟩

theorem list_split_at {V : Type} (xs : List (Nat × V)) (i : Nat) (x : Nat × V)
    (hx : xs[i]? = some x) :
    ∃ pre rest, xs = pre ++ x :: rest ∧ pre.length = i ∧ xs.eraseIdx i = pre ++ rest := by
  obtain ⟨hi, hget⟩ := List.getElem?_eq_some_iff.1 hx
  refine ⟨xs.take i, xs.drop (i + 1), ?_, ?_, List.eraseIdx_eq_take_drop_succ xs i⟩
  · rw [← hget, ← List.drop_eq_getElem_cons hi, List.take_append_drop]
  · simp; omega

theorem list_has_current_lt {V : Type} (l : list_t V) (iter : list_iterator_t)
    (xs : List (Nat × V)) (i : Nat) (hc : list_content l xs) (hcur : cursor_at iter xs i)
    (hhas : list_iterator_has_current l iter = some true) : i < xs.length := by
  rw [list_iterator_has_current_at l iter xs i hc hcur] at hhas
  simpa using hhas

theorem example_list_two_content : list_content example_list_two [(1, 0), (2, 1)] := by
  simp [list_content, list_segment, example_list_two]

theorem example_list_two_invariant : list_invariant example_list_two :=
  ⟨[(1, 0), (2, 1)], example_list_two_content, rfl, by simp [example_list_two],
    by simp [example_list_two]⟩

theorem example_list_ten_content : list_content example_list_ten example_content_ten := by
  simp [list_content, list_segment, example_list_ten, example_content_ten]

theorem example_list_ten_invariant : list_invariant example_list_ten :=
  ⟨example_content_ten, example_list_ten_content, rfl,
    by simp [example_list_ten, example_content_ten],
    by simp [example_list_ten, example_content_ten]⟩

/-! ## Theorems: the list claims -/

/-- C1: on a list satisfying the invariant, with the cursor at position `i` of
the content `xs` and `list_iterator_has_current` true,
`list_iterator_remove_current` returns the value at position `i`, the content
becomes `xs` with position `i` erased, the invariant still holds, and the cursor
is then at the element that followed the removed one (`has_current` true and
`get_current` its value) or exhausted when `i` was the last position. -/
theorem list_iterator_remove_current_spec {V : Type} (l : list_t V) (iter : list_iterator_t)
    (xs : List (Nat × V)) (i : Nat) (hinv : list_invariant l) (hxs : list_content l xs)
    (hcur : cursor_at iter xs i) (hhas : list_iterator_has_current l iter = some true) :
    ∃ x l1, xs[i]? = some x ∧
      list_iterator_remove_current l iter = some (x.2, l1) ∧
      list_content l1 (xs.eraseIdx i) ∧ list_invariant l1 ∧
      cursor_at iter (xs.eraseIdx i) i ∧
      (∀ y, xs[i + 1]? = some y →
        list_iterator_has_current l1 iter = some true ∧
        list_iterator_get_current l1 iter = some y.2) ∧
      (xs[i + 1]? = none → list_iterator_has_current l1 iter = some false) := by
  have hi := list_has_current_lt l iter xs i hxs hcur hhas
  have hx : xs[i]? = some xs[i] := List.getElem?_eq_getElem hi
  obtain ⟨pre, rest, hsplit, hlen, herase⟩ := list_split_at xs i xs[i] hx
  have hrep := list_invariant_rep l xs hinv hxs
  rw [hsplit] at hrep
  have hcur0 : cursor_at iter (pre ++ xs[i] :: rest) pre.length := by
    rw [← hsplit, hlen]; exact hcur
  obtain ⟨l1, hrm, hrep1, hcur1, _⟩ :=
    list_iterator_remove_current_rep l iter pre xs[i] rest hrep hcur0
  rw [← herase, hlen] at hcur1
  rw [← herase] at hrep1
  have hnext : (xs.eraseIdx i)[i]? = xs[i + 1]? := by
    rw [List.getElem?_eraseIdx_of_ge xs i i (le_refl i)]
  refine ⟨xs[i], l1, hx, hrm, hrep1.1, list_rep_invariant l1 _ hrep1, hcur1, ?_, ?_⟩
  · intro y hy
    rw [← hnext] at hy
    have hlt : i < (xs.eraseIdx i).length := (List.getElem?_eq_some_iff.1 hy).1
    refine ⟨?_, list_iterator_get_current_at l1 iter _ i y hrep1.1 hcur1 hy⟩
    rw [list_iterator_has_current_at l1 iter _ i hrep1.1 hcur1]
    simp [hlt]
  · intro hy
    rw [← hnext] at hy
    have hge : (xs.eraseIdx i).length ≤ i := List.getElem?_eq_none_iff.1 hy
    rw [list_iterator_has_current_at l1 iter _ i hrep1.1 hcur1]
    simp [hge]

/-- Witness for C1: the test with two elements, removing the first. -/
theorem list_iterator_remove_current_spec_witness :
    ∃ x l1, [(1, 0), (2, 1)][0]? = some x ∧
      list_iterator_remove_current example_list_two (list_iterator_create example_list_two)
        = some (x.2, l1) ∧
      list_content l1 ([(1, 0), (2, 1)].eraseIdx 0) ∧ list_invariant l1 ∧
      cursor_at (list_iterator_create example_list_two) ([(1, 0), (2, 1)].eraseIdx 0) 0 ∧
      (∀ y, [(1, 0), (2, 1)][0 + 1]? = some y →
        list_iterator_has_current l1 (list_iterator_create example_list_two) = some true ∧
        list_iterator_get_current l1 (list_iterator_create example_list_two) = some y.2) ∧
      ([(1, 0), (2, 1)][0 + 1]? = none →
        list_iterator_has_current l1 (list_iterator_create example_list_two) = some false) :=
  list_iterator_remove_current_spec example_list_two (list_iterator_create example_list_two)
    [(1, 0), (2, 1)] 0 example_list_two_invariant example_list_two_content rfl rfl

theorem list_create_rep {V : Type} (d : Option Nat) (l0 : list_t V)
    (hnew : list_create_with_value_deallocator true d = (0, some l0)) :
    list_rep l0 [] ∧ list_owns l0 [] := by
  simp only [list_create_with_value_deallocator, if_true, Prod.mk.injEq, Option.some.injEq,
    true_and] at hnew
  subst hnew
  exact ⟨⟨rfl, rfl, rfl⟩, fun _ _ => rfl⟩

/-- C2: the list invariant holds for a freshly created list and is preserved by
`list_push_back` and `list_push_front` (whatever `calloc` returns), by
`list_pop_front` on a non-empty list, and by `list_iterator_remove_current` at
every cursor position with a current element: removing the sole element leaves
`head` and `tail` null, removing the tail of a list of at least two elements
makes the predecessor the tail (`list_get_back` is the value that was second to
last), and removing any other element leaves `tail` as it was. -/
theorem list_invariant_preserved {V : Type} (l : list_t V) (hinv : list_invariant l) :
    (∀ d : Option Nat, ∃ l0 : list_t V,
        list_create_with_value_deallocator true d = (0, some l0) ∧ list_invariant l0) ∧
    (∀ (r : Option Nat) (v : V), (∀ a, r = some a → l.mem a = none) →
        ∃ e l1, list_push_back l r v = some (e, l1) ∧ list_invariant l1) ∧
    (∀ (r : Option Nat) (v : V), (∀ a, r = some a → l.mem a = none) →
        ∃ e l1, list_push_front l r v = some (e, l1) ∧ list_invariant l1) ∧
    (list_empty l = false → ∃ v l1, list_pop_front l = some (v, l1) ∧ list_invariant l1) ∧
    (∀ (iter : list_iterator_t) (xs : List (Nat × V)) (i : Nat),
        list_content l xs → cursor_at iter xs i →
        list_iterator_has_current l iter = some true →
        ∃ v l1, list_iterator_remove_current l iter = some (v, l1) ∧ list_invariant l1 ∧
          (xs.length = 1 → l1.head = none ∧ l1.tail = none) ∧
          (2 ≤ xs.length → i + 1 = xs.length →
            l1.tail = (xs[i - 1]?).map Prod.fst ∧
            list_get_back l1 = (xs[i - 1]?).map Prod.snd) ∧
          (i + 1 < xs.length → l1.tail = l.tail)) := by
  obtain ⟨ys, hrep⟩ := list_invariant_content l hinv
  refine ⟨?_, ?_, ?_, ?_, ?_⟩
  · intro d
    refine ⟨{ value_deallocator := d, head := none, tail := none, size := 0,
              mem := fun _ => none }, rfl, ?_⟩
    exact list_rep_invariant _ [] ⟨rfl, rfl, rfl⟩
  · intro r v hfresh
    cases r with
    | none => exact ⟨ERROR_OUT_OF_MEMORY, l, rfl, hinv⟩
    | some a =>
      obtain ⟨l1, hpush, hrep1, _⟩ := list_push_back_rep l ys a v hrep (hfresh a rfl)
      exact ⟨0, l1, hpush, list_rep_invariant l1 _ hrep1⟩
  · intro r v hfresh
    cases r with
    | none => exact ⟨ERROR_OUT_OF_MEMORY, l, rfl, hinv⟩
    | some a =>
      obtain ⟨l1, hpush, hrep1, _⟩ := list_push_front_rep l ys a v hrep (hfresh a rfl)
      exact ⟨0, l1, hpush, list_rep_invariant l1 _ hrep1⟩
  · intro hne
    cases ys with
    | nil =>
      have hs : l.size = 0 := hrep.2.1
      simp [list_empty, hs] at hne
    | cons x rest =>
      obtain ⟨l1, hpop, hrep1, _⟩ := list_pop_front_rep l x rest hrep
      exact ⟨x.2, l1, hpop, list_rep_invariant l1 _ hrep1⟩
  · intro iter xs i hxs hcur hhas
    have hi := list_has_current_lt l iter xs i hxs hcur hhas
    have hx : xs[i]? = some xs[i] := List.getElem?_eq_getElem hi
    obtain ⟨pre, rest, hsplit, hlen, _⟩ := list_split_at xs i xs[i] hx
    have hrepx := list_invariant_rep l xs hinv hxs
    have htl : l.tail = xs.getLast?.map Prod.fst := hrepx.2.2
    generalize xs[i] = x at hsplit
    subst hsplit
    subst hlen
    obtain ⟨l1, hrm, hrep1, _, _⟩ :=
      list_iterator_remove_current_rep l iter pre x rest hrepx hcur
    refine ⟨x.2, l1, hrm, list_rep_invariant l1 _ hrep1, ?_, ?_, ?_⟩
    · intro h1
      have hpre : pre = [] := by
        cases pre with
        | nil => rfl
        | cons y ys => simp at h1
      have hrest : rest = [] := by
        cases rest with
        | nil => rfl
        | cons y ys => simp at h1; omega
      subst hpre; subst hrest
      exact ⟨hrep1.1, hrep1.2.2⟩
    · intro h2 hlast
      have hrest : rest = [] := by
        cases rest with
        | nil => rfl
        | cons y ys => simp at hlast
      subst hrest
      rcases List.eq_nil_or_concat pre with hpre | ⟨pre1, z, hpre⟩
      · subst hpre; simp at h2
      · rw [List.concat_eq_append] at hpre
        subst hpre
        have hz : (pre1 ++ [z] ++ [x])[(pre1 ++ [z]).length - 1]? = some z := by
          have h3 : (pre1 ++ [z]).length - 1 = pre1.length := by simp
          rw [h3, List.append_assoc, List.getElem?_append_right (le_refl _)]
          simp
        rw [hz]
        constructor
        · rw [hrep1.2.2]; simp
        · rw [list_get_back_rep l1 _ hrep1]; simp
    · intro hlt
      have hrest : rest ≠ [] := by
        rintro rfl
        simp at hlt
      rw [hrep1.2.2, htl, list_getLast_split_ne pre x rest hrest]

/-- Witness for C2: popping the front of the two-element list. -/
theorem list_invariant_preserved_witness :
    ∃ v l1, list_pop_front example_list_two = some (v, l1) ∧ list_invariant l1 :=
  (list_invariant_preserved example_list_two example_list_two_invariant).2.2.2.1 rfl

/-- C3: a single forward traversal from `list_iterator_create` that removes the
current element when `p` holds of its value and advances otherwise ends (with
any fuel above the length) with the content `xs` filtered by `not p` in the
original order; iteration then yields those values, `list_size` is their number,
and `list_get_front` / `list_get_back` are the first and last of them. -/
theorem list_remove_if_spec {V : Type} (p : V → Bool) (l : list_t V) (xs : List (Nat × V))
    (fuel : Nat) (hinv : list_invariant l) (hxs : list_content l xs)
    (hfuel : xs.length < fuel) :
    ∃ l1, list_remove_if p fuel l = some l1 ∧ list_invariant l1 ∧
      list_content l1 (xs.filter (fun x => !p x.2)) ∧
      list_iterate fuel l1 = some ((xs.map Prod.snd).filter (fun v => !p v)) ∧
      list_size l1 = ((xs.map Prod.snd).filter (fun v => !p v)).length ∧
      list_get_front l1 = ((xs.map Prod.snd).filter (fun v => !p v)).head? ∧
      list_get_back l1 = ((xs.map Prod.snd).filter (fun v => !p v)).getLast? := by
  have hrep := list_invariant_rep l xs hinv hxs
  obtain ⟨l1, hrun, hrep1⟩ :=
    list_remove_if_from_rep p xs l [] (list_iterator_create l) fuel hrep rfl hfuel
  rw [List.nil_append] at hrep1
  have hmap : (xs.filter (fun x => !p x.2)).map Prod.snd
      = (xs.map Prod.snd).filter (fun v => !p v) := by
    rw [List.filter_map]; rfl
  have hle : (xs.filter (fun x => !p x.2)).length < fuel :=
    lt_of_le_of_lt (List.length_filter_le _ _) hfuel
  refine ⟨l1, hrun, list_rep_invariant l1 _ hrep1, hrep1.1, ?_, ?_, ?_, ?_⟩
  · rw [← hmap]; exact list_iterate_rep l1 _ fuel hrep1.1 hle
  · rw [← hmap, List.length_map]; exact hrep1.2.1
  · rw [← hmap]; exact list_get_front_rep l1 _ hrep1
  · rw [← hmap]; exact list_get_back_rep l1 _ hrep1

/-- Witness for C3: values 0 to 9, removing the odd ones, leaves 0, 2, 4, 6, 8
with front 0, back 8 and size 5. -/
theorem list_remove_if_spec_witness :
    ∃ l1, list_remove_if value_is_odd 11 example_list_ten = some l1 ∧
      list_iterate 11 l1 = some [0, 2, 4, 6, 8] ∧ list_size l1 = 5 ∧
      list_get_front l1 = some 0 ∧ list_get_back l1 = some 8 := by
  obtain ⟨l1, h1, _, _, h2, h3, h4, h5⟩ :=
    list_remove_if_spec value_is_odd example_list_ten example_content_ten 11
      example_list_ten_invariant example_list_ten_content (by decide)
  exact ⟨l1, h1, h2, h3, h4, h5⟩

/-- C4: pushing the values of a sequence one by one with `list_push_back` onto a
freshly created list (created by `list_create`, or by
`list_create_with_value_deallocator` with any deallocator), every allocation
succeeding with an address not in use, gives a list whose forward cursor
iteration yields the values in push order and whose `list_size` is their
number. -/
theorem list_push_back_order {V : Type} (d : Option Nat) (l0 : list_t V)
    (avs : List (Nat × V)) (fuel : Nat)
    (hnew : list_create_with_value_deallocator true d = (0, some l0))
    (hnd : (avs.map Prod.fst).Nodup) (hfuel : avs.length < fuel) :
    ∃ l, list_push_back_all l0 avs = some l ∧
      list_iterate fuel l = some (avs.map Prod.snd) ∧ list_size l = avs.length := by
  obtain ⟨hrep0, hown0⟩ := list_create_rep d l0 hnew
  obtain ⟨l, hrun, hrep, _⟩ := list_push_back_all_rep avs l0 [] hrep0 hown0 (by simpa using hnd)
  rw [List.nil_append] at hrep
  exact ⟨l, hrun, list_iterate_rep l avs fuel hrep.1 hfuel, hrep.2.1⟩

/-- Witness for C4: pushing 0 to 9 at the back. -/
theorem list_push_back_order_witness :
    ∃ l, list_push_back_all
        { value_deallocator := none, head := none, tail := none, size := 0,
          mem := fun _ => none } example_content_ten = some l ∧
      list_iterate 11 l = some (example_content_ten.map Prod.snd) ∧
      list_size l = example_content_ten.length :=
  list_push_back_order none _ example_content_ten 11 rfl (by decide) (by decide)

/-- C5: pushing the values of a sequence one by one with `list_push_front` onto
a freshly created list (created by `list_create`, or by
`list_create_with_value_deallocator` with any deallocator), every allocation
succeeding with an address not in use, gives a list whose forward cursor
iteration yields the values in reverse push order and whose `list_size` is
their number. -/
theorem list_push_front_order {V : Type} (d : Option Nat) (l0 : list_t V)
    (avs : List (Nat × V)) (fuel : Nat)
    (hnew : list_create_with_value_deallocator true d = (0, some l0))
    (hnd : (avs.map Prod.fst).Nodup) (hfuel : avs.length < fuel) :
    ∃ l, list_push_front_all l0 avs = some l ∧
      list_iterate fuel l = some (avs.map Prod.snd).reverse ∧ list_size l = avs.length := by
  obtain ⟨hrep0, hown0⟩ := list_create_rep d l0 hnew
  obtain ⟨l, hrun, hrep, _⟩ :=
    list_push_front_all_rep avs l0 [] hrep0 hown0
      (by simpa [List.map_reverse] using hnd)
  rw [List.append_nil] at hrep
  refine ⟨l, hrun, ?_, ?_⟩
  · rw [list_iterate_rep l avs.reverse fuel hrep.1 (by simpa using hfuel), List.map_reverse]
  · rw [list_size, hrep.2.1, List.length_reverse]

/-- Witness for C5: pushing 0 to 9 at the front. -/
theorem list_push_front_order_witness :
    ∃ l, list_push_front_all
        { value_deallocator := none, head := none, tail := none, size := 0,
          mem := fun _ => none } example_content_ten = some l ∧
      list_iterate 11 l = some (example_content_ten.map Prod.snd).reverse ∧
      list_size l = example_content_ten.length :=
  list_push_front_order none _ example_content_ten 11 rfl (by decide) (by decide)

/-- C6: on a list satisfying the invariant with content `xs`, the loop
`while (!list_empty(list)) list_pop_front(list)` ends (with any fuel above the
length), returns exactly the values of `xs` in front-to-back order, one per pop
and hence `xs.length` pops, and leaves size 0 with `head` and `tail` null. -/
theorem list_pop_all_spec {V : Type} (l : list_t V) (xs : List (Nat × V)) (fuel : Nat)
    (hinv : list_invariant l) (hxs : list_content l xs) (hfuel : xs.length < fuel) :
    ∃ vs l1, list_pop_all fuel l = some (vs, l1) ∧ vs = xs.map Prod.snd ∧
      vs.length = xs.length ∧ list_size l1 = 0 ∧ l1.head = none ∧ l1.tail = none := by
  have hrep := list_invariant_rep l xs hinv hxs
  obtain ⟨l1, hrun, hrep1⟩ := list_pop_all_rep xs l fuel hrep hfuel
  exact ⟨xs.map Prod.snd, l1, hrun, rfl, by simp, hrep1.2.1, hrep1.1, hrep1.2.2⟩

/-- Witness for C6: popping the ten values 0 to 9. -/
theorem list_pop_all_spec_witness :
    ∃ vs l1, list_pop_all 11 example_list_ten = some (vs, l1) ∧
      vs = example_content_ten.map Prod.snd ∧ vs.length = example_content_ten.length ∧
      list_size l1 = 0 ∧ l1.head = none ∧ l1.tail = none :=
  list_pop_all_spec example_list_ten example_content_ten 11 example_list_ten_invariant
    example_list_ten_content (by decide)

/-! ## Lemmas: searching a bucket -/

theorem list_key_split (key : c_string) (es : List (Nat × map_element_t)) :
    (∀ y ∈ es, y.2.key ≠ key) ∨
    ∃ q1 x q2, es = q1 ++ x :: q2 ∧ x.2.key = key ∧ ∀ y ∈ q1, y.2.key ≠ key := by
  induction es with
  | nil => exact Or.inl (fun y hy => by simp at hy)
  | cons z rest ih =>
    by_cases hz : z.2.key = key
    · exact Or.inr ⟨[], z, rest, rfl, hz, fun y hy => by simp at hy⟩
    · rcases ih with hnone | ⟨q1, x, q2, hsplit, hx, hq1⟩
      · refine Or.inl (fun y hy => ?_)
        rcases List.mem_cons.1 hy with h | h
        · rw [h]; exact hz
        · exact hnone y h
      · refine Or.inr ⟨z :: q1, x, q2, by rw [hsplit]; rfl, hx, fun y hy => ?_⟩
        rcases List.mem_cons.1 hy with h | h
        · rw [h]; exact hz
        · exact hq1 y h

theorem list_find_none (key : c_string) (es : List (Nat × map_element_t))
    (hnone : ∀ y ∈ es, y.2.key ≠ key) :
    es.find? (fun y => decide (y.2.key = key)) = none := by
  rw [List.find?_eq_none]
  intro y hy
  simpa using hnone y hy

theorem list_find_split (key : c_string) (q1 : List (Nat × map_element_t))
    (x : Nat × map_element_t) (q2 : List (Nat × map_element_t))
    (hx : x.2.key = key) (hq1 : ∀ y ∈ q1, y.2.key ≠ key) :
    (q1 ++ x :: q2).find? (fun y => decide (y.2.key = key)) = some x := by
  rw [List.find?_append, list_find_none key q1 hq1]
  simp [hx]

/-- The search loop from position `pre.length`, when no later entry has the key. -/
theorem map_find_element_from_none (key : c_string) (post : List (Nat × map_element_t)) :
    ∀ (bucket : bucket_t) (pre : List (Nat × map_element_t)) (iter : list_iterator_t)
      (fuel : Nat), list_content bucket (pre ++ post) →
      cursor_at iter (pre ++ post) pre.length → post.length < fuel →
      (∀ y ∈ post, y.2.key ≠ key) →
      map_find_element_from key fuel bucket iter = some none := by
  induction post with
  | nil =>
    intro bucket pre iter fuel hc hcur hfuel _
    obtain ⟨f, rfl⟩ : ∃ f, fuel = f + 1 := ⟨fuel - 1, by omega⟩
    have hhas := list_iterator_has_current_at bucket iter _ _ hc hcur
    simp [map_find_element_from, hhas]
  | cons x rest ih =>
    intro bucket pre iter fuel hc hcur hfuel hnone
    obtain ⟨f, rfl⟩ : ∃ f, fuel = f + 1 := ⟨fuel - 1, by omega⟩
    have hx : (pre ++ x :: rest)[pre.length]? = some x := by
      rw [List.getElem?_append_right (le_refl _)]; simp
    have hhas := list_iterator_has_current_at bucket iter _ _ hc hcur
    have hget := list_iterator_get_current_at bucket iter _ _ x hc hcur hx
    obtain ⟨iter1, hnext, hcur1⟩ := list_iterator_next_at bucket iter _ _ x hc hcur hx
    have hsplit : pre ++ x :: rest = (pre ++ [x]) ++ rest := by simp
    have hlen : pre.length + 1 = (pre ++ [x]).length := by simp
    rw [hsplit] at hc hcur1
    rw [hlen] at hcur1
    have hrec := ih bucket (pre ++ [x]) iter1 f hc hcur1 (by simpa using hfuel)
      (fun y hy => hnone y (List.mem_cons_of_mem _ hy))
    have hxk : x.2.key ≠ key := hnone x (List.mem_cons_self _ _)
    simp [map_find_element_from, hhas, hget, hxk, hnext, hrec]

/-- The search loop from position `pre.length`, when `x` is the first later
entry with the key: the cursor stops on it. -/
theorem map_find_element_from_some (key : c_string) (q1 : List (Nat × map_element_t)) :
    ∀ (bucket : bucket_t) (pre : List (Nat × map_element_t)) (x : Nat × map_element_t)
      (q2 : List (Nat × map_element_t)) (iter : list_iterator_t) (fuel : Nat),
      list_content bucket (pre ++ (q1 ++ x :: q2)) →
      cursor_at iter (pre ++ (q1 ++ x :: q2)) pre.length → (q1 ++ x :: q2).length < fuel →
      x.2.key = key → (∀ y ∈ q1, y.2.key ≠ key) →
      ∃ iter1, map_find_element_from key fuel bucket iter = some (some iter1) ∧
        cursor_at iter1 (pre ++ (q1 ++ x :: q2)) (pre ++ q1).length := by
  induction q1 with
  | nil =>
    intro bucket pre x q2 iter fuel hc hcur hfuel hxk _
    obtain ⟨f, rfl⟩ : ∃ f, fuel = f + 1 := ⟨fuel - 1, by omega⟩
    rw [List.nil_append] at hc hcur ⊢
    have hx : (pre ++ x :: q2)[pre.length]? = some x := by
      rw [List.getElem?_append_right (le_refl _)]; simp
    have hhas := list_iterator_has_current_at bucket iter _ _ hc hcur
    have hget := list_iterator_get_current_at bucket iter _ _ x hc hcur hx
    refine ⟨iter, ?_, by simpa using hcur⟩
    simp [map_find_element_from, hhas, hget, hxk]
  | cons z rest ih =>
    intro bucket pre x q2 iter fuel hc hcur hfuel hxk hq1
    obtain ⟨f, rfl⟩ : ∃ f, fuel = f + 1 := ⟨fuel - 1, by omega⟩
    have hz : (pre ++ (z :: rest ++ x :: q2))[pre.length]? = some z := by
      rw [List.getElem?_append_right (le_refl _)]; simp
    have hhas := list_iterator_has_current_at bucket iter _ _ hc hcur
    have hget := list_iterator_get_current_at bucket iter _ _ z hc hcur hz
    obtain ⟨iter1, hnext, hcur1⟩ := list_iterator_next_at bucket iter _ _ z hc hcur hz
    have hsplit : pre ++ (z :: rest ++ x :: q2) = (pre ++ [z]) ++ (rest ++ x :: q2) := by simp
    have hlen : pre.length + 1 = (pre ++ [z]).length := by simp
    rw [hsplit] at hc hcur1 ⊢
    rw [hlen] at hcur1
    obtain ⟨iter2, hrec, hcur2⟩ := ih bucket (pre ++ [z]) x q2 iter1 f hc hcur1
      (by simp at hfuel ⊢; omega) hxk (fun y hy => hq1 y (List.mem_cons_of_mem _ hy))
    have hzk : z.2.key ≠ key := hq1 z (List.mem_cons_self _ _)
    refine ⟨iter2, ?_, by simpa using hcur2⟩
    simp [map_find_element_from, hhas, hget, hzk, hnext, hrec]

theorem map_find_element_none (key : c_string) (bucket : bucket_t)
    (es : List (Nat × map_element_t)) (fuel : Nat) (hc : list_content bucket es)
    (hfuel : es.length < fuel) (hnone : ∀ y ∈ es, y.2.key ≠ key) :
    map_find_element fuel bucket key = some none :=
  map_find_element_from_none key es bucket [] (list_iterator_create bucket) fuel hc rfl hfuel
    hnone

theorem map_find_element_some (key : c_string) (bucket : bucket_t)
    (q1 : List (Nat × map_element_t)) (x : Nat × map_element_t)
    (q2 : List (Nat × map_element_t)) (fuel : Nat)
    (hc : list_content bucket (q1 ++ x :: q2)) (hfuel : (q1 ++ x :: q2).length < fuel)
    (hx : x.2.key = key) (hq1 : ∀ y ∈ q1, y.2.key ≠ key) :
    ∃ iter, map_find_element fuel bucket key = some (some iter) ∧
      cursor_at iter (q1 ++ x :: q2) q1.length := by
  obtain ⟨iter, hfind, hcur⟩ := map_find_element_from_some key q1 bucket [] x q2
    (list_iterator_create bucket) fuel hc rfl hfuel hx hq1
  exact ⟨iter, hfind, by simpa using hcur⟩

theorem list_get_split {V : Type} (q1 : List (Nat × V)) (x : Nat × V) (q2 : List (Nat × V)) :
    (q1 ++ x :: q2)[q1.length]? = some x := by
  rw [List.getElem?_append_right (le_refl _)]; simp

/-- Overwriting the value of the entry under the cursor. -/
theorem map_element_set_value_rep (bucket : bucket_t) (iter : list_iterator_t)
    (q1 : List (Nat × map_element_t)) (x : Nat × map_element_t)
    (q2 : List (Nat × map_element_t)) (value : generic_value_t)
    (hrep : list_rep bucket (q1 ++ x :: q2))
    (hcur : cursor_at iter (q1 ++ x :: q2) q1.length) :
    ∃ bucket1, map_element_set_value bucket iter value = some bucket1 ∧
      list_rep bucket1 (q1 ++ map_entry_with_value x value :: q2) := by
  obtain ⟨hc, hsize, htail⟩ := hrep
  obtain ⟨p, hp, hseg⟩ := cursor_slot bucket iter _ _ hc hcur
  obtain ⟨hpx, n, hmem, _⟩ :=
    list_segment_drop_get bucket.mem _ _ p x (list_get_split q1 x q2) hseg
  have hnd := list_chain_nodup _ _ _ hc
  rw [List.map_append, List.map_cons, List.nodup_append] at hnd
  obtain ⟨_, hnd2, hdisj⟩ := hnd
  have hxq1 : x.1 ∉ q1.map Prod.fst := fun h => hdisj h (by simp)
  have hxq2 : x.1 ∉ q2.map Prod.fst := (List.nodup_cons.1 hnd2).1
  obtain ⟨m, hq1, hm, n2, hmem2, hq2⟩ := (list_segment_append _ _ _ _ _).1 hc
  have hn : n2 = n := by
    rw [hmem] at hmem2
    exact (congrArg list_element_t.next (Option.some.inj hmem2)).symm
  subst hn
  let mem1 := Function.update bucket.mem x.1
    (some { next := n2, value := { x.2 with value := value } })
  refine ⟨{ bucket with mem := mem1 }, ?_, ⟨?_, ?_, ?_⟩⟩
  · simp [map_element_set_value, hp, hpx, hmem, mem1]
  · refine (list_segment_append _ _ _ _ _).2 ⟨m, ?_, hm, n2, ?_, ?_⟩
    · exact list_segment_update _ _ _ _ _ _ hxq1 hq1
    · show Function.update bucket.mem x.1 _ x.1 = _
      rw [Function.update_same]; rfl
    · exact list_segment_update _ _ _ _ _ _ hxq2 hq2
  · show bucket.size = _
    rw [hsize]; simp
  · show bucket.tail = _
    rw [htail, ← List.getLast?_map, ← List.getLast?_map]
    simp [map_entry_with_value]

/-! ## Lemmas: the buckets of a map -/

theorem map_invariant_bucket_rep (map : map_t) (hinv : map_invariant map) (i : Nat)
    (hi : i < map.capacity) :
    ∃ es, map_bucket_rep map i es ∧ map_bucket_size map i = es.length := by
  obtain ⟨_, hb, _⟩ := hinv
  unfold map_bucket_rep map_bucket_size
  cases hbi : map.buckets i with
  | none => exact ⟨[], rfl, rfl⟩
  | some bucket =>
    obtain ⟨hl, hne⟩ := hb i hi bucket hbi
    obtain ⟨es, hrep⟩ := list_invariant_content bucket hl
    refine ⟨es, ⟨hrep, ?_⟩, hrep.2.1⟩
    rintro rfl
    exact hne hrep.2.1

theorem map_bucket_size_le (map : map_t) (hinv : map_invariant map) (i : Nat)
    (hi : i < map.capacity) : map_bucket_size map i ≤ map.size := by
  rw [hinv.2.2]
  exact Finset.single_le_sum (f := fun j => map_bucket_size map j)
    (fun _ _ => Nat.zero_le _) (Finset.mem_range.2 hi)

/-- Changing one bucket changes the sum of the bucket sizes by the change of
that bucket. -/
theorem map_sum_update (map map1 : map_t) (idx : Nat) (hidx : idx < map.capacity)
    (hcap : map1.capacity = map.capacity)
    (hother : ∀ i, i ≠ idx → map1.buckets i = map.buckets i) :
    (∑ i ∈ Finset.range map1.capacity, map_bucket_size map1 i) + map_bucket_size map idx
      = (∑ i ∈ Finset.range map.capacity, map_bucket_size map i) + map_bucket_size map1 idx := by
  rw [hcap]
  have hmem : idx ∈ Finset.range map.capacity := Finset.mem_range.2 hidx
  rw [← Finset.add_sum_erase _ (fun i => map_bucket_size map1 i) hmem,
    ← Finset.add_sum_erase _ (fun i => map_bucket_size map i) hmem]
  have hrest : ∑ i ∈ (Finset.range map.capacity).erase idx, map_bucket_size map1 i
      = ∑ i ∈ (Finset.range map.capacity).erase idx, map_bucket_size map i := by
    refine Finset.sum_congr rfl (fun i hi => ?_)
    have hne : i ≠ idx := (Finset.mem_erase.1 hi).1
    unfold map_bucket_size
    rw [hother i hne]
  rw [hrest]
  omega

theorem map_get_congr (fuel : Nat) (map map1 : map_t) (key : c_string) (out : generic_value_t)
    (hcap : map1.capacity = map.capacity)
    (hb : map1.buckets (hash_string key % map.capacity)
      = map.buckets (hash_string key % map.capacity)) :
    map_get fuel map1 key out = map_get fuel map key out := by
  simp only [map_get, hcap, hb]

/-- What `map_get` returns, read off the content of the bucket the key selects. -/
theorem map_get_rep (fuel : Nat) (map : map_t) (key : c_string) (out : generic_value_t)
    (es : List (Nat × map_element_t)) (hcap : 0 < map.capacity)
    (hrep : map_bucket_rep map (hash_string key % map.capacity) es)
    (hfuel : es.length < fuel) :
    map_get fuel map key out =
      some (match es.find? (fun y => decide (y.2.key = key)) with
        | none => (false, out)
        | some x => (true, x.2.value)) := by
  unfold map_bucket_rep at hrep
  have hcap0 : map.capacity ≠ 0 := by omega
  simp only [map_get, if_neg hcap0]
  cases hb : map.buckets (hash_string key % map.capacity) with
  | none =>
    rw [hb] at hrep
    subst hrep
    rfl
  | some bucket =>
    rw [hb] at hrep
    obtain ⟨hlrep, _⟩ := hrep
    rcases list_key_split key es with hnone | ⟨q1, x, q2, hsplit, hx, hq1⟩
    · rw [list_find_none key es hnone]
      simp [map_find_element_none key bucket es fuel hlrep.1 hfuel hnone]
    · subst hsplit
      obtain ⟨iter, hfind, hcur⟩ :=
        map_find_element_some key bucket q1 x q2 fuel hlrep.1 hfuel hx hq1
      have hget := list_iterator_get_current_at bucket iter _ _ x hlrep.1 hcur
        (list_get_split q1 x q2)
      rw [list_find_split key q1 x q2 hx hq1]
      simp [hfind, hget]

/-! ## Lemmas: map_insert -/

theorem error_out_of_memory_ne_zero : ERROR_OUT_OF_MEMORY ≠ 0 := by
  decide

theorem list_push_back_mem {V : Type} (l l1 : list_t V) (r : Option Nat) (v : V) (e : error_t)
    (h : list_push_back l r v = some (e, l1)) :
    ∀ c, l1.mem c ≠ none → r = some c ∨ l.mem c ≠ none := by
  intro c hc
  by_cases hrc : r = some c
  · exact Or.inl hrc
  · right
    intro hl
    apply hc
    unfold list_push_back at h
    cases r with
    | none =>
      simp only [Option.some.injEq, Prod.mk.injEq] at h
      rw [← h.2]; exact hl
    | some a =>
      have hca : c ≠ a := fun h => hrc (by rw [h])
      simp only at h
      split at h
      · simp only [Option.some.injEq, Prod.mk.injEq] at h
        rw [← h.2]
        show Function.update l.mem a _ c = none
        rw [Function.update_noteq hca]; exact hl
      · split at h
        · cases h
        · split at h
          · cases h
          · rename_i t _ _ e2 he2
            simp only [Option.some.injEq, Prod.mk.injEq] at h
            rw [← h.2]
            show Function.update (Function.update l.mem a _) t _ c = none
            by_cases hct : c = t
            · exfalso
              rw [← hct, Function.update_noteq hca, hl] at he2
              cases he2
            · rw [Function.update_noteq hct, Function.update_noteq hca]; exact hl

theorem map_element_set_value_mem (bucket bucket1 : bucket_t) (iter : list_iterator_t)
    (value : generic_value_t) (h : map_element_set_value bucket iter value = some bucket1) :
    ∀ c, bucket1.mem c ≠ none → bucket.mem c ≠ none := by
  intro c hc hl
  apply hc
  unfold map_element_set_value at h
  split at h
  · rename_i a _
    split at h
    · cases h
    · rename_i e he
      simp only [Option.some.injEq] at h
      rw [← h]
      show Function.update bucket.mem a _ c = none
      by_cases hca : c = a
      · rw [hca, he] at hl; cases hl
      · rw [Function.update_noteq hca]; exact hl
  · cases h

/-- The two ways `map_insert_new` ends: out of memory with the bucket slot as
before the call, or success with the new entry appended to the bucket. -/
theorem map_insert_new_cases (map : map_t) (index : Nat) (bucket : bucket_t)
    (new_bucket : Bool) (al : map_allocs) (key : c_string) (value : generic_value_t)
    (es : List (Nat × map_element_t)) (hrep : list_rep bucket es)
    (hfresh : ∀ a, al.node = some a → bucket.mem a = none) :
    ∃ e map1, map_insert_new map index bucket new_bucket al (hash_string key) key value
        = some (e, map1) ∧
      ((e ≠ 0 ∧ (al.element_ok = false ∨ al.key_ok = false ∨ al.node = none) ∧
          map1 = (if new_bucket
            then { map with buckets := Function.update map.buckets index none } else map)) ∨
       (e = 0 ∧ ∃ a bucket1, al.node = some a ∧
          list_rep bucket1 (es ++ [(a, map_new_entry map key value)]) ∧
          (∀ c, bucket1.mem c ≠ none → c = a ∨ bucket.mem c ≠ none) ∧
          map1 = { map with buckets := Function.update map.buckets index (some bucket1),
                            size := size_inc map.size })) := by
  unfold map_insert_new
  by_cases h1 : al.element_ok = true
  · by_cases h2 : al.key_ok = true
    · cases hn : al.node with
      | none =>
        refine ⟨ERROR_OUT_OF_MEMORY, _, ?_,
          Or.inl ⟨error_out_of_memory_ne_zero, Or.inr (Or.inr rfl), rfl⟩⟩
        simp [h1, h2, list_push_back, error_out_of_memory_ne_zero]
      | some a =>
        obtain ⟨bucket1, hpush, hrep1, _, _⟩ :=
          list_push_back_rep bucket es a (map_new_entry map key value) hrep (hfresh a hn)
        have hmem := list_push_back_mem bucket bucket1 (some a) _ 0 hpush
        refine ⟨0, _, ?_, Or.inr ⟨rfl, a, bucket1, rfl, hrep1, ?_, rfl⟩⟩
        · have hpush2 : list_push_back bucket (some a)
              { key := key, hash_code := hash_string key, value := value,
                value_deallocator := map.value_deallocator } = some (0, bucket1) := hpush
          simp [h1, h2, hpush2]
        · intro c hc
          rcases hmem c hc with h | h
          · exact Or.inl (Option.some.inj h).symm
          · exact Or.inr h
    · refine ⟨ERROR_OUT_OF_MEMORY, _, ?_,
        Or.inl ⟨error_out_of_memory_ne_zero, Or.inr (Or.inl (by simpa using h2)), rfl⟩⟩
      simp [h1, h2]
  · refine ⟨ERROR_OUT_OF_MEMORY, _, ?_,
      Or.inl ⟨error_out_of_memory_ne_zero, Or.inl (by simpa using h1), rfl⟩⟩
    simp [h1]

theorem map_bucket_rep_update (map : map_t) (index : Nat) (bucket1 : bucket_t) (size1 : Nat)
    (es : List (Nat × map_element_t)) (hrep : list_rep bucket1 es) (hne : es ≠ []) :
    map_bucket_rep { map with buckets := Function.update map.buckets index (some bucket1),
                              size := size1 } index es := by
  unfold map_bucket_rep
  simp only [Function.update_same]
  exact ⟨hrep, hne⟩

/-- The three ways `map_insert` ends on a map with a well-formed selected
bucket: failure with the bucket and size as before, overwrite of the first
entry with the key, or a new entry appended to the bucket. -/
theorem map_insert_cases (fuel : Nat) (map : map_t) (al : map_allocs) (key : c_string)
    (value : generic_value_t) (es : List (Nat × map_element_t)) (hcap : 0 < map.capacity)
    (hrep : map_bucket_rep map (hash_string key % map.capacity) es)
    (hfuel : es.length < fuel)
    (hfresh : (∀ y ∈ es, y.2.key ≠ key) → map_allocs_fresh map al key) :
    ∃ e map1, map_insert fuel map al key value = some (e, map1) ∧
      map1.capacity = map.capacity ∧ map1.value_deallocator = map.value_deallocator ∧
      (∀ i, i ≠ hash_string key % map.capacity → map1.buckets i = map.buckets i) ∧
      (∀ b1 c, map1.buckets (hash_string key % map.capacity) = some b1 → b1.mem c ≠ none →
        al.node = some c ∨
        ∃ b, map.buckets (hash_string key % map.capacity) = some b ∧ b.mem c ≠ none) ∧
      ((e ≠ 0 ∧ (al.bucket_ok = false ∨ al.element_ok = false ∨ al.key_ok = false ∨
            al.node = none) ∧ (∀ y ∈ es, y.2.key ≠ key) ∧
          map1.buckets (hash_string key % map.capacity)
            = map.buckets (hash_string key % map.capacity) ∧ map1.size = map.size) ∨
       (e = 0 ∧ map1.size = map.size ∧ ∃ q1 x q2, es = q1 ++ x :: q2 ∧ x.2.key = key ∧
          (∀ y ∈ q1, y.2.key ≠ key) ∧
          map_bucket_rep map1 (hash_string key % map.capacity)
            (q1 ++ map_entry_with_value x value :: q2)) ∨
       (e = 0 ∧ map1.size = map.size + 1 ∧ (∀ y ∈ es, y.2.key ≠ key) ∧
          ∃ a, al.node = some a ∧
            map_bucket_rep map1 (hash_string key % map.capacity)
              (es ++ [(a, map_new_entry map key value)]))) := by
  have hcap0 : map.capacity ≠ 0 := by omega
  unfold map_bucket_rep at hrep
  simp only [map_insert, if_neg hcap0]
  cases hb : map.buckets (hash_string key % map.capacity) with
  | none =>
    rw [hb] at hrep
    subst hrep
    cases hok : al.bucket_ok with
    | false =>
      refine ⟨ERROR_OUT_OF_MEMORY, map, ?_, rfl, rfl, fun _ _ => rfl, ?_,
        Or.inl ⟨error_out_of_memory_ne_zero, Or.inl rfl, fun y hy => by simp at hy,
          hb.symm ▸ rfl, rfl⟩⟩
      · simp [list_create_with_value_deallocator]
      · intro b1 c h1
        rw [hb] at h1; cases h1
    | true =>
      have hrep0 : list_rep
          ({ value_deallocator := some map_element_deallocator_address
             head := none
             tail := none
             size := 0
             mem := fun _ => none } : bucket_t) [] :=
        ⟨rfl, rfl, rfl⟩
      obtain ⟨e, map1, hnew, hcases⟩ := map_insert_new_cases map
        (hash_string key % map.capacity) _ true al key value [] hrep0 (fun _ _ => rfl)
      refine ⟨e, map1, ?_, ?_⟩
      · simp only [list_create_with_value_deallocator, if_true]
        exact hnew
      · rcases hcases with ⟨he, hwhy, hm⟩ | ⟨he, a, bucket1, hnode, hrep1, hmem1, hm⟩
        · subst hm
          refine ⟨rfl, rfl, fun i hi => ?_, ?_,
            Or.inl ⟨he, Or.inr hwhy, fun y hy => by simp at hy, ?_, rfl⟩⟩
          · simp [Function.update_noteq hi]
          · intro b1 c h1
            simp at h1
          · simp [hb]
        · subst hm
          refine ⟨rfl, rfl, fun i hi => ?_, ?_, Or.inr (Or.inr ⟨he, rfl, ?_, a, hnode, ?_⟩)⟩
          · simp [Function.update_noteq hi]
          · intro b1 c h1 hc
            simp only [Function.update_same, Option.some.injEq] at h1
            subst h1
            rcases hmem1 c hc with h | h
            · left; rw [hnode, h]
            · exact absurd rfl h
          · intro y hy; simp at hy
          · exact map_bucket_rep_update map _ bucket1 _ _ hrep1 (by simp)
  | some bucket =>
    rw [hb] at hrep
    obtain ⟨hlrep, hne⟩ := hrep
    rcases list_key_split key es with hnone | ⟨q1, x, q2, hsplit, hx, hq1⟩
    · have hfind := map_find_element_none key bucket es fuel hlrep.1 hfuel hnone
      obtain ⟨e, map1, hnew, hcases⟩ := map_insert_new_cases map
        (hash_string key % map.capacity) bucket false al key value es hlrep
        (fun a ha => hfresh hnone a bucket ha hb)
      refine ⟨e, map1, ?_, ?_⟩
      · simp only [hfind]
        exact hnew
      · rcases hcases with ⟨he, hwhy, hm⟩ | ⟨he, a, bucket1, hnode, hrep1, hmem1, hm⟩
        · simp only [Bool.false_eq_true, if_false] at hm
          subst hm
          refine ⟨rfl, rfl, fun _ _ => rfl, ?_, Or.inl ⟨he, Or.inr hwhy, hnone, hb, rfl⟩⟩
          intro b1 c h1 hc
          rw [hb] at h1
          exact Or.inr ⟨b1, h1, hc⟩
        · subst hm
          refine ⟨rfl, rfl, fun i hi => ?_, ?_, Or.inr (Or.inr ⟨he, rfl, hnone, a, hnode, ?_⟩)⟩
          · simp [Function.update_noteq hi]
          · intro b1 c h1 hc
            simp only [Function.update_same, Option.some.injEq] at h1
            subst h1
            rcases hmem1 c hc with h | h
            · left; rw [hnode, h]
            · exact Or.inr ⟨bucket, rfl, h⟩
          · exact map_bucket_rep_update map _ bucket1 _ _ hrep1 (by simp)
    · subst hsplit
      obtain ⟨iter, hfind, hcur⟩ :=
        map_find_element_some key bucket q1 x q2 fuel hlrep.1 hfuel hx hq1
      obtain ⟨bucket1, hset, hrep1⟩ :=
        map_element_set_value_rep bucket iter q1 x q2 value hlrep hcur
      have hmem1 := map_element_set_value_mem bucket bucket1 iter value hset
      let buckets1 := Function.update map.buckets (hash_string key % map.capacity) (some bucket1)
      refine ⟨0, { map with buckets := buckets1 }, ?_, rfl, rfl, fun i hi => ?_, ?_,
        Or.inr (Or.inl ⟨rfl, rfl, q1, x, q2, rfl, hx, hq1, ?_⟩)⟩
      · simp only [hfind, hset, buckets1]
      · simp [buckets1, Function.update_noteq hi]
      · intro b1 c h1 hc
        simp only [buckets1, Function.update_same, Option.some.injEq] at h1
        subst h1
        exact Or.inr ⟨bucket, rfl, hmem1 c hc⟩
      · exact map_bucket_rep_update map _ bucket1 map.size _ hrep1 (by simp)

theorem map_bucket_rep_size (map : map_t) (i : Nat) (es : List (Nat × map_element_t))
    (hrep : map_bucket_rep map i es) : map_bucket_size map i = es.length := by
  unfold map_bucket_rep at hrep
  unfold map_bucket_size
  cases hb : map.buckets i with
  | none => rw [hb] at hrep; subst hrep; rfl
  | some bucket => rw [hb] at hrep; exact hrep.1.2.1

theorem map_bucket_rep_unique (map : map_t) (i : Nat) (es es1 : List (Nat × map_element_t))
    (hrep : map_bucket_rep map i es) (hrep1 : map_bucket_rep map i es1) : es = es1 := by
  unfold map_bucket_rep at hrep hrep1
  cases hb : map.buckets i with
  | none => rw [hb] at hrep hrep1; rw [hrep, hrep1]
  | some bucket =>
    rw [hb] at hrep hrep1
    exact list_chain_functional _ _ _ _ hrep.1.1 hrep1.1.1

theorem map_bucket_rep_congr (map map1 : map_t) (i : Nat) (es : List (Nat × map_element_t))
    (hb : map1.buckets i = map.buckets i) (hrep : map_bucket_rep map i es) :
    map_bucket_rep map1 i es := by
  unfold map_bucket_rep at hrep ⊢
  rw [hb]; exact hrep

/-- The map invariant after one bucket has changed. -/
theorem map_invariant_update (map map1 : map_t) (idx : Nat)
    (es es1 : List (Nat × map_element_t)) (hinv : map_invariant map)
    (hidx : idx < map.capacity) (hcap : map1.capacity = map.capacity)
    (hother : ∀ i, i ≠ idx → map1.buckets i = map.buckets i)
    (hrep : map_bucket_rep map idx es) (hrep1 : map_bucket_rep map1 idx es1)
    (hsize : map1.size + es.length = map.size + es1.length) : map_invariant map1 := by
  obtain ⟨hpos, hb, hsum⟩ := hinv
  refine ⟨by rw [hcap]; exact hpos, ?_, ?_⟩
  · intro i hi bucket hbi
    by_cases hii : i = idx
    · subst hii
      unfold map_bucket_rep at hrep1
      rw [hbi] at hrep1
      refine ⟨list_rep_invariant bucket es1 hrep1.1, ?_⟩
      have hs : bucket.size = es1.length := hrep1.1.2.1
      have hne := hrep1.2
      intro h0
      have h1 : list_size bucket = bucket.size := rfl
      rw [h1, hs] at h0
      exact hne (List.length_eq_zero.1 h0)
    · rw [hother i hii] at hbi
      exact hb i (by rw [← hcap]; exact hi) bucket hbi
  · have h := map_sum_update map map1 idx hidx hcap hother
    rw [map_bucket_rep_size map idx es hrep, map_bucket_rep_size map1 idx es1 hrep1] at h
    omega

/-- The outcome of `map_insert` on a map satisfying the invariant. -/
theorem map_insert_spec (fuel : Nat) (map : map_t) (al : map_allocs) (key : c_string)
    (value : generic_value_t) (es : List (Nat × map_element_t)) (hinv : map_invariant map)
    (hrep : map_bucket_rep map (hash_string key % map.capacity) es)
    (hfuel : map.size < fuel)
    (hfresh : (∀ y ∈ es, y.2.key ≠ key) → map_allocs_fresh map al key) :
    ∃ e map1 es1, map_insert fuel map al key value = some (e, map1) ∧
      map_invariant map1 ∧ map1.capacity = map.capacity ∧
      map1.value_deallocator = map.value_deallocator ∧
      (∀ i, i ≠ hash_string key % map.capacity → map1.buckets i = map.buckets i) ∧
      (∀ b1 c, map1.buckets (hash_string key % map.capacity) = some b1 → b1.mem c ≠ none →
        al.node = some c ∨
        ∃ b, map.buckets (hash_string key % map.capacity) = some b ∧ b.mem c ≠ none) ∧
      map_bucket_rep map1 (hash_string key % map.capacity) es1 ∧
      ((e ≠ 0 ∧ (al.bucket_ok = false ∨ al.element_ok = false ∨ al.key_ok = false ∨
            al.node = none) ∧ (∀ y ∈ es, y.2.key ≠ key) ∧
          map1.buckets (hash_string key % map.capacity)
            = map.buckets (hash_string key % map.capacity) ∧ es1 = es ∧
          map1.size = map.size) ∨
       (e = 0 ∧ map1.size = map.size ∧ ∃ q1 x q2, es = q1 ++ x :: q2 ∧ x.2.key = key ∧
          (∀ y ∈ q1, y.2.key ≠ key) ∧ es1 = q1 ++ map_entry_with_value x value :: q2) ∨
       (e = 0 ∧ map1.size = map.size + 1 ∧ (∀ y ∈ es, y.2.key ≠ key) ∧
          ∃ a, al.node = some a ∧ es1 = es ++ [(a, map_new_entry map key value)])) := by
  have hidx : hash_string key % map.capacity < map.capacity := Nat.mod_lt _ hinv.1
  have hlen : es.length < fuel := by
    have h1 := map_bucket_size_le map hinv _ hidx
    rw [map_bucket_rep_size map _ es hrep] at h1
    omega
  obtain ⟨e, map1, hins, hcap, hdealloc, hother, hmem, hcases⟩ :=
    map_insert_cases fuel map al key value es hinv.1 hrep hlen hfresh
  rcases hcases with ⟨he, hwhy, hno, hsame, hsize⟩ |
      ⟨he, hsize, q1, x, q2, hsplit, hx, hq1, hrep1⟩ | ⟨he, hsize, hnone, a, hnode, hrep1⟩
  · have hrep1 := map_bucket_rep_congr map map1 _ es hsame hrep
    refine ⟨e, map1, es, hins, ?_, hcap, hdealloc, hother, hmem, hrep1,
      Or.inl ⟨he, hwhy, hno, hsame, rfl, hsize⟩⟩
    exact map_invariant_update map map1 _ es es hinv hidx hcap hother hrep hrep1 (by omega)
  · refine ⟨e, map1, _, hins, ?_, hcap, hdealloc, hother, hmem, hrep1,
      Or.inr (Or.inl ⟨he, hsize, q1, x, q2, hsplit, hx, hq1, rfl⟩)⟩
    refine map_invariant_update map map1 _ es _ hinv hidx hcap hother hrep hrep1 ?_
    rw [hsize, hsplit]; simp
  · refine ⟨e, map1, _, hins, ?_, hcap, hdealloc, hother, hmem, hrep1,
      Or.inr (Or.inr ⟨he, hsize, hnone, a, hnode, rfl⟩)⟩
    refine map_invariant_update map map1 _ es _ hinv hidx hcap hother hrep hrep1 ?_
    rw [hsize]; simp; omega

/-- After a successful `map_insert` of `key`, `map_get` of `key` finds the value. -/
theorem map_get_insert_same (fuel fuel2 : Nat) (map map1 : map_t) (al : map_allocs)
    (key : c_string) (value out : generic_value_t) (hinv : map_invariant map)
    (hfuel : map.size < fuel)
    (hfresh : map_allocs_fresh map al key)
    (hins : map_insert fuel map al key value = some (0, map1)) (hfuel2 : map1.size < fuel2) :
    map_get fuel2 map1 key out = some (true, value) := by
  have hidx : hash_string key % map.capacity < map.capacity := Nat.mod_lt _ hinv.1
  obtain ⟨es, hrep, _⟩ := map_invariant_bucket_rep map hinv _ hidx
  obtain ⟨e, map2, es1, hins2, hinv1, hcap, _, _, _, hrep1, hcases⟩ :=
    map_insert_spec fuel map al key value es hinv hrep hfuel (fun _ => hfresh)
  rw [hins] at hins2
  obtain ⟨he, hm⟩ := Prod.mk.inj (Option.some.inj hins2)
  subst hm
  rw [← hcap] at hrep1
  have hlen : es1.length < fuel2 := by
    have h1 := map_bucket_size_le map1 hinv1 (hash_string key % map1.capacity)
      (Nat.mod_lt _ hinv1.1)
    rw [map_bucket_rep_size map1 _ es1 hrep1] at h1
    omega
  rw [map_get_rep fuel2 map1 key out es1 hinv1.1 hrep1 hlen]
  rcases hcases with ⟨hne, _⟩ | ⟨_, _, q1, x, q2, _, hx, hq1, hes1⟩ | ⟨_, _, hnone, a, _, hes1⟩
  · exact absurd he.symm hne
  · subst hes1
    rw [list_find_split key q1 (map_entry_with_value x value) q2 hx hq1]
    rfl
  · subst hes1
    rw [list_find_split key es (a, map_new_entry map key value) [] rfl hnone]
    rfl

/-- A call of `map_insert` of `key` does not change what `map_get` returns for
another key. -/
theorem map_get_insert_other (fuel fuel2 : Nat) (map map1 : map_t) (al : map_allocs)
    (key key1 : c_string) (value out : generic_value_t) (e : error_t)
    (hinv : map_invariant map) (hfuel : map.size < fuel)
    (hfresh : map_allocs_fresh map al key)
    (hins : map_insert fuel map al key value = some (e, map1)) (hne : key1 ≠ key)
    (hfuel2 : map1.size < fuel2) (hfuel3 : map.size < fuel2) :
    map_get fuel2 map1 key1 out = map_get fuel2 map key1 out := by
  have hidx : hash_string key % map.capacity < map.capacity := Nat.mod_lt _ hinv.1
  obtain ⟨es, hrep, _⟩ := map_invariant_bucket_rep map hinv _ hidx
  obtain ⟨e2, map2, es1, hins2, hinv1, hcap, _, hother, _, hrep1, hcases⟩ :=
    map_insert_spec fuel map al key value es hinv hrep hfuel (fun _ => hfresh)
  rw [hins] at hins2
  obtain ⟨he, hm⟩ := Prod.mk.inj (Option.some.inj hins2)
  subst hm
  by_cases hsame : hash_string key1 % map.capacity = hash_string key % map.capacity
  · have hlen : es.length < fuel2 := by
      have h1 := map_bucket_size_le map hinv _ hidx
      rw [map_bucket_rep_size map _ es hrep] at h1
      omega
    have hlen1 : es1.length < fuel2 := by
      have h1 := map_bucket_size_le map1 hinv1 (hash_string key % map.capacity)
        (by rw [hcap]; exact hidx)
      rw [map_bucket_rep_size map1 _ es1 hrep1] at h1
      omega
    rw [← hsame] at hrep hrep1
    rw [← hcap] at hrep1
    rw [map_get_rep fuel2 map1 key1 out es1 hinv1.1 hrep1 hlen1,
      map_get_rep fuel2 map key1 out es hinv.1 hrep hlen]
    have hk : ¬ key = key1 := fun h => hne h.symm
    rcases hcases with ⟨_, _, _, _, hes1, _⟩ | ⟨_, _, q1, x, q2, hes, hx, _, hes1⟩ |
        ⟨_, _, _, a, _, hes1⟩
    · rw [hes1]
    · subst hes; subst hes1
      simp [List.find?_append, List.find?_cons, map_entry_with_value, hx, hk]
    · subst hes1
      simp [List.find?_append, List.find?_cons, map_new_entry, hk]
  · exact map_get_congr fuel2 map map1 key1 out hcap (hother _ hsame)

theorem map_get_false (fuel : Nat) (map : map_t) (key : c_string) (out : generic_value_t)
    (es : List (Nat × map_element_t)) (hinv : map_invariant map)
    (hrep : map_bucket_rep map (hash_string key % map.capacity) es) (hfuel : map.size < fuel)
    (hget : map_get fuel map key out = some (false, out)) : ∀ y ∈ es, y.2.key ≠ key := by
  have hlen : es.length < fuel := by
    have h1 := map_bucket_size_le map hinv (hash_string key % map.capacity)
      (Nat.mod_lt _ hinv.1)
    rw [map_bucket_rep_size map _ es hrep] at h1
    omega
  rw [map_get_rep fuel map key out es hinv.1 hrep hlen] at hget
  cases hf : es.find? (fun y => decide (y.2.key = key)) with
  | none =>
    intro y hy
    have := List.find?_eq_none.1 hf y hy
    simpa using this
  | some x =>
    rw [hf] at hget
    simp at hget

theorem map_get_true (fuel : Nat) (map : map_t) (key : c_string) (out v : generic_value_t)
    (es : List (Nat × map_element_t)) (hinv : map_invariant map)
    (hrep : map_bucket_rep map (hash_string key % map.capacity) es) (hfuel : map.size < fuel)
    (hget : map_get fuel map key out = some (true, v)) :
    ∃ q1 x q2, es = q1 ++ x :: q2 ∧ x.2.key = key ∧ (∀ y ∈ q1, y.2.key ≠ key) ∧
      x.2.value = v := by
  have hlen : es.length < fuel := by
    have h1 := map_bucket_size_le map hinv (hash_string key % map.capacity)
      (Nat.mod_lt _ hinv.1)
    rw [map_bucket_rep_size map _ es hrep] at h1
    omega
  rw [map_get_rep fuel map key out es hinv.1 hrep hlen] at hget
  rcases list_key_split key es with hnone | ⟨q1, x, q2, hsplit, hx, hq1⟩
  · rw [list_find_none key es hnone] at hget
    simp at hget
  · subst hsplit
    rw [list_find_split key q1 x q2 hx hq1] at hget
    refine ⟨q1, x, q2, rfl, hx, hq1, ?_⟩
    simpa using hget

theorem map_last_inserted_none (key : c_string)
    (ops : List (map_allocs × c_string × generic_value_t))
    (h : map_last_inserted key ops = none) : key ∉ map_ops_keys ops := by
  induction ops with
  | nil => simp [map_ops_keys]
  | cons op rest ih =>
    unfold map_last_inserted at h
    cases hr : map_last_inserted key rest with
    | some v => rw [hr] at h; cases h
    | none =>
      rw [hr] at h
      have hne : ¬ op.2.1 = key := by
        intro heq; simp [heq] at h
      have := ih hr
      simp only [map_ops_keys, List.map_cons, List.mem_cons, not_or] at this ⊢
      exact ⟨fun h2 => hne h2.symm, this⟩

/-- A run of inserts whose allocations all succeed with pairwise distinct, unused
addresses. -/
theorem map_insert_all_spec (fuel : Nat) (ops : List (map_allocs × c_string × generic_value_t)) :
    ∀ (map : map_t) (used : List Nat), map_invariant map → map_mem_within map used →
      (used ++ map_ops_nodes ops).Nodup → (∀ op ∈ ops, map_allocs_ok op.1) →
      map.size + ops.length < fuel →
      ∃ map2, map_insert_all fuel map ops = some map2 ∧ map_invariant map2 ∧
        map2.size ≤ map.size + ops.length ∧ map2.capacity = map.capacity ∧
        (∀ k out, k ∉ map_ops_keys ops → map_get fuel map2 k out = map_get fuel map k out) ∧
        (∀ k v out, map_last_inserted k ops = some v →
          map_get fuel map2 k out = some (true, v)) ∧
        ((map_ops_keys ops).Nodup →
          (∀ k ∈ map_ops_keys ops, ∀ out, map_get fuel map k out = some (false, out)) →
          map2.size = map.size + ops.length) := by
  induction ops with
  | nil =>
    intro map used hinv _ _ _ _
    exact ⟨map, rfl, hinv, by simp, rfl, fun _ _ _ => rfl,
      fun k v out h => by simp [map_last_inserted] at h, fun _ _ => by simp⟩
  | cons op rest ih =>
    intro map used hinv hwithin hnd hok hfuel
    obtain ⟨al, key, value⟩ := op
    have hidx : hash_string key % map.capacity < map.capacity := Nat.mod_lt _ hinv.1
    obtain ⟨hok1, hok2, hok3, hok4⟩ := hok (al, key, value) (List.mem_cons_self _ _)
    obtain ⟨a, ha⟩ : ∃ a, al.node = some a := by
      cases hn : al.node with
      | none => exact absurd hn hok4
      | some a => exact ⟨a, rfl⟩
    have hnodes : map_ops_nodes ((al, key, value) :: rest) = a :: map_ops_nodes rest := by
      simp [map_ops_nodes, ha]
    rw [hnodes] at hnd
    have hfresh : map_allocs_fresh map al key := by
      intro a1 bucket ha1 hb
      by_contra hmem
      have hin := hwithin _ bucket a1 hb hmem
      rw [ha] at ha1
      have ha1a : a = a1 := Option.some.inj ha1
      subst ha1a
      exact (List.nodup_append.1 hnd).2.2 hin (List.mem_cons_self _ _)
    obtain ⟨es, hrep, _⟩ := map_invariant_bucket_rep map hinv _ hidx
    have hfuel1 : map.size < fuel := by omega
    obtain ⟨e, map1, es1, hins, hinv1, hcap, _, hother, hmem, hrep1, hcases⟩ :=
      map_insert_spec fuel map al key value es hinv hrep hfuel1 (fun _ => hfresh)
    have he : e = 0 := by
      rcases hcases with ⟨_, hwhy, _⟩ | ⟨he, _⟩ | ⟨he, _⟩
      · rcases hwhy with h | h | h | h
        · rw [hok1] at h; cases h
        · rw [hok2] at h; cases h
        · rw [hok3] at h; cases h
        · exact absurd h hok4
      · exact he
      · exact he
    subst he
    have hsize1 : map1.size ≤ map.size + 1 := by
      rcases hcases with ⟨he, _⟩ | ⟨_, hs, _⟩ | ⟨_, hs, _⟩
      · exact absurd rfl he
      · omega
      · omega
    have hwithin1 : map_mem_within map1 (used ++ [a]) := by
      intro i b1 c hb1 hc
      by_cases hi : i = hash_string key % map.capacity
      · subst hi
        rcases hmem b1 c hb1 hc with h | ⟨b, hb, hbc⟩
        · rw [ha] at h
          simp [Option.some.inj h]
        · exact List.mem_append_left _ (hwithin _ b c hb hbc)
      · rw [hother i hi] at hb1
        exact List.mem_append_left _ (hwithin i b1 c hb1 hc)
    have hlen : ((al, key, value) :: rest).length = rest.length + 1 := rfl
    rw [hlen] at hfuel
    obtain ⟨map2, hrun, hinv2, hsize2, hcap2, hframe, hlast, hexact⟩ :=
      ih map1 (used ++ [a]) hinv1 hwithin1 (by simpa using hnd)
        (fun op hop => hok op (List.mem_cons_of_mem _ hop)) (by omega)
    have hfuel2 : map1.size < fuel := by omega
    refine ⟨map2, ?_, hinv2, by rw [hlen]; omega, by rw [hcap2, hcap], ?_, ?_, ?_⟩
    · simp [map_insert_all, hins, hrun]
    · intro k out hk
      simp only [map_ops_keys, List.map_cons, List.mem_cons, not_or] at hk
      rw [hframe k out hk.2]
      exact map_get_insert_other fuel fuel map map1 al key k value out 0 hinv hfuel1 hfresh
        hins hk.1 hfuel2 hfuel1
    · intro k v out hk
      unfold map_last_inserted at hk
      cases hr : map_last_inserted k rest with
      | some v1 =>
        rw [hr] at hk
        simp only [Option.some.injEq] at hk
        subst hk
        exact hlast k v1 out hr
      | none =>
        rw [hr] at hk
        have hkey : key = k := by
          by_contra hne
          simp [hne] at hk
        subst hkey
        have hv : value = v := by simpa using hk
        subst hv
        rw [hframe key out (map_last_inserted_none key rest hr)]
        exact map_get_insert_same fuel fuel map map1 al key value out hinv hfuel1 hfresh
          hins hfuel2
    · intro hkeys habsent
      simp only [map_ops_keys, List.map_cons, List.nodup_cons] at hkeys
      have hnone := map_get_false fuel map key 0 es hinv hrep hfuel1
        (habsent key (by simp [map_ops_keys]) 0)
      have hs1 : map1.size = map.size + 1 := by
        rcases hcases with ⟨he, _⟩ | ⟨_, _, q1, x, q2, hsplit, hx, _⟩ | ⟨_, hs, _⟩
        · exact absurd rfl he
        · exact absurd hx (hnone x (by rw [hsplit]; simp))
        · exact hs
      have hrest := hexact hkeys.2 (fun k hk out => by
        have hne : k ≠ key := fun h => hkeys.1 (h ▸ hk)
        rw [map_get_insert_other fuel fuel map map1 al key k value out 0 hinv hfuel1 hfresh
          hins hne hfuel2 hfuel1]
        exact habsent k (by simp only [map_ops_keys, List.map_cons, List.mem_cons]; exact Or.inr hk)
          out)
      rw [hrest, hs1, hlen]; omega

/-! ## Lemmas: map_remove -/

theorem map_bucket_rep_some (map : map_t) (i : Nat) (es : List (Nat × map_element_t))
    (hrep : map_bucket_rep map i es) (hne : es ≠ []) :
    ∃ bucket, map.buckets i = some bucket ∧ list_rep bucket es := by
  unfold map_bucket_rep at hrep
  cases hb : map.buckets i with
  | none => rw [hb] at hrep; exact absurd hrep hne
  | some bucket => rw [hb] at hrep; exact ⟨bucket, rfl, hrep.1⟩

/-- The outcome of `map_remove` when the selected bucket holds the key: the
first entry with the key is removed. -/
theorem map_remove_found (fuel : Nat) (map : map_t) (key : c_string)
    (out : generic_value_t) (q1 : List (Nat × map_element_t)) (x : Nat × map_element_t)
    (q2 : List (Nat × map_element_t)) (hinv : map_invariant map)
    (hrep : map_bucket_rep map (hash_string key % map.capacity) (q1 ++ x :: q2))
    (hfuel : map.size < fuel) (hx : x.2.key = key) (hq1 : ∀ y ∈ q1, y.2.key ≠ key) :
    ∃ map1, map_remove fuel map key out = some (true, x.2.value, map1) ∧
      map_invariant map1 ∧ map1.capacity = map.capacity ∧
      (∀ i, i ≠ hash_string key % map.capacity → map1.buckets i = map.buckets i) ∧
      map_bucket_rep map1 (hash_string key % map.capacity) (q1 ++ q2) ∧
      map1.size + 1 = map.size := by
  have hidx : hash_string key % map.capacity < map.capacity := Nat.mod_lt _ hinv.1
  have hcap0 : map.capacity ≠ 0 := by have := hinv.1; omega
  have hle := map_bucket_size_le map hinv (hash_string key % map.capacity) hidx
  rw [map_bucket_rep_size map _ _ hrep] at hle
  have hlen : (q1 ++ x :: q2).length < fuel := by omega
  have hpos : 1 ≤ map.size := by
    simp only [List.length_append, List.length_cons] at hle
    omega
  obtain ⟨bucket, hb, hlrep⟩ := map_bucket_rep_some map _ _ hrep (by simp)
  obtain ⟨iter, hfind, hcur⟩ :=
    map_find_element_some key bucket q1 x q2 fuel hlrep.1 hlen hx hq1
  obtain ⟨bucket1, hrm, hrep1, _, _, _⟩ :=
    list_iterator_remove_current_rep bucket iter q1 x q2 hlrep hcur
  have hsz : list_size bucket1 = (q1 ++ q2).length := hrep1.2.1
  have hdec : size_dec map.size + 1 = map.size := by
    unfold size_dec
    rw [if_neg (by omega)]
    omega
  let buckets1 := Function.update map.buckets (hash_string key % map.capacity) (some bucket1)
  let buckets2 := Function.update buckets1 (hash_string key % map.capacity) none
  by_cases hempty : q1 ++ q2 = []
  · have hsz0 : list_size bucket1 = 0 := by rw [hsz, hempty]; rfl
    have hrep2 : map_bucket_rep { map with buckets := buckets2, size := size_dec map.size }
        (hash_string key % map.capacity) (q1 ++ q2) := by
      unfold map_bucket_rep
      simp only [buckets2, Function.update_same]
      exact hempty
    have hother : ∀ i, i ≠ hash_string key % map.capacity → buckets2 i = map.buckets i := by
      intro i hi
      simp only [buckets2, buckets1, Function.update_noteq hi]
    refine ⟨{ map with buckets := buckets2, size := size_dec map.size }, ?_, ?_, rfl, hother,
      hrep2, hdec⟩
    · simp only [map_remove, if_neg hcap0, hb, hfind, hrm, hsz0, if_true, buckets2, buckets1]
    · refine map_invariant_update map _ _ _ _ hinv hidx rfl hother hrep hrep2 ?_
      show size_dec map.size + (q1 ++ x :: q2).length = map.size + (q1 ++ q2).length
      simp only [List.length_append, List.length_cons]
      omega
  · have hsz0 : list_size bucket1 ≠ 0 := by
      rw [hsz]
      exact fun h => hempty (List.length_eq_zero.1 h)
    have hrep2 : map_bucket_rep { map with buckets := buckets1, size := size_dec map.size }
        (hash_string key % map.capacity) (q1 ++ q2) := by
      unfold map_bucket_rep
      simp only [buckets1, Function.update_same]
      exact ⟨hrep1, hempty⟩
    have hother : ∀ i, i ≠ hash_string key % map.capacity → buckets1 i = map.buckets i := by
      intro i hi
      simp only [buckets1, Function.update_noteq hi]
    refine ⟨{ map with buckets := buckets1, size := size_dec map.size }, ?_, ?_, rfl, hother,
      hrep2, hdec⟩
    · simp only [map_remove, if_neg hcap0, hb, hfind, hrm, hsz0, if_false, buckets1]
    · refine map_invariant_update map _ _ _ _ hinv hidx rfl hother hrep hrep2 ?_
      show size_dec map.size + (q1 ++ x :: q2).length = map.size + (q1 ++ q2).length
      simp only [List.length_append, List.length_cons]
      omega

theorem list_map_self {A : Type} (f : A → A) (l : List A) (h : ∀ y ∈ l, f y = y) :
    l.map f = l := by
  induction l with
  | nil => rfl
  | cons z rest ih =>
    rw [List.map_cons, h z (List.mem_cons_self _ _),
      ih (fun y hy => h y (List.mem_cons_of_mem _ hy))]

theorem map_key_invariant_bucket (map : map_t) (hkey : map_key_invariant map) (i : Nat)
    (hi : i < map.capacity) (es : List (Nat × map_element_t))
    (hrep : map_bucket_rep map i es) :
    (∀ x ∈ es, hash_string x.2.key % map.capacity = i ∧ x.2.hash_code = hash_string x.2.key) ∧
    (es.map (fun x => x.2.key)).Nodup := by
  unfold map_bucket_rep at hrep
  cases hb : map.buckets i with
  | none =>
    rw [hb] at hrep
    subst hrep
    exact ⟨fun x hx => by simp at hx, by simp⟩
  | some bucket =>
    rw [hb] at hrep
    exact hkey i hi bucket es hb hrep.1.1

theorem map_create_invariant (dealloc : Option Nat) (map0 : map_t)
    (hnew : map_create_with_value_deallocator true true dealloc = (0, some map0)) :
    map_invariants map0 ∧ map_mem_within map0 [] ∧ map0.size = 0 ∧
      map0.capacity = 10 ∧ ∀ i, map0.buckets i = none := by
  simp only [map_create_with_value_deallocator, Bool.not_true, Bool.false_eq_true, if_false,
    Prod.mk.injEq, Option.some.injEq, true_and] at hnew
  subst hnew
  refine ⟨⟨⟨?_, ?_, ?_⟩, ?_⟩, ?_, rfl, rfl, fun _ => rfl⟩
  · show 0 < INITIAL_CAPACITY
    decide
  · intro i _ bucket hb
    exact absurd hb (by simp)
  · show 0 = ∑ i ∈ Finset.range INITIAL_CAPACITY, map_bucket_size _ i
    simp [map_bucket_size]
  · intro i _ bucket es hb
    exact absurd hb (by simp)
  · intro i bucket a hb
    exact absurd hb (by simp)

theorem example_bucket_one_rep : list_rep example_bucket_one [(0, example_entry_one)] :=
  ⟨by simp [list_content, list_segment, example_bucket_one], rfl, rfl⟩

theorem example_map_one_invariants : map_invariants example_map_one := by
  refine ⟨⟨by decide, ?_, ?_⟩, ?_⟩
  · intro i _ bucket hb
    by_cases hi : i = 1
    · subst hi
      have : bucket = example_bucket_one := by
        simpa [example_map_one] using hb.symm
      subst this
      exact ⟨list_rep_invariant _ _ example_bucket_one_rep, by decide⟩
    · simp [example_map_one, hi] at hb
  · show 1 = ∑ i ∈ Finset.range INITIAL_CAPACITY, map_bucket_size example_map_one i
    simp [INITIAL_CAPACITY, Finset.sum_range_succ, map_bucket_size, example_map_one, list_size,
      example_bucket_one]
  · intro i _ bucket es hb hc
    by_cases hi : i = 1
    · subst hi
      have : bucket = example_bucket_one := by
        simpa [example_map_one] using hb.symm
      subst this
      have hes := list_chain_functional _ _ _ _ hc example_bucket_one_rep.1
      subst hes
      refine ⟨fun x hx => ?_, by simp⟩
      have hx1 : x = (0, example_entry_one) := by simpa using hx
      subst hx1
      exact ⟨by decide, by decide⟩
    · simp [example_map_one, hi] at hb

theorem example_map_empty_create : map_create true true = (0, some example_map_empty) := rfl

/-! ## Theorems: the map claims -/

/-- C7: on a map satisfying the map invariants, `map_insert` of `key` with
`value` returns, and when it returns 0 a following `map_get` of `key` returns
true and sets the output to `value`; moreover after any run of inserts whose
allocations succeed, `map_get` of a key returns the value of its last insert. -/
theorem map_insert_get (fuel : Nat) (map : map_t) (al : map_allocs) (key : c_string)
    (value : generic_value_t) (hinv : map_invariants map) (hfuel : map.size < fuel)
    (hfresh : map_allocs_fresh map al key) :
    (∃ e map1, map_insert fuel map al key value = some (e, map1) ∧
      (e = 0 → ∀ fuel2 out, map1.size < fuel2 →
        map_get fuel2 map1 key out = some (true, value))) ∧
    (∀ (ops : List (map_allocs × c_string × generic_value_t)) (used : List Nat),
      map_mem_within map used → (used ++ map_ops_nodes ops).Nodup →
      (∀ op ∈ ops, map_allocs_ok op.1) → map.size + ops.length < fuel →
      ∃ map2, map_insert_all fuel map ops = some map2 ∧
        ∀ k v out, map_last_inserted k ops = some v →
          map_get fuel map2 k out = some (true, v)) := by
  constructor
  · have hidx : hash_string key % map.capacity < map.capacity := Nat.mod_lt _ hinv.1.1
    obtain ⟨es, hrep, _⟩ := map_invariant_bucket_rep map hinv.1 _ hidx
    obtain ⟨e, map1, es1, hins, _⟩ :=
      map_insert_spec fuel map al key value es hinv.1 hrep hfuel (fun _ => hfresh)
    refine ⟨e, map1, hins, ?_⟩
    intro he fuel2 out hfuel2
    subst he
    exact map_get_insert_same fuel fuel2 map map1 al key value out hinv.1 hfuel hfresh hins
      hfuel2
  · intro ops used hwithin hnd hok hfuel2
    obtain ⟨map2, hrun, _, _, _, _, hlast, _⟩ :=
      map_insert_all_spec fuel ops map used hinv.1 hwithin hnd hok hfuel2
    exact ⟨map2, hrun, hlast⟩

/-- Witness for C7: after the ten inserts of `test_map_get` into a fresh map,
`map_get` of the key with byte 5 returns the value 4. -/
theorem map_insert_get_witness :
    ∃ map2, map_insert_all 11 example_map_empty example_map_ops = some map2 ∧
      map_get 11 map2 [5] 0 = some (true, 4) := by
  obtain ⟨map2, hrun, hlast⟩ :=
    (map_insert_get 11 example_map_empty (example_allocs 0) [1] 0
      (map_create_invariant none _ example_map_empty_create).1 (by decide)
      (fun _ bucket _ hb => by simp [example_map_empty] at hb)).2 example_map_ops []
      (map_create_invariant none _ example_map_empty_create).2.1 (by decide)
      (by simp [example_map_ops, map_allocs_ok, example_allocs]) (by decide)
  exact ⟨map2, hrun, hlast [5] 4 0 (by decide)⟩

/-- C8: on a map satisfying the map invariants that already contains `key`,
`map_insert` returns 0 whatever the allocator would do, leaves `map_size` and
the set of non-null bucket slots unchanged, and leaves every bucket with the
same entries in the same order, with the same addresses, keys and cached hash
codes, the value of the entry with `key` alone being replaced by `value`. -/
theorem map_insert_existing (fuel : Nat) (map : map_t) (al : map_allocs) (key : c_string)
    (value out v0 : generic_value_t) (hinv : map_invariants map) (hfuel : map.size < fuel)
    (hk : map_get fuel map key out = some (true, v0)) :
    ∃ map1, map_insert fuel map al key value = some (0, map1) ∧
      map_size map1 = map_size map ∧ map1.capacity = map.capacity ∧
      (∀ i, (map1.buckets i).isSome = (map.buckets i).isSome) ∧
      (∀ i es, i < map.capacity → map_bucket_rep map i es →
        map_bucket_rep map1 i
          (es.map (fun x => if x.2.key = key then map_entry_with_value x value else x))) := by
  obtain ⟨hinv1, hkey⟩ := hinv
  have hidx : hash_string key % map.capacity < map.capacity := Nat.mod_lt _ hinv1.1
  obtain ⟨es, hrep, _⟩ := map_invariant_bucket_rep map hinv1 _ hidx
  obtain ⟨q1, x, q2, hsplit, hx, hq1, _⟩ :=
    map_get_true fuel map key out v0 es hinv1 hrep hfuel hk
  have hxes : x ∈ es := by rw [hsplit]; simp
  obtain ⟨e, map1, es1, hins, _, hcap, _, hother, _, hrep1, hcases⟩ :=
    map_insert_spec fuel map al key value es hinv1 hrep hfuel
      (fun hnone => absurd hx (hnone x hxes))
  obtain ⟨_, hnd⟩ := map_key_invariant_bucket map hkey _ hidx es hrep
  rcases hcases with ⟨_, _, hnone, _⟩ | ⟨he, hsize, p1, y, p2, hsplit2, hy, hp1, hes1⟩ |
      ⟨_, _, hnone, _⟩
  · exact absurd hx (hnone x hxes)
  · subst he
    have hp2 : ∀ z ∈ p2, z.2.key ≠ key := by
      intro z hz hzk
      rw [hsplit2, List.map_append, List.map_cons, List.nodup_append] at hnd
      apply (List.nodup_cons.1 hnd.2.1).1
      rw [hy, ← hzk]
      exact List.mem_map.2 ⟨z, hz, rfl⟩
    have hmap : es.map (fun x => if x.2.key = key then map_entry_with_value x value else x)
        = es1 := by
      rw [hsplit2, hes1, List.map_append, List.map_cons, if_pos hy,
        list_map_self _ p1 (fun z hz => if_neg (hp1 z hz)),
        list_map_self _ p2 (fun z hz => if_neg (hp2 z hz))]
    refine ⟨map1, hins, hsize, hcap, ?_, ?_⟩
    · intro i
      by_cases hi : i = hash_string key % map.capacity
      · subst hi
        obtain ⟨b, hb, _⟩ := map_bucket_rep_some map _ es hrep (by rw [hsplit2]; simp)
        obtain ⟨b1, hb1, _⟩ := map_bucket_rep_some map1 _ es1 hrep1 (by rw [hes1]; simp)
        rw [hb, hb1]
        rfl
      · rw [hother i hi]
    · intro i es2 hi hrep2
      by_cases hii : i = hash_string key % map.capacity
      · subst hii
        have := map_bucket_rep_unique map _ es2 es hrep2 hrep
        subst this
        rw [hmap]; exact hrep1
      · obtain ⟨hplace, _⟩ := map_key_invariant_bucket map hkey i hi es2 hrep2
        rw [list_map_self _ es2 (fun z hz => if_neg (fun hzk => hii (by
          rw [← (hplace z hz).1, hzk])))]
        exact map_bucket_rep_congr map map1 i es2 (hother i hii) hrep2
  · exact absurd hx (hnone x hxes)

/-- Witness for C8: inserting the key with byte 1 again, now with value 7. -/
theorem map_insert_existing_witness :
    ∃ map1, map_insert 2 example_map_one (example_allocs 5) [1] 7 = some (0, map1) ∧
      map_size map1 = map_size example_map_one ∧ map1.capacity = example_map_one.capacity ∧
      (∀ i, (map1.buckets i).isSome = (example_map_one.buckets i).isSome) ∧
      (∀ i es, i < example_map_one.capacity → map_bucket_rep example_map_one i es →
        map_bucket_rep map1 i
          (es.map (fun x => if x.2.key = [1] then map_entry_with_value x 7 else x))) :=
  map_insert_existing 2 example_map_one (example_allocs 5) [1] 7 0 0
    example_map_one_invariants (by decide) (by decide)

/-- C9: inserting pairwise distinct keys into a freshly created map (created by
`map_create`, or by `map_create_with_value_deallocator` with any deallocator),
every allocation succeeding with an unused address, gives `map_size` equal to
the number of keys, whatever buckets the keys select; and on any map satisfying
the map invariants a `map_insert` that returns 0 for a key that `map_get` does
not find increases `map_size` by exactly 1. -/
theorem map_insert_size (fuel : Nat) (dealloc : Option Nat) (map0 : map_t)
    (ops : List (map_allocs × c_string × generic_value_t))
    (hnew : map_create_with_value_deallocator true true dealloc = (0, some map0))
    (hkeys : (map_ops_keys ops).Nodup)
    (hnodes : (map_ops_nodes ops).Nodup) (hok : ∀ op ∈ ops, map_allocs_ok op.1)
    (hfuel : ops.length < fuel) :
    (∃ map1, map_insert_all fuel map0 ops = some map1 ∧ map_size map1 = ops.length) ∧
    (∀ (map map1 : map_t) (al : map_allocs) (key : c_string) (value out : generic_value_t),
      map_invariants map → map.size < fuel → map_allocs_fresh map al key →
      map_get fuel map key out = some (false, out) →
      map_insert fuel map al key value = some (0, map1) →
      map_size map1 = map_size map + 1) := by
  constructor
  · obtain ⟨hinv0, hwithin0, hsize0, hcap0, hb0⟩ := map_create_invariant dealloc map0 hnew
    obtain ⟨map1, hrun, _, _, _, _, _, hexact⟩ :=
      map_insert_all_spec fuel ops map0 [] hinv0.1 hwithin0 (by simpa using hnodes) hok
        (by rw [hsize0]; omega)
    refine ⟨map1, hrun, ?_⟩
    have := hexact hkeys (fun k _ out => by
      have hc : map0.capacity ≠ 0 := by rw [hcap0]; decide
      simp only [map_get, if_neg hc, hb0])
    rw [map_size, this, hsize0]; omega
  · intro map map1 al key value out hinv hfuel1 hfresh hget hins
    have hidx : hash_string key % map.capacity < map.capacity := Nat.mod_lt _ hinv.1.1
    obtain ⟨es, hrep, _⟩ := map_invariant_bucket_rep map hinv.1 _ hidx
    have hnone := map_get_false fuel map key out es hinv.1 hrep hfuel1 hget
    obtain ⟨e, map2, es1, hins2, _, _, _, _, _, _, hcases⟩ :=
      map_insert_spec fuel map al key value es hinv.1 hrep hfuel1 (fun _ => hfresh)
    rw [hins] at hins2
    obtain ⟨he, hm⟩ := Prod.mk.inj (Option.some.inj hins2)
    subst hm
    rcases hcases with ⟨hne, _⟩ | ⟨_, _, q1, x, q2, hsplit, hx, _⟩ | ⟨_, hs, _⟩
    · exact absurd he.symm hne
    · exact absurd hx (hnone x (by rw [hsplit]; simp))
    · exact hs

/-- Witness for C9: the ten inserts of `test_map_insert` give size 10. -/
theorem map_insert_size_witness :
    ∃ map1, map_insert_all 11 example_map_empty example_map_ops = some map1 ∧
      map_size map1 = example_map_ops.length :=
  (map_insert_size 11 none example_map_empty example_map_ops rfl (by decide) (by decide)
    (by simp [example_map_ops, map_allocs_ok, example_allocs]) (by decide)).1

/-- C10: on a map satisfying the map invariants in which `map_get` finds `key`
with value `v`, `map_remove` returns true and sets the output to `v`; afterwards
`map_get` of `key` returns false, `map_size` is smaller by exactly 1, and
`map_get` of every other key returns the same flag and output as before. -/
theorem map_remove_spec (fuel : Nat) (map : map_t) (key : c_string)
    (out out0 v : generic_value_t) (hinv : map_invariants map) (hfuel : map.size < fuel)
    (hk : map_get fuel map key out0 = some (true, v)) :
    ∃ map1, map_remove fuel map key out = some (true, v, map1) ∧
      (∀ out1, map_get fuel map1 key out1 = some (false, out1)) ∧
      map_size map1 + 1 = map_size map ∧
      (∀ key1 out2, key1 ≠ key → map_get fuel map1 key1 out2 = map_get fuel map key1 out2) := by
  obtain ⟨hinv1, hkey⟩ := hinv
  have hidx : hash_string key % map.capacity < map.capacity := Nat.mod_lt _ hinv1.1
  obtain ⟨es, hrep, _⟩ := map_invariant_bucket_rep map hinv1 _ hidx
  obtain ⟨q1, x, q2, hsplit, hx, hq1, hv⟩ :=
    map_get_true fuel map key out0 v es hinv1 hrep hfuel hk
  subst hsplit
  obtain ⟨map1, hrm, hinv2, hcap, hother, hrep1, hsize⟩ :=
    map_remove_found fuel map key out q1 x q2 hinv1 hrep hfuel hx hq1
  obtain ⟨_, hnd⟩ := map_key_invariant_bucket map hkey _ hidx _ hrep
  have hq2 : ∀ z ∈ q2, z.2.key ≠ key := by
    intro z hz hzk
    rw [List.map_append, List.map_cons, List.nodup_append] at hnd
    apply (List.nodup_cons.1 hnd.2.1).1
    rw [hx, ← hzk]
    exact List.mem_map.2 ⟨z, hz, rfl⟩
  have hlen : (q1 ++ x :: q2).length < fuel := by
    have h1 := map_bucket_size_le map hinv1 (hash_string key % map.capacity) hidx
    rw [map_bucket_rep_size map _ _ hrep] at h1
    omega
  have hlen1 : (q1 ++ q2).length < fuel := by
    simp only [List.length_append, List.length_cons] at hlen ⊢
    omega
  refine ⟨map1, by rw [← hv]; exact hrm, ?_, hsize, ?_⟩
  · intro out1
    have hrep1c := hrep1
    rw [← hcap] at hrep1c
    rw [map_get_rep fuel map1 key out1 (q1 ++ q2) hinv2.1 hrep1c hlen1,
      list_find_none key (q1 ++ q2) (fun y hy => by
        rcases List.mem_append.1 hy with h | h
        · exact hq1 y h
        · exact hq2 y h)]
  · intro key1 out2 hne
    by_cases hsame : hash_string key1 % map.capacity = hash_string key % map.capacity
    · have hrepa := hrep
      have hrepb := hrep1
      rw [← hsame] at hrepa hrepb
      rw [← hcap] at hrepb
      rw [map_get_rep fuel map1 key1 out2 (q1 ++ q2) hinv2.1 hrepb hlen1,
        map_get_rep fuel map key1 out2 (q1 ++ x :: q2) hinv1.1 hrepa hlen]
      have hk1 : ¬ x.2.key = key1 := fun h => hne (by rw [← h, hx])
      simp [List.find?_append, List.find?_cons, hk1]
    · exact map_get_congr fuel map map1 key1 out2 hcap (hother _ hsame)

/-- Witness for C10: removing the key with byte 1 from the one-entry map. -/
theorem map_remove_spec_witness :
    ∃ map1, map_remove 2 example_map_one [1] 9 = some (true, 0, map1) ∧
      (∀ out1, map_get 2 map1 [1] out1 = some (false, out1)) ∧
      map_size map1 + 1 = map_size example_map_one ∧
      (∀ key1 out2, key1 ≠ [1] →
        map_get 2 map1 key1 out2 = map_get 2 example_map_one key1 out2) :=
  map_remove_spec 2 example_map_one [1] 9 0 0 example_map_one_invariants (by decide)
    (by decide)

/-! ## Lemmas: positions of the map iterator -/

theorem map_entries_from_congr (E E1 : Nat → List (Nat × map_element_t)) (n : Nat) :
    ∀ k, (∀ i, k ≤ i → E1 i = E i) → map_entries_from E1 n k = map_entries_from E n k := by
  induction n with
  | zero => intro k _; rfl
  | succ n ih =>
    intro k h
    show E1 k ++ map_entries_from E1 n (k + 1) = E k ++ map_entries_from E n (k + 1)
    rw [h k (le_refl k), ih (k + 1) (fun i hi => h i (by omega))]

theorem map_iterator_pos_congr (map map1 : map_t) (E : Nat → List (Nat × map_element_t))
    (iter : map_iterator_t) (R : List (Nat × map_element_t))
    (hcap : map1.capacity = map.capacity) (hpos : map_iterator_pos map E iter R) :
    map_iterator_pos map1 E iter R := by
  unfold map_iterator_pos map_cursor_at at hpos ⊢
  rw [hcap]; exact hpos

theorem map_rep_some (map : map_t) (E : Nat → List (Nat × map_element_t)) (hrep : map_rep map E)
    (i : Nat) (hi : i < map.capacity) (hne : E i ≠ []) :
    ∃ bucket, map.buckets i = some bucket ∧ list_rep bucket (E i) :=
  map_bucket_rep_some map i (E i) (hrep i hi) hne

/-- Where `map_iterator_find_bucket` stops: on the first entry of the first
non-empty bucket from `bucket_index` on, or exhausted; what remains to visit
are the entries of the slots from `bucket_index` on. -/
theorem map_iterator_find_bucket_loop_pos (map : map_t) (E : Nat → List (Nat × map_element_t))
    (hrep : map_rep map E) :
    ∀ (steps : Nat) (iter : map_iterator_t), iter.bucket_index + steps = map.capacity →
      map_iterator_pos map E (map_iterator_find_bucket_loop map steps iter)
        (map_entries_from E steps iter.bucket_index) := by
  intro steps
  induction steps with
  | zero =>
    intro iter h
    exact Or.inl ⟨by simp only [map_iterator_find_bucket_loop]; omega, rfl⟩
  | succ s ih =>
    intro iter h
    have hlt : iter.bucket_index < map.capacity := by omega
    have hbr := hrep iter.bucket_index hlt
    unfold map_bucket_rep at hbr
    simp only [map_iterator_find_bucket_loop, if_pos hlt]
    cases hb : map.buckets iter.bucket_index with
    | none =>
      rw [hb] at hbr
      have hrec := ih { iter with bucket_index := iter.bucket_index + 1 } (by simp only; omega)
      simp only [map_entries_from, hbr, List.nil_append]
      exact hrec
    | some bucket =>
      rw [hb] at hbr
      refine Or.inr ⟨iter.bucket_index, 0, ⟨rfl, hlt, rfl, rfl, ?_⟩, ?_⟩
      · exact List.length_pos.2 hbr.2
      · have hs : map.capacity - (iter.bucket_index + 1) = s := by omega
        simp only [map_entries_from, List.drop_zero, hs]

theorem map_iterator_find_bucket_pos (map : map_t) (E : Nat → List (Nat × map_element_t))
    (hrep : map_rep map E) (iter : map_iterator_t) (hle : iter.bucket_index ≤ map.capacity) :
    map_iterator_pos map E (map_iterator_find_bucket map iter)
      (map_entries_from E (map.capacity - iter.bucket_index) iter.bucket_index) :=
  map_iterator_find_bucket_loop_pos map E hrep _ iter (by omega)

theorem map_iterator_create_pos (map : map_t) (E : Nat → List (Nat × map_element_t))
    (hrep : map_rep map E) :
    map_iterator_pos map E (map_iterator_create map) (map_entries_from E map.capacity 0) :=
  map_iterator_find_bucket_pos map E hrep _ (Nat.zero_le _)

/-- An iterator with something left to visit is on an entry, the first of what
is left. -/
theorem map_iterator_pos_cons (map : map_t) (E : Nat → List (Nat × map_element_t))
    (iter : map_iterator_t) (x : Nat × map_element_t) (R : List (Nat × map_element_t))
    (hpos : map_iterator_pos map E iter (x :: R)) :
    ∃ i j, map_cursor_at map E iter i j ∧ (E i)[j]? = some x ∧
      R = (E i).drop (j + 1) ++ map_entries_from E (map.capacity - (i + 1)) (i + 1) := by
  rcases hpos with ⟨_, h⟩ | ⟨i, j, hat, hR⟩
  · cases h
  · have hj : j < (E i).length := hat.2.2.2.2
    rw [List.drop_eq_getElem_cons hj, List.cons_append] at hR
    obtain ⟨hx, hR2⟩ := List.cons.inj hR
    exact ⟨i, j, hat, by rw [List.getElem?_eq_getElem hj, hx], hR2⟩

theorem map_iterator_pos_nil (map : map_t) (E : Nat → List (Nat × map_element_t))
    (iter : map_iterator_t) (hpos : map_iterator_pos map E iter []) :
    map_iterator_has_current map iter = false := by
  rcases hpos with ⟨h, _⟩ | ⟨i, j, hat, hR⟩
  · simp only [map_iterator_has_current, decide_eq_false_iff_not]; omega
  · have hj : j < (E i).length := hat.2.2.2.2
    rw [List.drop_eq_getElem_cons hj] at hR
    cases hR

/-- At an entry: `has_current` is true, `get_current` reads the entry, and
`next` moves to the following position of the traversal. -/
theorem map_iterator_step (map : map_t) (E : Nat → List (Nat × map_element_t))
    (iter : map_iterator_t) (x : Nat × map_element_t) (R : List (Nat × map_element_t))
    (hrep : map_rep map E) (hpos : map_iterator_pos map E iter (x :: R)) :
    map_iterator_has_current map iter = true ∧
    map_iterator_get_current map iter = some (x.2.key, x.2.value) ∧
    ∃ iter1, map_iterator_next map iter = some iter1 ∧ map_iterator_pos map E iter1 R := by
  obtain ⟨i, j, ⟨hidx, hi, hlist, hcur, hj⟩, hx, hR⟩ := map_iterator_pos_cons map E iter x R hpos
  obtain ⟨bucket, hb, hlrep⟩ := map_rep_some map E hrep i hi (List.ne_nil_of_length_pos (by omega))
  have hget := list_iterator_get_current_at bucket iter.bucket_iter (E i) j x hlrep.1 hcur hx
  obtain ⟨it1, hnext, hcur1⟩ :=
    list_iterator_next_at bucket iter.bucket_iter (E i) j x hlrep.1 hcur hx
  have hhas1 := list_iterator_has_current_at bucket it1 (E i) (j + 1) hlrep.1 hcur1
  refine ⟨by simp only [map_iterator_has_current, hidx, decide_eq_true_eq]; exact hi, ?_, ?_⟩
  · simp only [map_iterator_get_current, hlist, hb, hget]
  · by_cases hlast : j + 1 < (E i).length
    · refine ⟨{ iter with bucket_iter := it1 }, ?_, Or.inr ⟨i, j + 1, ⟨hidx, hi, hlist, hcur1, hlast⟩, hR⟩⟩
      simp only [map_iterator_next, hlist, hb, hnext, hhas1, hlast, decide_True]
    · refine ⟨map_iterator_find_bucket map
        { iter with bucket_iter := it1, bucket_index := iter.bucket_index + 1 }, ?_, ?_⟩
      · simp only [map_iterator_next, hlist, hb, hnext, hhas1, hlast, decide_False]
      · have hd : (E i).drop (j + 1) = [] := List.drop_eq_nil_of_le (by omega)
        rw [hR, hd, List.nil_append]
        have := map_iterator_find_bucket_pos map E hrep
          { iter with bucket_iter := it1, bucket_index := iter.bucket_index + 1 }
          (by simp only [hidx]; omega)
        simp only [hidx] at this ⊢
        exact this

/-- The traversal from a position reads what is left to visit. -/
theorem map_iterate_from_pos (map : map_t) (E : Nat → List (Nat × map_element_t))
    (hrep : map_rep map E) (R : List (Nat × map_element_t)) :
    ∀ (iter : map_iterator_t) (fuel : Nat), map_iterator_pos map E iter R → R.length < fuel →
      map_iterate_from fuel map iter = some (R.map (fun x => (x.2.key, x.2.value))) := by
  induction R with
  | nil =>
    intro iter fuel hpos hfuel
    obtain ⟨f, rfl⟩ : ∃ f, fuel = f + 1 := ⟨fuel - 1, by omega⟩
    simp [map_iterate_from, map_iterator_pos_nil map E iter hpos]
  | cons x R ih =>
    intro iter fuel hpos hfuel
    obtain ⟨f, rfl⟩ : ∃ f, fuel = f + 1 := ⟨fuel - 1, by omega⟩
    obtain ⟨hhas, hget, iter1, hnext, hpos1⟩ := map_iterator_step map E iter x R hrep hpos
    have hrec := ih iter1 f hpos1 (by simpa using hfuel)
    simp [map_iterate_from, hhas, hget, hnext, hrec]

theorem map_rep_update (map map1 : map_t) (E : Nat → List (Nat × map_element_t)) (i : Nat)
    (es1 : List (Nat × map_element_t)) (hinv : map_invariant map) (hrep : map_rep map E)
    (hi : i < map.capacity) (hcap : map1.capacity = map.capacity)
    (hother : ∀ k, k ≠ i → map1.buckets k = map.buckets k)
    (hrep1 : map_bucket_rep map1 i es1)
    (hsize : map1.size + (E i).length = map.size + es1.length) :
    map_invariant map1 ∧ map_rep map1 (Function.update E i es1) := by
  refine ⟨map_invariant_update map map1 i (E i) es1 hinv hi hcap hother (hrep i hi) hrep1 hsize,
    ?_⟩
  intro k hk
  by_cases hki : k = i
  · subst hki
    rw [Function.update_same]; exact hrep1
  · rw [Function.update_noteq hki]
    exact map_bucket_rep_congr map map1 k (E k) (hother k hki) (hrep k (by rw [← hcap]; exact hk))

theorem map_invariant_size_pos (map : map_t) (hinv : map_invariant map) (i : Nat)
    (hi : i < map.capacity) (es : List (Nat × map_element_t)) (hrep : map_bucket_rep map i es)
    (hne : es ≠ []) : size_dec map.size + 1 = map.size := by
  have hle := map_bucket_size_le map hinv i hi
  rw [map_bucket_rep_size map i es hrep] at hle
  have hpos : 0 < es.length := List.length_pos.2 hne
  unfold size_dec
  rw [if_neg (by omega)]
  omega

theorem map_iterator_find_bucket_loop_congr (map map1 : map_t)
    (hcap : map1.capacity = map.capacity) (hb : map1.buckets = map.buckets) :
    ∀ (steps : Nat) (iter : map_iterator_t),
      map_iterator_find_bucket_loop map1 steps iter = map_iterator_find_bucket_loop map steps iter := by
  intro steps
  induction steps with
  | zero => intro iter; rfl
  | succ n ih =>
    intro iter
    simp only [map_iterator_find_bucket_loop, hcap, hb, ih]

theorem map_iterator_find_bucket_congr (map map1 : map_t)
    (hcap : map1.capacity = map.capacity) (hb : map1.buckets = map.buckets)
    (iter : map_iterator_t) :
    map_iterator_find_bucket map1 iter = map_iterator_find_bucket map iter := by
  unfold map_iterator_find_bucket
  rw [hcap]
  exact map_iterator_find_bucket_loop_congr map map1 hcap hb _ iter

/-- Removing the entry under the map iterator: the entry leaves its bucket, an
emptied bucket is cleared, and the iterator is at the position that followed. -/
theorem map_iterator_remove_pos (map : map_t) (E : Nat → List (Nat × map_element_t))
    (iter : map_iterator_t) (x : Nat × map_element_t) (R : List (Nat × map_element_t))
    (hinv : map_invariant map) (hrep : map_rep map E)
    (hpos : map_iterator_pos map E iter (x :: R)) :
    ∃ map1 iter1 i j, map_cursor_at map E iter i j ∧ (E i)[j]? = some x ∧
      map_iterator_remove_current map iter = some (x.2, map1, iter1) ∧
      map_invariant map1 ∧ map1.capacity = map.capacity ∧ map1.size + 1 = map.size ∧
      map_rep map1 (Function.update E i ((E i).eraseIdx j)) ∧
      map_iterator_pos map1 (Function.update E i ((E i).eraseIdx j)) iter1 R ∧
      (∀ k, k ≠ i → map1.buckets k = map.buckets k) := by
  obtain ⟨i1, j, hat, hx, hR⟩ := map_iterator_pos_cons map E iter x R hpos
  obtain ⟨hidx, hi, hlist, hcur, hj⟩ := hat
  obtain ⟨i, blist, biter⟩ := iter
  simp only at hidx hlist hcur
  subst hidx
  subst hlist
  have hne : E i ≠ [] := List.ne_nil_of_length_pos (by omega)
  obtain ⟨bucket, hb, hlrep⟩ := map_rep_some map E hrep i hi hne
  obtain ⟨pre, post, hsplit, hlen, herase⟩ := list_split_at (E i) j x hx
  have hdrop : (E i).drop (j + 1) = post := by
    rw [hsplit, ← hlen]
    simp
  rw [hdrop] at hR
  suffices hmain : ∃ map1 iter1,
      map_iterator_remove_current map
        { bucket_index := i, bucket_list := some i, bucket_iter := biter }
        = some (x.2, map1, iter1) ∧
      map_invariant map1 ∧ map1.capacity = map.capacity ∧ map1.size + 1 = map.size ∧
      map_rep map1 (Function.update E i (pre ++ post)) ∧
      map_iterator_pos map1 (Function.update E i (pre ++ post)) iter1 R ∧
      (∀ k, k ≠ i → map1.buckets k = map.buckets k) by
    obtain ⟨map1, iter1, h1, h2, h3, h4, h5, h6, h7⟩ := hmain
    rw [← herase] at h5 h6
    exact ⟨map1, iter1, i, j, ⟨rfl, hi, rfl, hcur, hj⟩, hx, h1, h2, h3, h4, h5, h6, h7⟩
  have hlrep2 : list_rep bucket (pre ++ x :: post) := by rw [← hsplit]; exact hlrep
  have hcur2 : cursor_at biter (pre ++ x :: post) pre.length := by
    rw [← hsplit, hlen]; exact hcur
  obtain ⟨bucket1, hrm, hrep1, hcur1, _, _⟩ :=
    list_iterator_remove_current_rep bucket biter pre x post hlrep2 hcur2
  have hhas := list_iterator_has_current_at bucket1 biter _ _ hrep1.1 hcur1
  have hdec := map_invariant_size_pos map hinv i hi (E i) (hrep i hi) hne
  have hEl : (E i).length = pre.length + post.length + 1 := by
    rw [hsplit]; simp; omega
  have hsz : list_size bucket1 = (pre ++ post).length := hrep1.2.1
  have hent : ∀ n, map_entries_from (Function.update E i (pre ++ post)) n (i + 1)
      = map_entries_from E n (i + 1) := fun n =>
    map_entries_from_congr E _ n (i + 1) (fun k hk => Function.update_noteq (by omega) _ _)
  have hncap : ¬ map.capacity ≤ i := by omega
  by_cases hpost : post = []
  · subst hpost
    have hhas2 : list_iterator_has_current bucket1 biter = some false := by
      rw [hhas]; simp
    have hstep : ∀ map3 : map_t, map3.capacity = map.capacity →
        map_rep map3 (Function.update E i (pre ++ [])) →
        map_iterator_pos map3 (Function.update E i (pre ++ []))
          (map_iterator_find_bucket map3
            { bucket_index := i + 1, bucket_list := some i, bucket_iter := biter }) R := by
      intro map3 hcap3 hrep3
      have hfind := map_iterator_find_bucket_pos map3 _ hrep3
        { bucket_index := i + 1, bucket_list := some i, bucket_iter := biter }
        (by show i + 1 ≤ map3.capacity; omega)
      rw [hR, List.nil_append, ← hent, ← hcap3]
      exact hfind
    by_cases hpre : pre = []
    · subst hpre
      let map2 : map_t :=
        { map with buckets := Function.update (Function.update map.buckets i (some bucket1)) i none }
      let map3 : map_t := { map2 with size := size_dec map.size }
      have hother : ∀ k, k ≠ i → map3.buckets k = map.buckets k := by
        intro k hk
        show Function.update (Function.update map.buckets i (some bucket1)) i none k = _
        rw [Function.update_noteq hk, Function.update_noteq hk]
      have hbr : map_bucket_rep map3 i ([] ++ []) := by
        unfold map_bucket_rep
        show (match Function.update (Function.update map.buckets i (some bucket1)) i none i with
          | none => ([] ++ [] : List (Nat × map_element_t)) = []
          | some bucket => list_rep bucket ([] ++ []) ∧ ([] ++ [] : List (Nat × map_element_t)) ≠ [])
        rw [Function.update_same]
        rfl
      obtain ⟨hinv3, hrep3⟩ := map_rep_update map map3 E i _ hinv hrep hi rfl hother hbr
        (by show size_dec map.size + (E i).length = map.size + ([] ++ [] : List (Nat × map_element_t)).length
            simp only [List.length_nil, List.append_nil] at hEl ⊢
            omega)
      refine ⟨map3, map_iterator_find_bucket map2
        { bucket_index := i + 1, bucket_list := some i, bucket_iter := biter }, ?_, hinv3, rfl,
        hdec, hrep3, ?_, hother⟩
      · have hsz0 : list_size bucket1 = 0 := hsz
        simp only [map_iterator_remove_current, hb, hrm, hhas2, if_neg hncap,
          Function.update_same, hsz0, if_true]
      · rw [← map_iterator_find_bucket_congr map2 map3 rfl rfl]
        exact hstep map3 rfl hrep3
    · let map2 : map_t := { map with buckets := Function.update map.buckets i (some bucket1) }
      let map3 : map_t := { map2 with size := size_dec map.size }
      have hother : ∀ k, k ≠ i → map3.buckets k = map.buckets k := by
        intro k hk
        show Function.update map.buckets i (some bucket1) k = _
        rw [Function.update_noteq hk]
      have hbr : map_bucket_rep map3 i (pre ++ []) := by
        unfold map_bucket_rep
        show (match Function.update map.buckets i (some bucket1) i with
          | none => pre ++ [] = []
          | some bucket => list_rep bucket (pre ++ []) ∧ pre ++ [] ≠ [])
        rw [Function.update_same]
        exact ⟨hrep1, by simpa using hpre⟩
      obtain ⟨hinv3, hrep3⟩ := map_rep_update map map3 E i _ hinv hrep hi rfl hother hbr
        (by show size_dec map.size + (E i).length = map.size + (pre ++ []).length
            simp only [List.length_nil, List.append_nil, Nat.add_zero] at hEl ⊢
            omega)
      refine ⟨map3, map_iterator_find_bucket map2
        { bucket_index := i + 1, bucket_list := some i, bucket_iter := biter }, ?_, hinv3, rfl,
        hdec, hrep3, ?_, hother⟩
      · have hsz0 : list_size bucket1 ≠ 0 := by
          rw [hsz]
          exact fun h => hpre (by simpa using h)
        simp only [map_iterator_remove_current, hb, hrm, hhas2, if_neg hncap,
          Function.update_same, hsz0, if_false]
      · rw [← map_iterator_find_bucket_congr map2 map3 rfl rfl]
        exact hstep map3 rfl hrep3
  · have hlt : pre.length < (pre ++ post).length := by
      have := List.length_pos.2 hpost
      simp only [List.length_append]; omega
    have hhas2 : list_iterator_has_current bucket1 biter = some true := by
      rw [hhas]; simp [List.length_pos.2 hpost]
    let map3 : map_t :=
      { map with buckets := Function.update map.buckets i (some bucket1), size := size_dec map.size }
    have hother : ∀ k, k ≠ i → map3.buckets k = map.buckets k := by
      intro k hk
      show Function.update map.buckets i (some bucket1) k = _
      rw [Function.update_noteq hk]
    have hbr : map_bucket_rep map3 i (pre ++ post) := by
      unfold map_bucket_rep
      show (match Function.update map.buckets i (some bucket1) i with
        | none => pre ++ post = []
        | some bucket => list_rep bucket (pre ++ post) ∧ pre ++ post ≠ [])
      rw [Function.update_same]
      exact ⟨hrep1, by simp [hpost]⟩
    obtain ⟨hinv3, hrep3⟩ := map_rep_update map map3 E i (pre ++ post) hinv hrep hi rfl hother hbr
      (by show size_dec map.size + (E i).length = map.size + (pre ++ post).length
          simp only [List.length_append]
          omega)
    refine ⟨map3, { bucket_index := i, bucket_list := some i, bucket_iter := biter }, ?_, hinv3,
      rfl, hdec, hrep3, ?_, hother⟩
    · simp only [map_iterator_remove_current, hb, hrm, hhas2]
    · refine Or.inr ⟨i, j, ⟨rfl, hi, rfl, ?_, ?_⟩, ?_⟩
      · rw [Function.update_same, ← hlen]; exact hcur1
      · rw [Function.update_same, ← hlen]; exact hlt
      · rw [Function.update_same, hR, hent, ← hlen]
        simp

/-! ## Lemmas: the entries of a map -/

theorem map_invariant_rep (map : map_t) (hinv : map_invariant map) :
    ∃ E, map_rep map E := by
  have h : ∀ i, ∃ es, i < map.capacity → map_bucket_rep map i es := by
    intro i
    by_cases hi : i < map.capacity
    · obtain ⟨es, hes, _⟩ := map_invariant_bucket_rep map hinv i hi
      exact ⟨es, fun _ => hes⟩
    · exact ⟨[], fun h => absurd h hi⟩
  choose E hE using h
  exact ⟨E, hE⟩

theorem map_entries_from_mem (E : Nat → List (Nat × map_element_t)) (x : Nat × map_element_t)
    (n : Nat) : ∀ k, x ∈ map_entries_from E n k ↔ ∃ i, k ≤ i ∧ i < k + n ∧ x ∈ E i := by
  induction n with
  | zero =>
    intro k
    simp only [map_entries_from, List.not_mem_nil, false_iff]
    rintro ⟨i, h1, h2, _⟩
    omega
  | succ n ih =>
    intro k
    simp only [map_entries_from, List.mem_append, ih (k + 1)]
    constructor
    · rintro (h | ⟨i, h1, h2, h3⟩)
      · exact ⟨k, le_refl k, by omega, h⟩
      · exact ⟨i, by omega, by omega, h3⟩
    · rintro ⟨i, h1, h2, h3⟩
      by_cases hik : i = k
      · subst hik; exact Or.inl h3
      · exact Or.inr ⟨i, by omega, by omega, h3⟩

theorem map_entries_from_length (E : Nat → List (Nat × map_element_t)) (n : Nat) :
    ∀ k, (map_entries_from E n k).length = ∑ i ∈ Finset.range n, (E (k + i)).length := by
  induction n with
  | zero => intro k; rfl
  | succ n ih =>
    intro k
    rw [Finset.sum_range_succ']
    simp only [map_entries_from, List.length_append, ih (k + 1), Nat.add_zero]
    rw [Nat.add_comm]
    congr 1
    refine Finset.sum_congr rfl (fun i _ => ?_)
    rw [show k + 1 + i = k + (i + 1) by omega]

theorem map_rep_size (map : map_t) (E : Nat → List (Nat × map_element_t))
    (hinv : map_invariant map) (hrep : map_rep map E) :
    map.size = (map_entries_from E map.capacity 0).length := by
  rw [hinv.2.2, map_entries_from_length]
  refine Finset.sum_congr rfl (fun i hi => ?_)
  rw [Nat.zero_add]
  exact map_bucket_rep_size map i (E i) (hrep i (Finset.mem_range.1 hi))

/-- The placement and uniqueness invariant read on the bucket contents. -/
theorem map_key_invariant_rep (map : map_t) (E : Nat → List (Nat × map_element_t))
    (hrep : map_rep map E) :
    map_key_invariant map ↔
      ∀ i, i < map.capacity →
        (∀ x ∈ E i, hash_string x.2.key % map.capacity = i ∧
          x.2.hash_code = hash_string x.2.key) ∧
        ((E i).map (fun x => x.2.key)).Nodup := by
  constructor
  · intro hkey i hi
    exact map_key_invariant_bucket map hkey i hi (E i) (hrep i hi)
  · intro h i hi bucket es hb hc
    have hbr := hrep i hi
    unfold map_bucket_rep at hbr
    rw [hb] at hbr
    have hes : es = E i := list_chain_functional _ _ _ _ hc hbr.1.1
    rw [hes]
    exact h i hi

theorem map_entries_keys_nodup (cap : Nat) (E : Nat → List (Nat × map_element_t))
    (hplace : ∀ i, i < cap → ∀ x ∈ E i, hash_string x.2.key % cap = i)
    (hnd : ∀ i, i < cap → ((E i).map (fun x => x.2.key)).Nodup) (n : Nat) :
    ∀ k, k + n ≤ cap → ((map_entries_from E n k).map (fun x => x.2.key)).Nodup := by
  induction n with
  | zero => intro k _; simp [map_entries_from]
  | succ n ih =>
    intro k hk
    simp only [map_entries_from, List.map_append]
    refine List.nodup_append.2 ⟨hnd k (by omega), ih (k + 1) (by omega), ?_⟩
    intro key h1 h2
    obtain ⟨x, hx, hxk⟩ := List.mem_map.1 h1
    obtain ⟨y, hy, hyk⟩ := List.mem_map.1 h2
    obtain ⟨i, hi1, hi2, hyi⟩ := (map_entries_from_mem E y n (k + 1)).1 hy
    have e1 := hplace k (by omega) x hx
    have e2 := hplace i (by omega) y hyi
    rw [hxk] at e1
    rw [hyk] at e2
    omega

/-- The key invariant survives the removal of one entry. -/
theorem map_key_invariant_erase (map map1 : map_t) (E : Nat → List (Nat × map_element_t))
    (i j : Nat) (hkey : map_key_invariant map) (hrep : map_rep map E)
    (hcap : map1.capacity = map.capacity)
    (hrep1 : map_rep map1 (Function.update E i ((E i).eraseIdx j))) :
    map_key_invariant map1 := by
  rw [map_key_invariant_rep map1 _ hrep1]
  have h := (map_key_invariant_rep map E hrep).1 hkey
  intro k hk
  rw [hcap] at hk ⊢
  by_cases hki : k = i
  · subst hki
    rw [Function.update_same]
    obtain ⟨h1, h2⟩ := h k hk
    refine ⟨fun x hx => h1 x (List.mem_of_mem_eraseIdx hx), ?_⟩
    exact List.Nodup.sublist (List.Sublist.map _ (List.eraseIdx_sublist _ _)) h2
  · rw [Function.update_noteq hki]
    exact h k hk

/-- Every state reached by the iterator operations is a position of the
traversal of a map that satisfies the invariant. -/
theorem map_iterator_reachable_pos (map0 map : map_t) (iter : map_iterator_t)
    (hinv : map_invariant map0) (hreach : map_iterator_reachable map0 map iter) :
    map_invariant map ∧ map.capacity = map0.capacity ∧
      (map_key_invariant map0 → map_key_invariant map) ∧
      ∃ E R, map_rep map E ∧ map_iterator_pos map E iter R := by
  induction hreach with
  | create =>
    obtain ⟨E, hrep⟩ := map_invariant_rep map0 hinv
    exact ⟨hinv, rfl, fun h => h, E, _, hrep, map_iterator_create_pos map0 E hrep⟩
  | next map iter iter1 _ hhas hnext ih =>
    obtain ⟨hinv1, hcap, hkey, E, R, hrep, hpos⟩ := ih
    cases R with
    | nil =>
      rw [map_iterator_pos_nil map E iter hpos] at hhas
      cases hhas
    | cons x R =>
      obtain ⟨_, _, iter2, hnext2, hpos2⟩ := map_iterator_step map E iter x R hrep hpos
      rw [hnext] at hnext2
      obtain rfl := Option.some.inj hnext2
      exact ⟨hinv1, hcap, hkey, E, R, hrep, hpos2⟩
  | remove map map1 iter iter1 value _ hhas hrm ih =>
    obtain ⟨hinv1, hcap, hkey, E, R, hrep, hpos⟩ := ih
    cases R with
    | nil =>
      rw [map_iterator_pos_nil map E iter hpos] at hhas
      cases hhas
    | cons x R =>
      obtain ⟨map2, iter2, i, j, _, _, hrm2, hinv2, hcap2, _, hrep2, hpos2, _⟩ :=
        map_iterator_remove_pos map E iter x R hinv1 hrep hpos
      rw [hrm] at hrm2
      obtain ⟨_, h2⟩ := Prod.mk.inj (Option.some.inj hrm2)
      obtain ⟨hm, hit⟩ := Prod.mk.inj h2
      subst hm; subst hit
      exact ⟨hinv2, by rw [hcap2, hcap],
        fun h => map_key_invariant_erase map map1 E i j (hkey h) hrep hcap2 hrep2,
        _, R, hrep2, hpos2⟩

/-- A lookup miss of `map_remove` changes nothing. -/
theorem map_remove_absent (fuel : Nat) (map : map_t) (key : c_string) (out : generic_value_t)
    (es : List (Nat × map_element_t)) (hcap : 0 < map.capacity)
    (hrep : map_bucket_rep map (hash_string key % map.capacity) es) (hfuel : es.length < fuel)
    (hnone : ∀ y ∈ es, y.2.key ≠ key) :
    map_remove fuel map key out = some (false, out, map) := by
  have hcap0 : map.capacity ≠ 0 := by omega
  unfold map_bucket_rep at hrep
  simp only [map_remove, if_neg hcap0]
  cases hb : map.buckets (hash_string key % map.capacity) with
  | none => rfl
  | some bucket =>
    rw [hb] at hrep
    simp only [map_find_element_none key bucket es fuel hrep.1.1 hfuel hnone]

/-- The map invariants after a call of `map_insert`. -/
theorem map_insert_invariants (fuel : Nat) (map map1 : map_t) (al : map_allocs)
    (key : c_string) (value : generic_value_t) (e : error_t) (hinv : map_invariants map)
    (hfuel : map.size < fuel) (hfresh : map_allocs_fresh map al key)
    (hins : map_insert fuel map al key value = some (e, map1)) : map_invariants map1 := by
  obtain ⟨hinv1, hkey⟩ := hinv
  have hidx : hash_string key % map.capacity < map.capacity := Nat.mod_lt _ hinv1.1
  obtain ⟨E, hrep⟩ := map_invariant_rep map hinv1
  obtain ⟨e2, map2, es1, hins2, hinv2, hcap, _, hother, _, hrep1, hcases⟩ :=
    map_insert_spec fuel map al key value (E (hash_string key % map.capacity)) hinv1
      (hrep _ hidx) hfuel (fun _ => hfresh)
  rw [hins] at hins2
  obtain ⟨he, hm⟩ := Prod.mk.inj (Option.some.inj hins2)
  subst hm
  refine ⟨hinv2, ?_⟩
  have hrepE1 : map_rep map1 (Function.update E (hash_string key % map.capacity) es1) := by
    intro k hk
    by_cases hki : k = hash_string key % map.capacity
    · subst hki
      rw [Function.update_same]; exact hrep1
    · rw [Function.update_noteq hki]
      exact map_bucket_rep_congr map map1 k (E k) (hother k hki)
        (hrep k (by rw [← hcap]; exact hk))
  rw [map_key_invariant_rep map1 _ hrepE1]
  have h := (map_key_invariant_rep map E hrep).1 hkey
  intro k hk
  rw [hcap] at hk ⊢
  by_cases hki : k = hash_string key % map.capacity
  · subst hki
    rw [Function.update_same]
    obtain ⟨h1, h2⟩ := h _ hk
    rcases hcases with ⟨_, _, _, _, hes1, _⟩ | ⟨_, _, q1, x, q2, hes, hx, _, hes1⟩ |
        ⟨_, _, hnone, a, _, hes1⟩
    · rw [hes1]; exact ⟨h1, h2⟩
    · rw [hes1]
      rw [hes] at h1 h2
      constructor
      · intro y hy
        rcases List.mem_append.1 hy with hy1 | hy1
        · exact h1 y (List.mem_append_left _ hy1)
        · rcases List.mem_cons.1 hy1 with hy2 | hy2
          · rw [hy2]
            exact h1 x (by simp)
          · exact h1 y (by simp [hy2])
      · simpa [map_entry_with_value] using h2
    · rw [hes1]
      constructor
      · intro y hy
        rcases List.mem_append.1 hy with hy1 | hy1
        · exact h1 y hy1
        · have hy2 : y = (a, map_new_entry map key value) := by simpa using hy1
          rw [hy2]
          exact ⟨rfl, rfl⟩
      · rw [List.map_append, List.nodup_append]
        refine ⟨h2, by simp, ?_⟩
        intro k1 hk1 hk2
        obtain ⟨y, hy, hyk⟩ := List.mem_map.1 hk1
        have hk3 : k1 = key := by simpa [map_new_entry] using hk2
        exact hnone y hy (by rw [hyk, hk3])
  · rw [Function.update_noteq hki]
    exact h k hk

/-- The map invariants after a run of inserts whose allocations all succeed with
pairwise distinct, unused addresses. -/
theorem map_insert_all_invariants (fuel : Nat)
    (ops : List (map_allocs × c_string × generic_value_t)) :
    ∀ (map map2 : map_t) (used : List Nat), map_invariants map → map_mem_within map used →
      (used ++ map_ops_nodes ops).Nodup → (∀ op ∈ ops, map_allocs_ok op.1) →
      map.size + ops.length < fuel → map_insert_all fuel map ops = some map2 →
      map_invariants map2 := by
  induction ops with
  | nil =>
    intro map map2 used hinv _ _ _ _ hrun
    simp only [map_insert_all, Option.some.injEq] at hrun
    rw [← hrun]; exact hinv
  | cons op rest ih =>
    intro map map2 used hinv hwithin hnd hok hfuel hrun
    obtain ⟨al, key, value⟩ := op
    obtain ⟨_, _, _, hok4⟩ := hok (al, key, value) (List.mem_cons_self _ _)
    obtain ⟨a, ha⟩ : ∃ a, al.node = some a := by
      cases hn : al.node with
      | none => exact absurd hn hok4
      | some a => exact ⟨a, rfl⟩
    have hnodes : map_ops_nodes ((al, key, value) :: rest) = a :: map_ops_nodes rest := by
      simp [map_ops_nodes, ha]
    rw [hnodes] at hnd
    have hfresh : map_allocs_fresh map al key := by
      intro a1 bucket ha1 hb
      by_contra hmem
      have hin := hwithin _ bucket a1 hb hmem
      rw [ha] at ha1
      have ha1a : a = a1 := Option.some.inj ha1
      subst ha1a
      exact (List.nodup_append.1 hnd).2.2 hin (List.mem_cons_self _ _)
    have hidx : hash_string key % map.capacity < map.capacity := Nat.mod_lt _ hinv.1.1
    obtain ⟨es, hrep, _⟩ := map_invariant_bucket_rep map hinv.1 _ hidx
    have hlen : ((al, key, value) :: rest).length = rest.length + 1 := rfl
    rw [hlen] at hfuel
    have hfuel1 : map.size < fuel := by omega
    obtain ⟨e, map1, es1, hins, _, _, _, hother, hmem, _, hcases⟩ :=
      map_insert_spec fuel map al key value es hinv.1 hrep hfuel1 (fun _ => hfresh)
    have hinv1 := map_insert_invariants fuel map map1 al key value e hinv hfuel1 hfresh hins
    have hsize1 : map1.size ≤ map.size + 1 := by
      rcases hcases with ⟨_, _, _, _, _, hs⟩ | ⟨_, hs, _⟩ | ⟨_, hs, _⟩ <;> omega
    have hwithin1 : map_mem_within map1 (used ++ [a]) := by
      intro i b1 c hb1 hc
      by_cases hi : i = hash_string key % map.capacity
      · subst hi
        rcases hmem b1 c hb1 hc with h | ⟨b, hb, hbc⟩
        · rw [ha] at h
          simp [Option.some.inj h]
        · exact List.mem_append_left _ (hwithin _ b c hb hbc)
      · rw [hother i hi] at hb1
        exact List.mem_append_left _ (hwithin i b1 c hb1 hc)
    simp only [map_insert_all, hins] at hrun
    by_cases he : e = 0
    · rw [if_pos he] at hrun
      exact ih map1 map2 (used ++ [a]) hinv1 hwithin1 (by simpa using hnd)
        (fun op hop => hok op (List.mem_cons_of_mem _ hop)) (by omega) hrun
    · rw [if_neg he] at hrun
      cases hrun

/-- Where the loop of `map_iterator_find_bucket` stops, read on the slots. -/
theorem map_iterator_find_bucket_loop_first (map : map_t) :
    ∀ (steps : Nat) (iter : map_iterator_t), iter.bucket_index + steps = map.capacity →
      (∀ k, iter.bucket_index ≤ k →
        k < (map_iterator_find_bucket_loop map steps iter).bucket_index →
        map.buckets k = none) ∧
      (((map_iterator_find_bucket_loop map steps iter).bucket_index = map.capacity) ∨
       ((map_iterator_find_bucket_loop map steps iter).bucket_index < map.capacity ∧
        ∃ bucket,
          map.buckets (map_iterator_find_bucket_loop map steps iter).bucket_index = some bucket ∧
          (map_iterator_find_bucket_loop map steps iter).bucket_list
            = some (map_iterator_find_bucket_loop map steps iter).bucket_index ∧
          (map_iterator_find_bucket_loop map steps iter).bucket_iter
            = list_iterator_create bucket)) := by
  intro steps
  induction steps with
  | zero =>
    intro iter h
    simp only [map_iterator_find_bucket_loop]
    exact ⟨fun k h1 h2 => by omega, Or.inl (by omega)⟩
  | succ s ih =>
    intro iter h
    have hlt : iter.bucket_index < map.capacity := by omega
    simp only [map_iterator_find_bucket_loop, if_pos hlt]
    cases hb : map.buckets iter.bucket_index with
    | none =>
      obtain ⟨h1, h2⟩ := ih { iter with bucket_index := iter.bucket_index + 1 }
        (by simp only; omega)
      refine ⟨fun k hk1 hk2 => ?_, h2⟩
      by_cases hk : k = iter.bucket_index
      · rw [hk]; exact hb
      · exact h1 k (by simp only; omega) hk2
    | some bucket =>
      exact ⟨fun k h1 h2 => by simp only at h2; omega, Or.inr ⟨hlt, bucket, hb, rfl, rfl⟩⟩

/-! ## Lemmas: removing during the traversal -/

theorem map_keep_cons_ne (p : c_string → generic_value_t → Bool) (x y : Nat × map_element_t)
    (R : List (Nat × map_element_t)) (hne : y ≠ x) :
    map_keep p (x :: R) y = map_keep p R y := by
  unfold map_keep
  simp [hne]

theorem map_keep_filter_ne (p : c_string → generic_value_t → Bool) (x : Nat × map_element_t)
    (R l : List (Nat × map_element_t)) (hne : ∀ y ∈ l, y ≠ x) :
    l.filter (map_keep p (x :: R)) = l.filter (map_keep p R) :=
  List.filter_congr (fun y hy => map_keep_cons_ne p x y R (hne y hy))

theorem map_entry_ne_of_key (l : List (Nat × map_element_t)) (x : Nat × map_element_t)
    (h : x.2.key ∉ l.map (fun y => y.2.key)) : ∀ y ∈ l, y ≠ x := by
  intro y hy hyx
  exact h (List.mem_map.2 ⟨y, hy, by rw [hyx]⟩)

/-- The removal loop from a position of the traversal: every bucket ends with
the entries that were already passed or do not satisfy `p`. -/
theorem map_remove_if_from_pos (p : c_string → generic_value_t → Bool)
    (R : List (Nat × map_element_t)) :
    ∀ (map : map_t) (E : Nat → List (Nat × map_element_t)) (iter : map_iterator_t)
      (fuel : Nat), map_invariants map → map_rep map E → map_iterator_pos map E iter R →
      (R.map (fun y => y.2.key)).Nodup → R.length < fuel →
      ∃ map1 E1, map_remove_if_from p fuel map iter = some map1 ∧ map_invariants map1 ∧
        map1.capacity = map.capacity ∧ map_rep map1 E1 ∧
        ∀ k, k < map.capacity → E1 k = (E k).filter (map_keep p R) := by
  induction R with
  | nil =>
    intro map E iter fuel hinv hrep hpos _ hfuel
    obtain ⟨f, rfl⟩ : ∃ f, fuel = f + 1 := ⟨fuel - 1, by omega⟩
    refine ⟨map, E, ?_, hinv, rfl, hrep, fun k _ => ?_⟩
    · simp [map_remove_if_from, map_iterator_pos_nil map E iter hpos]
    · exact (List.filter_eq_self.2 (fun y _ => by simp [map_keep])).symm
  | cons x R ih =>
    intro map E iter fuel hinv hrep hpos hnd hfuel
    obtain ⟨f, rfl⟩ : ∃ f, fuel = f + 1 := ⟨fuel - 1, by omega⟩
    obtain ⟨hhas, hget, iter1, hnext, hpos1⟩ := map_iterator_step map E iter x R hrep hpos
    obtain ⟨i, j, hat, hx, _⟩ := map_iterator_pos_cons map E iter x R hpos
    have hi : i < map.capacity := hat.2.1
    have hkeyE := (map_key_invariant_rep map E hrep).1 hinv.2
    rw [List.map_cons, List.nodup_cons] at hnd
    obtain ⟨pre, post, hsplit, hlen, herase⟩ := list_split_at (E i) j x hx
    have hxi : x ∈ E i := by rw [hsplit]; simp
    have hndi := (hkeyE i hi).2
    rw [hsplit, List.map_append, List.map_cons, List.nodup_append] at hndi
    have hpre : ∀ y ∈ pre, y ≠ x :=
      map_entry_ne_of_key pre x (fun h => hndi.2.2 h (by simp))
    have hpost : ∀ y ∈ post, y ≠ x :=
      map_entry_ne_of_key post x (List.nodup_cons.1 hndi.2.1).1
    have hother : ∀ k, k < map.capacity → k ≠ i → ∀ y ∈ E k, y ≠ x := by
      intro k hk hki y hy hyx
      have e1 := ((hkeyE k hk).1 y hy).1
      have e2 := ((hkeyE i hi).1 x hxi).1
      rw [hyx] at e1
      omega
    by_cases hp : p x.2.key x.2.value = true
    · obtain ⟨map1, iter2, i2, j2, hat2, hx2, hrm, hinv1, hcap1, hsize1, hrep1, hpos2, _⟩ :=
        map_iterator_remove_pos map E iter x R hinv.1 hrep hpos
      have hi2 : i2 = i := by rw [← hat2.1, hat.1]
      subst hi2
      have hj2 : j2 = j := by
        have hnodup : (E i2).Nodup := by
          have := (hkeyE i2 hi).2
          exact List.Nodup.of_map _ this
        have h1 := (List.getElem?_eq_some_iff.1 hx).1
        have h2 := (List.getElem?_eq_some_iff.1 hx2).1
        have e1 := (List.getElem?_eq_some_iff.1 hx).2
        have e2 := (List.getElem?_eq_some_iff.1 hx2).2
        exact (List.Nodup.getElem_inj_iff hnodup).1 (by rw [e1, e2])
      subst hj2
      have hkey1 := map_key_invariant_erase map map1 E i2 j2 hinv.2 hrep hcap1 hrep1
      obtain ⟨map2, E2, hrun, hinv2, hcap2, hrep2, hE2⟩ :=
        ih map1 _ iter2 f ⟨hinv1, hkey1⟩ hrep1 hpos2 hnd.2 (by simpa using hfuel)
      refine ⟨map2, E2, ?_, hinv2, by rw [hcap2, hcap1], hrep2, fun k hk => ?_⟩
      · simp [map_remove_if_from, hhas, hget, hp, hrm, hrun]
      · rw [hE2 k (by rw [hcap1]; exact hk)]
        by_cases hki : k = i2
        · subst hki
          rw [Function.update_same, herase, hsplit, List.filter_append, List.filter_append,
            List.filter_cons, map_keep_filter_ne p x R pre hpre,
            map_keep_filter_ne p x R post hpost]
          have hx0 : map_keep p (x :: R) x = false := by simp [map_keep, hp]
          simp [hx0]
        · rw [Function.update_noteq hki, map_keep_filter_ne p x R (E k) (hother k hk hki)]
    · obtain ⟨map2, E2, hrun, hinv2, hcap2, hrep2, hE2⟩ :=
        ih map E iter1 f hinv hrep hpos1 hnd.2 (by simpa using hfuel)
      refine ⟨map2, E2, ?_, hinv2, hcap2, hrep2, fun k hk => ?_⟩
      · simp [map_remove_if_from, hhas, hget, hp, hnext, hrun]
      · rw [hE2 k hk]
        refine List.filter_congr (fun y hy => ?_)
        by_cases hyx : y = x
        · subst hyx
          have hyR : y ∉ R := fun h => hnd.1 (List.mem_map.2 ⟨y, h, rfl⟩)
          simp [map_keep, hp, hyR]
        · exact (map_keep_cons_ne p x y R hyx).symm

/-! ## Lemmas: lookups and the entries of a map -/

theorem list_find_unique (key : c_string) (l : List (Nat × map_element_t))
    (x : Nat × map_element_t) (hnd : (l.map (fun y => y.2.key)).Nodup) (hx : x ∈ l)
    (hk : x.2.key = key) : l.find? (fun y => decide (y.2.key = key)) = some x := by
  obtain ⟨q1, q2, hsplit⟩ := List.append_of_mem hx
  subst hsplit
  rw [List.map_append, List.map_cons, List.nodup_append] at hnd
  refine list_find_split key q1 x q2 hk (fun y hy hyk => ?_)
  exact hnd.2.2 (List.mem_map.2 ⟨y, hy, rfl⟩) (by rw [hyk, ← hk]; simp)

theorem map_entries_from_split (E : Nat → List (Nat × map_element_t)) (a b : Nat) :
    ∀ k, map_entries_from E (a + b) k
      = map_entries_from E a k ++ map_entries_from E b (k + a) := by
  induction a with
  | zero => intro k; simp [map_entries_from]
  | succ a ih =>
    intro k
    rw [show a + 1 + b = (a + b) + 1 by omega]
    simp only [map_entries_from, ih (k + 1), List.append_assoc]
    rw [show k + 1 + a = k + (a + 1) by omega]

theorem map_entries_from_filter (E E1 : Nat → List (Nat × map_element_t))
    (q : Nat × map_element_t → Bool) (n : Nat) :
    ∀ k, (∀ i, k ≤ i → i < k + n → E1 i = (E i).filter q) →
      map_entries_from E1 n k = (map_entries_from E n k).filter q := by
  induction n with
  | zero => intro k _; rfl
  | succ n ih =>
    intro k h
    simp only [map_entries_from, List.filter_append]
    rw [h k (le_refl k) (by omega), ih (k + 1) (fun i h1 h2 => h i (by omega) (by omega))]

/-- What is left to visit from a position is no more than the whole map. -/
theorem map_iterator_pos_length (map : map_t) (E : Nat → List (Nat × map_element_t))
    (iter : map_iterator_t) (R : List (Nat × map_element_t))
    (hpos : map_iterator_pos map E iter R) :
    R.length ≤ (map_entries_from E map.capacity 0).length := by
  rcases hpos with ⟨_, h⟩ | ⟨i, j, hat, hR⟩
  · rw [h]; exact Nat.zero_le _
  · have hi : i < map.capacity := hat.2.1
    have h1 := map_entries_from_split E i (map.capacity - i) 0
    have h2 := map_entries_from_split E 1 (map.capacity - (i + 1)) i
    rw [show i + (map.capacity - i) = map.capacity by omega] at h1
    rw [show 1 + (map.capacity - (i + 1)) = map.capacity - i by omega] at h2
    rw [h1, Nat.zero_add, h2, hR]
    simp only [map_entries_from, List.append_nil, List.length_append, List.length_drop]
    omega

/-- What is left to visit from a position is a part of the whole map, so its
keys are pairwise distinct. -/
theorem map_iterator_pos_nodup (map : map_t) (E : Nat → List (Nat × map_element_t))
    (iter : map_iterator_t) (R : List (Nat × map_element_t)) (hrep : map_rep map E)
    (hkey : map_key_invariant map) (hpos : map_iterator_pos map E iter R) :
    (R.map (fun y => y.2.key)).Nodup := by
  have hkeyE := (map_key_invariant_rep map E hrep).1 hkey
  have hall := map_entries_keys_nodup map.capacity E (fun i hi => fun x hx => ((hkeyE i hi).1 x hx).1)
    (fun i hi => (hkeyE i hi).2)
  rcases hpos with ⟨_, h⟩ | ⟨i, j, hat, hR⟩
  · rw [h]; simp
  · have hi : i < map.capacity := hat.2.1
    have h2 := map_entries_from_split E 1 (map.capacity - (i + 1)) i
    rw [show 1 + (map.capacity - (i + 1)) = map.capacity - i by omega] at h2
    have hnd := hall (map.capacity - i) i (by omega)
    rw [h2] at hnd
    simp only [map_entries_from, List.append_nil] at hnd
    rw [hR]
    refine List.Nodup.sublist (List.Sublist.map _ ?_) hnd
    exact List.Sublist.append (List.drop_sublist _ _) (List.Sublist.refl _)

/-- At a position with a current entry, `map_get` of the entry's key finds the
entry's value. -/
theorem map_get_of_pos (fuel : Nat) (map : map_t) (E : Nat → List (Nat × map_element_t))
    (iter : map_iterator_t) (x : Nat × map_element_t) (R : List (Nat × map_element_t))
    (out : generic_value_t) (hinv : map_invariants map) (hrep : map_rep map E)
    (hpos : map_iterator_pos map E iter (x :: R)) (hfuel : map.size < fuel) :
    map_get fuel map x.2.key out = some (true, x.2.value) := by
  obtain ⟨i, j, hat, hx, _⟩ := map_iterator_pos_cons map E iter x R hpos
  have hi : i < map.capacity := hat.2.1
  have hkeyE := (map_key_invariant_rep map E hrep).1 hinv.2
  have hxi : x ∈ E i := by
    obtain ⟨hj, hget⟩ := List.getElem?_eq_some_iff.1 hx
    rw [← hget]; exact List.getElem_mem hj
  have hidx : hash_string x.2.key % map.capacity = i := ((hkeyE i hi).1 x hxi).1
  have hbr : map_bucket_rep map (hash_string x.2.key % map.capacity) (E i) := by
    rw [hidx]; exact hrep i hi
  have hlen : (E i).length < fuel := by
    have h1 := map_bucket_size_le map hinv.1 i hi
    rw [map_bucket_rep_size map i (E i) (hrep i hi)] at h1
    omega
  rw [map_get_rep fuel map x.2.key out (E i) hinv.1.1 hbr hlen,
    list_find_unique x.2.key (E i) x (hkeyE i hi).2 hxi rfl]

theorem example_map_ten_run :
    map_insert_all 11 example_map_empty example_map_ops = some example_map_ten := rfl

theorem example_map_ten_invariants : map_invariants example_map_ten :=
  map_insert_all_invariants 11 example_map_ops example_map_empty example_map_ten []
    (map_create_invariant none _ example_map_empty_create).1
    (map_create_invariant none _ example_map_empty_create).2.1 (by decide)
    (by simp [example_map_ops, map_allocs_ok, example_allocs]) (by decide) example_map_ten_run

theorem example_map_one_rep :
    map_rep example_map_one (fun i => if i = 1 then [(0, example_entry_one)] else []) := by
  intro i _
  unfold map_bucket_rep
  by_cases hi : i = 1
  · subst hi
    exact ⟨example_bucket_one_rep, by simp⟩
  · simp [example_map_one, hi]

/-! ## Theorems: the map iterator claims -/

/-- C11: the map invariant (a non-null bucket slot holds a non-empty well-formed
list, and the cached size is the sum of the bucket sizes) holds for a freshly
created map and is preserved by `map_insert` whether it succeeds or fails, by
`map_remove` whether it finds the key or not, and by
`map_iterator_remove_current` at every position on an entry, where
`map_iterator_has_current` is true; `map_iterator_next` returns there and does
not write the map. -/
theorem map_invariant_preserved (map : map_t) (hinv : map_invariant map) :
    (∀ d : Option Nat, ∃ map0 : map_t,
      map_create_with_value_deallocator true true d = (0, some map0) ∧ map_invariant map0) ∧
    (∀ (fuel : Nat) (al : map_allocs) (key : c_string) (value : generic_value_t),
      map.size < fuel → map_allocs_fresh map al key →
      ∃ e map1, map_insert fuel map al key value = some (e, map1) ∧ map_invariant map1) ∧
    (∀ (fuel : Nat) (key : c_string) (out : generic_value_t), map.size < fuel →
      ∃ found out1 map1, map_remove fuel map key out = some (found, out1, map1) ∧
        map_invariant map1) ∧
    (∀ (E : Nat → List (Nat × map_element_t)) (iter : map_iterator_t) (i j : Nat),
      map_rep map E → map_cursor_at map E iter i j →
      map_iterator_has_current map iter = true ∧
      (∃ v map1 iter1, map_iterator_remove_current map iter = some (v, map1, iter1) ∧
        map_invariant map1) ∧
      (∃ iter1, map_iterator_next map iter = some iter1)) ∧
    (∀ (map0 : map_t) (iter : map_iterator_t), map_invariant map0 →
      map_iterator_reachable map0 map iter → map_iterator_has_current map iter = true →
      (∃ v map1 iter1, map_iterator_remove_current map iter = some (v, map1, iter1) ∧
        map_invariant map1) ∧
      (∃ iter1, map_iterator_next map iter = some iter1)) := by
  have hiter : ∀ (E : Nat → List (Nat × map_element_t)) (iter : map_iterator_t)
      (x : Nat × map_element_t) (R : List (Nat × map_element_t)), map_rep map E →
      map_iterator_pos map E iter (x :: R) →
      map_iterator_has_current map iter = true ∧
      (∃ v map1 iter1, map_iterator_remove_current map iter = some (v, map1, iter1) ∧
        map_invariant map1) ∧
      (∃ iter1, map_iterator_next map iter = some iter1) := by
    intro E iter x R hrep hpos
    obtain ⟨hhas, _, iter1, hnext, _⟩ := map_iterator_step map E iter x R hrep hpos
    obtain ⟨map1, iter2, _, _, _, _, hrm, hinv1, _⟩ :=
      map_iterator_remove_pos map E iter x R hinv hrep hpos
    exact ⟨hhas, ⟨x.2, map1, iter2, hrm, hinv1⟩, ⟨iter1, hnext⟩⟩
  refine ⟨?_, ?_, ?_, ?_, ?_⟩
  · intro d
    exact ⟨_, rfl, (map_create_invariant d _ rfl).1.1⟩
  · intro fuel al key value hfuel hfresh
    have hidx : hash_string key % map.capacity < map.capacity := Nat.mod_lt _ hinv.1
    obtain ⟨es, hrep, _⟩ := map_invariant_bucket_rep map hinv _ hidx
    obtain ⟨e, map1, _, hins, hinv1, _⟩ :=
      map_insert_spec fuel map al key value es hinv hrep hfuel (fun _ => hfresh)
    exact ⟨e, map1, hins, hinv1⟩
  · intro fuel key out hfuel
    have hidx : hash_string key % map.capacity < map.capacity := Nat.mod_lt _ hinv.1
    obtain ⟨es, hrep, _⟩ := map_invariant_bucket_rep map hinv _ hidx
    rcases list_key_split key es with hnone | ⟨q1, x, q2, hsplit, hx, hq1⟩
    · have hlen : es.length < fuel := by
        have h1 := map_bucket_size_le map hinv (hash_string key % map.capacity) hidx
        rw [map_bucket_rep_size map _ es hrep] at h1
        omega
      exact ⟨false, out, map, map_remove_absent fuel map key out es hinv.1 hrep hlen hnone,
        hinv⟩
    · subst hsplit
      obtain ⟨map1, hrm, hinv1, _⟩ :=
        map_remove_found fuel map key out q1 x q2 hinv hrep hfuel hx hq1
      exact ⟨true, x.2.value, map1, hrm, hinv1⟩
  · intro E iter i j hrep hat
    have hj : j < (E i).length := hat.2.2.2.2
    have hpos : map_iterator_pos map E iter
        ((E i)[j] :: ((E i).drop (j + 1)
          ++ map_entries_from E (map.capacity - (i + 1)) (i + 1))) := by
      refine Or.inr ⟨i, j, hat, ?_⟩
      rw [List.drop_eq_getElem_cons hj, List.cons_append]
    exact hiter E iter _ _ hrep hpos
  · intro map0 iter hinv0 hreach hhas
    obtain ⟨_, _, _, E, R, hrep, hpos⟩ := map_iterator_reachable_pos map0 map iter hinv0 hreach
    cases R with
    | nil =>
      rw [map_iterator_pos_nil map E iter hpos] at hhas
      cases hhas
    | cons x R => exact (hiter E iter x R hrep hpos).2

/-- Witness for C11: removing the only key of the one-entry map. -/
theorem map_invariant_preserved_witness :
    ∃ found out1 map1, map_remove 2 example_map_one [1] 0 = some (found, out1, map1) ∧
      map_invariant map1 :=
  (map_invariant_preserved example_map_one example_map_one_invariants.1).2.2.1 2 [1] 0
    (by decide)

/-- C12: on a map satisfying the map invariants a full traversal from
`map_iterator_create` ends (with any fuel above the size) and visits every
entry exactly once: the visited keys are pairwise distinct, every key that
`map_get` finds is visited with its value, and the number of visited entries is
`map_size`. -/
theorem map_iterate_spec (fuel : Nat) (map : map_t) (hinv : map_invariants map)
    (hfuel : map.size < fuel) :
    ∃ kvs, map_iterate fuel map = some kvs ∧ (kvs.map Prod.fst).Nodup ∧
      (∀ key out v, map_get fuel map key out = some (true, v) → (key, v) ∈ kvs) ∧
      kvs.length = map_size map := by
  obtain ⟨E, hrep⟩ := map_invariant_rep map hinv.1
  have hsize := map_rep_size map E hinv.1 hrep
  have hpos := map_iterator_create_pos map E hrep
  have hrun := map_iterate_from_pos map E hrep _ (map_iterator_create map) fuel hpos
    (by rw [← hsize]; exact hfuel)
  have hnd := map_iterator_pos_nodup map E _ _ hrep hinv.2 hpos
  refine ⟨_, hrun, ?_, ?_, ?_⟩
  · rw [List.map_map]
    exact hnd
  · intro key out v hget
    have hidx : hash_string key % map.capacity < map.capacity := Nat.mod_lt _ hinv.1.1
    obtain ⟨q1, x, q2, hsplit, hx, _, hv⟩ :=
      map_get_true fuel map key out v _ hinv.1 (hrep _ hidx) hfuel hget
    refine List.mem_map.2 ⟨x, ?_, by rw [hx, hv]⟩
    refine (map_entries_from_mem E x map.capacity 0).2
      ⟨hash_string key % map.capacity, Nat.zero_le _, by omega, ?_⟩
    rw [hsplit]; simp
  · rw [List.length_map, ← hsize]; rfl

/-- Witness for C12: the traversal of the ten-key map of the tests. -/
theorem map_iterate_spec_witness :
    ∃ kvs, map_iterate 11 example_map_ten = some kvs ∧ (kvs.map Prod.fst).Nodup ∧
      (∀ key out v, map_get 11 example_map_ten key out = some (true, v) → (key, v) ∈ kvs) ∧
      kvs.length = map_size example_map_ten :=
  map_iterate_spec 11 example_map_ten example_map_ten_invariants (by decide)

/-- C13: on a map satisfying the map invariants, a single traversal that calls
`map_iterator_remove_current` when `p` holds of the current entry and
`map_iterator_next` otherwise ends (with any fuel above the size); afterwards
`map_get` finds, with the original value, exactly the keys whose entry did not
satisfy `p`, `map_size` is the number of those entries, no bucket slot is left
non-null with an empty list, and the map invariants hold. -/
theorem map_remove_if_spec (p : c_string → generic_value_t → Bool) (fuel : Nat) (map : map_t)
    (hinv : map_invariants map) (hfuel : map.size < fuel) :
    ∃ map1 kvs, map_remove_if p fuel map = some map1 ∧ map_iterate fuel map = some kvs ∧
      (∀ key out v, map_get fuel map1 key out = some (true, v) ↔
        (map_get fuel map key out = some (true, v) ∧ p key v = false)) ∧
      map_size map1 = (kvs.filter (fun kv => !p kv.1 kv.2)).length ∧
      (∀ i bucket, i < map1.capacity → map1.buckets i = some bucket → list_size bucket ≠ 0) ∧
      map_invariants map1 := by
  obtain ⟨E, hrep⟩ := map_invariant_rep map hinv.1
  have hsize := map_rep_size map E hinv.1 hrep
  have hpos := map_iterator_create_pos map E hrep
  have hlen : (map_entries_from E map.capacity 0).length < fuel := by
    rw [← hsize]; exact hfuel
  have hrun := map_iterate_from_pos map E hrep _ (map_iterator_create map) fuel hpos hlen
  have hnd := map_iterator_pos_nodup map E _ _ hrep hinv.2 hpos
  obtain ⟨map1, E1, hloop, hinv1, hcap1, hrep1, hE1⟩ :=
    map_remove_if_from_pos p _ map E (map_iterator_create map) fuel hinv hrep hpos hnd hlen
  have hkeep : ∀ k, k < map.capacity →
      E1 k = (E k).filter (fun y => !p y.2.key y.2.value) := by
    intro k hk
    rw [hE1 k hk]
    refine List.filter_congr (fun y hy => ?_)
    have hmem : y ∈ map_entries_from E map.capacity 0 :=
      (map_entries_from_mem E y map.capacity 0).2 ⟨k, Nat.zero_le _, by omega, hy⟩
    simp [map_keep, hmem]
  have hall : map_entries_from E1 map.capacity 0
      = (map_entries_from E map.capacity 0).filter (fun y => !p y.2.key y.2.value) :=
    map_entries_from_filter E E1 _ map.capacity 0 (fun i _ hi => hkeep i (by omega))
  have hsize1 : map1.size = ((map_entries_from E map.capacity 0).filter
      (fun y => !p y.2.key y.2.value)).length := by
    rw [map_rep_size map1 E1 hinv1.1 hrep1, hcap1, hall]
  have hfuel1 : map1.size < fuel := by
    rw [hsize1]
    exact lt_of_le_of_lt (List.length_filter_le _ _) hlen
  have hkeyE := (map_key_invariant_rep map E hrep).1 hinv.2
  refine ⟨map1, _, hloop, hrun, ?_, ?_, ?_, hinv1⟩
  · intro key out v
    have hidx : hash_string key % map.capacity < map.capacity := Nat.mod_lt _ hinv.1.1
    have hbr := hrep _ hidx
    have hbr1 := hrep1 (hash_string key % map1.capacity) (Nat.mod_lt _ hinv1.1.1)
    have hl : (E (hash_string key % map.capacity)).length < fuel := by
      have h1 := map_bucket_size_le map hinv.1 _ hidx
      rw [map_bucket_rep_size map _ _ hbr] at h1
      omega
    have hl1 : (E1 (hash_string key % map1.capacity)).length < fuel := by
      have h1 := map_bucket_size_le map1 hinv1.1 (hash_string key % map1.capacity)
        (Nat.mod_lt _ hinv1.1.1)
      rw [map_bucket_rep_size map1 _ _ hbr1] at h1
      omega
    rw [map_get_rep fuel map1 key out _ hinv1.1.1 hbr1 hl1,
      map_get_rep fuel map key out _ hinv.1.1 hbr hl, hcap1, hkeep _ hidx]
    have hndE := (hkeyE _ hidx).2
    have hndF : (((E (hash_string key % map.capacity)).filter
        (fun y => !p y.2.key y.2.value)).map (fun y => y.2.key)).Nodup :=
      List.Nodup.sublist (List.Sublist.map _ (List.filter_sublist _)) hndE
    constructor
    · intro h
      cases hf : ((E (hash_string key % map.capacity)).filter
          (fun y => !p y.2.key y.2.value)).find? (fun y => decide (y.2.key = key)) with
      | none => rw [hf] at h; simp at h
      | some x =>
        rw [hf] at h
        have hxv : x.2.value = v := by simpa using h
        have hxm := List.mem_of_find?_eq_some hf
        have hxk : x.2.key = key := by simpa using List.find?_some hf
        obtain ⟨hxE, hxp⟩ := List.mem_filter.1 hxm
        rw [list_find_unique key _ x hndE hxE hxk]
        refine ⟨by simp [hxv], ?_⟩
        rw [← hxk, ← hxv]
        simpa using hxp
    · rintro ⟨h, hp⟩
      cases hf : (E (hash_string key % map.capacity)).find?
          (fun y => decide (y.2.key = key)) with
      | none => rw [hf] at h; simp at h
      | some x =>
        rw [hf] at h
        have hxv : x.2.value = v := by simpa using h
        have hxE := List.mem_of_find?_eq_some hf
        have hxk : x.2.key = key := by simpa using List.find?_some hf
        have hxF : x ∈ (E (hash_string key % map.capacity)).filter
            (fun y => !p y.2.key y.2.value) :=
          List.mem_filter.2 ⟨hxE, by rw [hxk, hxv, hp]; rfl⟩
        rw [list_find_unique key _ x hndF hxF hxk]
        simp [hxv]
  · rw [map_size, hsize1, List.filter_map, List.length_map]
    rfl
  · intro i bucket hi hb
    exact (hinv1.1.2.1 i hi bucket hb).2

/-- Witness for C13: from the ten keys with bytes 1 to 10 and values 0 to 9,
removing the entries with an odd value leaves size 5 and the five even values
retrievable. -/
theorem map_remove_if_spec_witness :
    ∃ map1, map_remove_if entry_is_odd 11 example_map_ten = some map1 ∧ map_size map1 = 5 ∧
      map_get 11 map1 [1] 0 = some (true, 0) ∧ map_get 11 map1 [3] 0 = some (true, 2) ∧
      map_get 11 map1 [5] 0 = some (true, 4) ∧ map_get 11 map1 [7] 0 = some (true, 6) ∧
      map_get 11 map1 [9] 0 = some (true, 8) ∧ map_get 11 map1 [2] 0 = some (false, 0) := by
  obtain ⟨map1, kvs, hrun, hkvs, hget, hsize, _, _⟩ :=
    map_remove_if_spec entry_is_odd 11 example_map_ten example_map_ten_invariants (by decide)
  have hk : map_iterate 11 example_map_ten = some
      [([10], 9), ([1], 0), ([9], 8), ([2], 1), ([8], 7), ([5], 4), ([4], 3), ([6], 5),
       ([3], 2), ([7], 6)] := by decide
  rw [hk] at hkvs
  obtain rfl := Option.some.inj hkvs
  have h2 : (map_remove_if entry_is_odd 11 example_map_ten).bind
      (fun m => map_get 11 m [2] 0) = some (false, 0) := by decide
  rw [hrun] at h2
  exact ⟨map1, hrun, hsize, (hget [1] 0 0).2 ⟨by decide, by decide⟩,
    (hget [3] 0 2).2 ⟨by decide, by decide⟩, (hget [5] 0 4).2 ⟨by decide, by decide⟩,
    (hget [7] 0 6).2 ⟨by decide, by decide⟩, (hget [9] 0 8).2 ⟨by decide, by decide⟩, h2⟩

/-- An iterator that reports a current element has something left to visit. -/
theorem map_iterator_pos_current (map : map_t) (E : Nat → List (Nat × map_element_t))
    (iter : map_iterator_t) (R : List (Nat × map_element_t))
    (hpos : map_iterator_pos map E iter R) (hcur : map_iterator_has_current map iter = true) :
    ∃ x R1, R = x :: R1 := by
  cases R with
  | nil =>
    rw [map_iterator_pos_nil map E iter hpos] at hcur
    cases hcur
  | cons x R1 => exact ⟨x, R1, rfl⟩

/-- C14: what `map_iterator_remove_current` returns is the value it got from
`list_iterator_remove_current` on the bucket, that is the bucket list's value,
which is the pointer to the entry `map_element_delete` has just freed, and not
the member `value` of that entry, which is what `map_iterator_get_current`
reported: shown on the map holding the value 0 under the one-byte key 1. -/
theorem map_iterator_remove_current_returns_entry :
    map_iterator_get_current example_map_one (map_iterator_create example_map_one)
      = some ([1], 0) ∧
    (list_iterator_remove_current example_bucket_one
        (map_iterator_create example_map_one).bucket_iter).map Prod.fst
      = some example_entry_one ∧
    (map_iterator_remove_current example_map_one (map_iterator_create example_map_one)).map
        Prod.fst
      = some example_entry_one ∧
    (map_remove 2 example_map_one [1] 5).map (fun r => (r.1, r.2.1)) = some (true, 0) := by
  refine ⟨by decide, by decide, by decide, by decide⟩

/-- C15: at every state of a traversal (reached from `map_iterator_create` on a
map satisfying the map invariant) where `map_iterator_has_current` is true,
`map_iterator_remove_current` and `map_iterator_next` both return, and the
entries visited by continuing the traversal after the removal, starting with
the new current entry, are those visited by continuing after
`map_iterator_next` without removing; the iterator after the removal reports a
current element exactly when that sequence is not empty. -/
theorem map_iterator_remove_current_position (fuel : Nat) (map0 map : map_t)
    (iter : map_iterator_t) (hinv : map_invariant map0)
    (hreach : map_iterator_reachable map0 map iter)
    (hcur : map_iterator_has_current map iter = true) (hfuel : map.size < fuel) :
    ∃ value map1 iter1 iter2 kvs,
      map_iterator_remove_current map iter = some (value, map1, iter1) ∧
      map_iterator_next map iter = some iter2 ∧
      map_iterate_from fuel map1 iter1 = some kvs ∧
      map_iterate_from fuel map iter2 = some kvs ∧
      (map_iterator_has_current map1 iter1 = true ↔ kvs ≠ []) ∧
      (∀ kv, kvs.head? = some kv → map_iterator_get_current map1 iter1 = some kv) := by
  obtain ⟨hinv1, _, _, E, R, hrep, hpos⟩ := map_iterator_reachable_pos map0 map iter hinv hreach
  obtain ⟨x, R1, rfl⟩ := map_iterator_pos_current map E iter R hpos hcur
  obtain ⟨map1, iter1, i, j, _, _, hrem, _, _, _, hrep1, hpos1, _⟩ :=
    map_iterator_remove_pos map E iter x R1 hinv1 hrep hpos
  obtain ⟨_, _, iter2, hnext, hpos2⟩ := map_iterator_step map E iter x R1 hrep hpos
  have hlen : R1.length < fuel := by
    have h1 := map_iterator_pos_length map E iter (x :: R1) hpos
    rw [← map_rep_size map E hinv1 hrep, List.length_cons] at h1
    omega
  refine ⟨x.2, map1, iter1, iter2, _, hrem,
    hnext, map_iterate_from_pos map1 _ hrep1 R1 iter1 fuel hpos1 hlen,
    map_iterate_from_pos map E hrep R1 iter2 fuel hpos2 hlen, ?_, ?_⟩
  · cases R1 with
    | nil =>
      rw [map_iterator_pos_nil map1 _ iter1 hpos1]
      simp
    | cons y R2 =>
      rw [(map_iterator_step map1 _ iter1 y R2 hrep1 hpos1).1]
      simp
  · intro kv hkv
    cases R1 with
    | nil => simp at hkv
    | cons y R2 =>
      rw [(map_iterator_step map1 _ iter1 y R2 hrep1 hpos1).2.1]
      simpa using hkv

/-- Witness for C15: removing at the first position of the ten-key map of the
tests. -/
theorem map_iterator_remove_current_position_witness :
    ∃ value map1 iter1 iter2 kvs,
      map_iterator_remove_current example_map_ten (map_iterator_create example_map_ten)
        = some (value, map1, iter1) ∧
      map_iterator_next example_map_ten (map_iterator_create example_map_ten) = some iter2 ∧
      map_iterate_from 11 map1 iter1 = some kvs ∧
      map_iterate_from 11 example_map_ten iter2 = some kvs ∧
      (map_iterator_has_current map1 iter1 = true ↔ kvs ≠ []) ∧
      (∀ kv, kvs.head? = some kv → map_iterator_get_current map1 iter1 = some kv) :=
  map_iterator_remove_current_position 11 example_map_ten example_map_ten
    (map_iterator_create example_map_ten) example_map_ten_invariants.1
    map_iterator_reachable.create (by decide) (by decide)

/-- C16: the map iterator invariant holds in every state reached from
`map_iterator_create` on a map satisfying the map invariant by calls of
`map_iterator_next` and `map_iterator_remove_current` made while
`map_iterator_has_current` is true: when the iterator reports a current element
the bucket at `bucket_index` is not null, it is the list of the embedded cursor,
and that cursor has a current element. -/
theorem map_iterator_invariant_reachable (map0 map : map_t) (iter : map_iterator_t)
    (hinv : map_invariant map0) (hreach : map_iterator_reachable map0 map iter) :
    map_iterator_invariant map iter := by
  intro hcur
  obtain ⟨_, _, _, E, R, hrep, hpos⟩ := map_iterator_reachable_pos map0 map iter hinv hreach
  obtain ⟨x, R1, rfl⟩ := map_iterator_pos_current map E iter R hpos hcur
  obtain ⟨i, j, ⟨hidx, hi, hlist, hat, hj⟩, _, _⟩ := map_iterator_pos_cons map E iter x R1 hpos
  obtain ⟨bucket, hb, hlrep⟩ :=
    map_rep_some map E hrep i hi (List.ne_nil_of_length_pos (by omega))
  refine ⟨bucket, by rw [hidx]; exact hb, by rw [hidx]; exact hlist, ?_⟩
  rw [list_iterator_has_current_at bucket iter.bucket_iter (E i) j hlrep.1 hat]
  simp [hj]

/-- Witness for C16: the state after one `map_iterator_next` on the ten-key map
of the tests. -/
theorem map_iterator_invariant_reachable_witness :
    ∃ iter1, map_iterator_next example_map_ten (map_iterator_create example_map_ten)
        = some iter1 ∧
      map_iterator_has_current example_map_ten iter1 = true ∧
      map_iterator_invariant example_map_ten iter1 := by
  cases h : map_iterator_next example_map_ten (map_iterator_create example_map_ten) with
  | none => exact absurd h (by decide)
  | some iter1 =>
    have hcur : (map_iterator_next example_map_ten (map_iterator_create example_map_ten)).map
        (map_iterator_has_current example_map_ten) = some true := by decide
    rw [h] at hcur
    exact ⟨iter1, rfl, by simpa using hcur,
      map_iterator_invariant_reachable example_map_ten example_map_ten iter1
        example_map_ten_invariants.1
        (map_iterator_reachable.next _ _ _ map_iterator_reachable.create (by decide) h)⟩

/-- C18: in every state of a traversal of a map satisfying the map invariants
where `map_iterator_has_current` is true, `map_iterator_get_current` gives a
key and a value, and `map_get` of that key on the map returns true and sets the
output to that value. -/
theorem map_iterator_get_current_lookup (map0 map : map_t) (iter : map_iterator_t)
    (hinv : map_invariants map0) (hreach : map_iterator_reachable map0 map iter)
    (hcur : map_iterator_has_current map iter = true) :
    ∃ key value, map_iterator_get_current map iter = some (key, value) ∧
      ∀ fuel out, map.size < fuel → map_get fuel map key out = some (true, value) := by
  obtain ⟨hinv1, _, hkey, E, R, hrep, hpos⟩ :=
    map_iterator_reachable_pos map0 map iter hinv.1 hreach
  obtain ⟨x, R1, rfl⟩ := map_iterator_pos_current map E iter R hpos hcur
  refine ⟨x.2.key, x.2.value, (map_iterator_step map E iter x R1 hrep hpos).2.1, ?_⟩
  intro fuel out hfuel
  exact map_get_of_pos fuel map E iter x R1 out ⟨hinv1, hkey hinv.2⟩ hrep hpos hfuel

/-- Witness for C18: the first position of the traversal of the ten-key map of
the tests. -/
theorem map_iterator_get_current_lookup_witness :
    ∃ key value,
      map_iterator_get_current example_map_ten (map_iterator_create example_map_ten)
        = some (key, value) ∧
      ∀ fuel out, example_map_ten.size < fuel →
        map_get fuel example_map_ten key out = some (true, value) :=
  map_iterator_get_current_lookup example_map_ten example_map_ten
    (map_iterator_create example_map_ten) example_map_ten_invariants
    map_iterator_reachable.create (by decide)

/-- A fresh iterator reports a current element exactly when some bucket slot is
not null. -/
theorem map_iterator_create_has_current (map : map_t) :
    map_iterator_has_current map (map_iterator_create map) = true ↔
      ∃ i, i < map.capacity ∧ map.buckets i ≠ none := by
  obtain ⟨hbelow, hstop⟩ := map_iterator_find_bucket_loop_first map (map.capacity - 0)
    { bucket_index := 0, bucket_list := none, bucket_iter := { current := slot_t.head } }
    (by simp)
  have hdef : map_iterator_create map = map_iterator_find_bucket_loop map (map.capacity - 0)
    { bucket_index := 0, bucket_list := none, bucket_iter := { current := slot_t.head } } := rfl
  rw [← hdef] at hbelow hstop
  simp only [map_iterator_has_current, decide_eq_true_eq]
  constructor
  · intro hlt
    rcases hstop with heq | ⟨_, bucket, hb, _⟩
    · omega
    · exact ⟨_, hlt, by rw [hb]; simp⟩
  · rintro ⟨i, hi, hne⟩
    rcases hstop with heq | ⟨hlt, _⟩
    · exact absurd (hbelow i (Nat.zero_le _) (by omega)) hne
    · exact hlt

/-- Under the map invariant the cached size is not zero exactly when some
bucket slot is not null. -/
theorem map_size_ne_zero (map : map_t) (hinv : map_invariant map) :
    map_size map ≠ 0 ↔ ∃ i, i < map.capacity ∧ map.buckets i ≠ none := by
  constructor
  · intro hne
    by_contra hall
    apply hne
    have hz : ∀ i ∈ Finset.range map.capacity, map_bucket_size map i = 0 := by
      intro i hi
      have hnone : map.buckets i = none := by
        by_contra hb
        exact hall ⟨i, Finset.mem_range.1 hi, hb⟩
      simp [map_bucket_size, hnone]
    show map.size = 0
    rw [hinv.2.2]
    exact Finset.sum_eq_zero hz
  · rintro ⟨i, hi, hb⟩
    cases hbk : map.buckets i with
    | none => exact absurd hbk hb
    | some bucket =>
      have h1 := map_bucket_size_le map hinv i hi
      have h2 := (hinv.2.1 i hi bucket hbk).2
      have h3 : map_bucket_size map i = list_size bucket := by simp [map_bucket_size, hbk]
      show map.size ≠ 0
      omega

/-- C17: `map_iterator_create` on a map satisfying the map invariant stops at
the smallest index of a non-null bucket slot, with the embedded cursor created on
that bucket, so that the current entry is the front of that bucket, or at
`capacity` when every slot is null; `map_iterator_has_current` of the fresh
iterator is true exactly when `map_size` is not zero; it is false on a freshly
created map and true after every insert that returns 0. -/
theorem map_iterator_create_spec (map : map_t) (hinv : map_invariant map) :
    (∀ k, k < (map_iterator_create map).bucket_index → map.buckets k = none) ∧
    (((map_iterator_create map).bucket_index = map.capacity ∧
        ∀ k, k < map.capacity → map.buckets k = none) ∨
      ((map_iterator_create map).bucket_index < map.capacity ∧
        ∃ bucket entry, map.buckets (map_iterator_create map).bucket_index = some bucket ∧
          (map_iterator_create map).bucket_list = some (map_iterator_create map).bucket_index ∧
          (map_iterator_create map).bucket_iter = list_iterator_create bucket ∧
          list_get_front bucket = some entry ∧
          map_iterator_get_current map (map_iterator_create map)
            = some (entry.key, entry.value))) ∧
    (map_iterator_has_current map (map_iterator_create map) = true ↔ map_size map ≠ 0) ∧
    (∀ dealloc map0, map_create_with_value_deallocator true true dealloc = (0, some map0) →
      map_iterator_has_current map0 (map_iterator_create map0) = false) ∧
    (∀ fuel al key value map1, map.size < fuel → map_allocs_fresh map al key →
      map_insert fuel map al key value = some (0, map1) →
      map_iterator_has_current map1 (map_iterator_create map1) = true) := by
  obtain ⟨hbelow, hstop⟩ := map_iterator_find_bucket_loop_first map (map.capacity - 0)
    { bucket_index := 0, bucket_list := none, bucket_iter := { current := slot_t.head } }
    (by simp)
  have hdef : map_iterator_create map = map_iterator_find_bucket_loop map (map.capacity - 0)
    { bucket_index := 0, bucket_list := none, bucket_iter := { current := slot_t.head } } := rfl
  rw [← hdef] at hbelow hstop
  refine ⟨fun k hk => hbelow k (Nat.zero_le _) hk, ?_, ?_, ?_, ?_⟩
  · rcases hstop with heq | ⟨hlt, bucket, hb, hlist, hiter⟩
    · exact Or.inl ⟨heq, fun k hk => hbelow k (Nat.zero_le _) (by omega)⟩
    · obtain ⟨E, hrep⟩ := map_invariant_rep map hinv
      have hbr := hrep _ hlt
      unfold map_bucket_rep at hbr
      rw [hb] at hbr
      obtain ⟨hlrep, hne⟩ := hbr
      have hfront := list_get_front_rep bucket _ hlrep
      cases hE : E (map_iterator_create map).bucket_index with
      | nil => exact absurd hE hne
      | cons x rest =>
        rw [hE] at hfront
        simp only [List.map_cons, List.head?_cons] at hfront
        refine Or.inr ⟨hlt, bucket, x.2, hb, hlist, hiter, hfront, ?_⟩
        simp only [map_iterator_get_current, hlist, hb, hiter, list_iterator_get_current,
          list_iterator_create, slot_load]
        unfold list_get_front at hfront
        cases hh : bucket.head with
        | none => rw [hh] at hfront; cases hfront
        | some a =>
          rw [hh] at hfront
          simp only at hfront ⊢
          cases hm : bucket.mem a with
          | none => rw [hm] at hfront; cases hfront
          | some e =>
            rw [hm] at hfront
            simp only [Option.some.injEq] at hfront
            simp only [hfront]
  · rw [map_iterator_create_has_current, map_size_ne_zero map hinv]
  · intro dealloc map0 hnew
    obtain ⟨_, _, _, _, hnone⟩ := map_create_invariant dealloc map0 hnew
    cases hc : map_iterator_has_current map0 (map_iterator_create map0) with
    | false => rfl
    | true =>
      obtain ⟨i, _, hb⟩ := (map_iterator_create_has_current map0).1 hc
      exact absurd (hnone i) hb
  · intro fuel al key value map1 hfuel hfresh hins
    obtain ⟨E, hrep⟩ := map_invariant_rep map hinv
    have hidx : hash_string key % map.capacity < map.capacity := Nat.mod_lt _ hinv.1
    obtain ⟨e, map2, es1, hins2, _, hcap, _, _, _, hrep1, hcases⟩ :=
      map_insert_spec fuel map al key value _ hinv (hrep _ hidx) hfuel (fun _ => hfresh)
    rw [hins] at hins2
    obtain ⟨rfl, rfl⟩ : 0 = e ∧ map1 = map2 := by simpa using hins2
    have hne : es1 ≠ [] := by
      rcases hcases with ⟨he, _⟩ | ⟨_, _, q1, x, q2, _, _, _, hes⟩ | ⟨_, _, _, a, _, hes⟩
      · exact absurd rfl he
      · rw [hes]; simp
      · rw [hes]; simp
    obtain ⟨bucket, hb, _⟩ := map_bucket_rep_some map1 _ es1 hrep1 hne
    refine (map_iterator_create_has_current map1).2
      ⟨hash_string key % map.capacity, by rw [hcap]; exact hidx, by rw [hb]; simp⟩

/-- Witness for C17: on the one-entry map the fresh iterator reports a current
element, and the size is 1. -/
theorem map_iterator_create_spec_witness :
    (map_iterator_has_current example_map_one (map_iterator_create example_map_one) = true ↔
      map_size example_map_one ≠ 0) ∧
    (map_iterator_create example_map_one).bucket_index = 1 ∧ map_size example_map_one = 1 :=
  ⟨(map_iterator_create_spec example_map_one example_map_one_invariants.1).2.2.1,
    by decide, by decide⟩

/-! ## Theorems: the hash formula and allocation failure -/

/-- On a value below `2 ^ 7` the conversion from `char` is the identity. -/
theorem char_to_uint64_small (c : Nat) (hc : c < 128) : char_to_uint64 c = c := by
  unfold char_to_uint64
  have h1 : c % 256 = c := Nat.mod_eq_of_lt (by omega)
  rw [h1, if_pos hc]

/-- The loop of `hash_string` from any accumulator value is the sequential
formula on the converted characters. -/
theorem hash_string_foldl_sequential (s : c_string) :
    ∀ acc, s.foldl hash_string_step acc = hash_string_sequential acc (s.map char_to_uint64) := by
  induction s with
  | nil => intro acc; rfl
  | cons c s ih =>
    intro acc
    simp only [List.foldl_cons, List.map_cons, hash_string_sequential, ih,
      hash_string_step, Nat.shiftRight_eq_div_pow]

/-- Counterexample for C19: on the string "abc" the function `hash_string`
returns 93323564, and the formula whose three shifts read the same accumulator
value gives 93323559. -/
theorem hash_string_spec_counterexample :
    hash_string [97, 98, 99] = 93323564 ∧ hash_string_spec [97, 98, 99] = 93323559 ∧
      hash_string [97, 98, 99] ≠ hash_string_spec [97, 98, 99] := by
  refine ⟨by decide, by decide, by decide⟩

/-- C19 (amended): for every string whose bytes are below 128, `hash_string`
is the accumulator after, for each byte `c` in order, the five assignments
`acc = acc + c`, `acc = acc * c`, `acc = acc + (acc >> 8)`,
`acc = acc + (acc >> 16)`, `acc = acc + (acc >> 32)`, each reading the
accumulator the assignment before left, all modulo `2 ^ 64`, from 0. -/
theorem hash_string_sequential_spec (s : c_string) (hs : ∀ c ∈ s, c < 128) :
    hash_string s = hash_string_sequential 0 s := by
  have hmap : s.map char_to_uint64 = s := by
    induction s with
    | nil => rfl
    | cons c s ih =>
      simp only [List.map_cons]
      rw [char_to_uint64_small c (hs c (List.mem_cons_self _ _)),
        ih (fun d hd => hs d (List.mem_cons_of_mem _ hd))]
  unfold hash_string
  rw [hash_string_foldl_sequential s 0, hmap]

/-- Witness for C19: the string "abc". -/
theorem hash_string_sequential_spec_witness :
    (∀ c ∈ [97, 98, 99], c < 128) ∧
      hash_string [97, 98, 99] = hash_string_sequential 0 [97, 98, 99] ∧
      hash_string_sequential 0 [97, 98, 99] = 93323564 :=
  ⟨by decide, hash_string_sequential_spec [97, 98, 99] (by decide), by decide⟩

/-- Undoing the creation of the bucket at a slot that was null gives back the
map. -/
theorem map_buckets_reset (map : map_t) (index : Nat) (hb : map.buckets index = none) :
    ({ map with buckets := Function.update map.buckets index none } : map_t) = map := by
  obtain ⟨d, sz, cap, buckets⟩ := map
  simp only at hb
  simp only [map_t.mk.injEq, true_and]
  rw [← hb]
  exact Function.update_eq_self index buckets

/-- When the allocation of the entry, of the key or of the list element fails,
the part of `map_insert` that adds a new entry takes the `out_of_memory` exit. -/
theorem map_insert_new_fails (map : map_t) (index : Nat) (bucket : bucket_t)
    (new_bucket : Bool) (al : map_allocs) (hash_code : Nat) (key : c_string)
    (value : generic_value_t)
    (hfail : al.element_ok = false ∨ al.key_ok = false ∨ al.node = none) :
    map_insert_new map index bucket new_bucket al hash_code key value
      = some (ERROR_OUT_OF_MEMORY,
          if new_bucket then { map with buckets := Function.update map.buckets index none }
          else map) := by
  obtain ⟨bok, eok, kok, node⟩ := al
  simp only at hfail
  unfold map_insert_new
  cases eok with
  | false => simp
  | true =>
    cases kok with
    | false => simp
    | true =>
      rcases hfail with h | h | h
      · cases h
      · cases h
      · subst h
        simp [list_push_back, ERROR_OUT_OF_MEMORY]

/-- C20: a failed allocation leaves the container as it was.  `list_push_back`
and `list_push_front` whose `calloc` fails return `ERROR_OUT_OF_MEMORY` with the
list unchanged; on a map satisfying the map invariant, `map_insert` of a key
the map does not hold, in which the allocation of a new bucket, of the entry,
of the key duplicate or of the list element fails, returns
`ERROR_OUT_OF_MEMORY` with the map unchanged, also when the call had created a
new bucket. -/
theorem map_insert_out_of_memory (fuel : Nat) (map : map_t) (al : map_allocs) (key : c_string)
    (value out : generic_value_t) (hinv : map_invariant map) (hfuel : map.size < fuel)
    (habsent : ∀ v, map_get fuel map key out ≠ some (true, v))
    (hfail : map_insert_alloc_fails map al key) :
    map_insert fuel map al key value = some (ERROR_OUT_OF_MEMORY, map) ∧
    (∀ (V : Type) (l : list_t V) (v : V),
      list_push_back l none v = some (ERROR_OUT_OF_MEMORY, l) ∧
      list_push_front l none v = some (ERROR_OUT_OF_MEMORY, l)) := by
  refine ⟨?_, fun V l v => ⟨rfl, rfl⟩⟩
  have hcap : map.capacity ≠ 0 := Nat.pos_iff_ne_zero.1 hinv.1
  have hidx : hash_string key % map.capacity < map.capacity := Nat.mod_lt _ hinv.1
  obtain ⟨E, hrep⟩ := map_invariant_rep map hinv
  have hbr := hrep _ hidx
  have hlen : (E (hash_string key % map.capacity)).length < fuel := by
    have h1 := map_bucket_size_le map hinv _ hidx
    rw [map_bucket_rep_size map _ _ hbr] at h1
    omega
  have hget := map_get_rep fuel map key out _ hinv.1 hbr hlen
  have hfalse : map_get fuel map key out = some (false, out) := by
    cases hf : (E (hash_string key % map.capacity)).find? (fun y => decide (y.2.key = key)) with
    | none => rw [hget, hf]
    | some x =>
      rw [hf] at hget
      exact absurd hget (habsent x.2.value)
  simp only [map_get, if_neg hcap] at hfalse
  simp only [map_insert, if_neg hcap]
  cases hb : map.buckets (hash_string key % map.capacity) with
  | none =>
    rcases hfail with ⟨_, hbok⟩ | hrest
    · simp only [hbok, list_create_with_value_deallocator]
      rfl
    · cases hbok : al.bucket_ok with
      | false =>
        simp only [list_create_with_value_deallocator]
        rfl
      | true =>
        simp only [list_create_with_value_deallocator, if_true]
        rw [map_insert_new_fails map _ _ true al _ key value hrest, if_pos rfl,
          map_buckets_reset map _ hb]
  | some bucket =>
    rw [hb] at hfalse
    simp only at hfalse ⊢
    have hrest : al.element_ok = false ∨ al.key_ok = false ∨ al.node = none := by
      rcases hfail with ⟨hnone, _⟩ | hrest
      · rw [hb] at hnone; cases hnone
      · exact hrest
    cases hfind : map_find_element fuel bucket key with
    | none => rw [hfind] at hfalse; cases hfalse
    | some r =>
      cases r with
      | none =>
        simp only
        rw [map_insert_new_fails map _ bucket false al _ key value hrest]
        rfl
      | some iter =>
        rw [hfind] at hfalse
        simp only at hfalse
        cases hg : list_iterator_get_current bucket iter with
        | none => rw [hg] at hfalse; cases hfalse
        | some element => rw [hg] at hfalse; simp at hfalse

/-- Witness for C20: inserting the key with the single byte 2 into the
one-entry map, which creates the bucket of slot 2, with the `calloc` of the list
element failing. -/
theorem map_insert_out_of_memory_witness :
    map_insert 2 example_map_one
        { bucket_ok := true, element_ok := true, key_ok := true, node := none } [2] 7
      = some (ERROR_OUT_OF_MEMORY, example_map_one) ∧
    (∀ (V : Type) (l : list_t V) (v : V),
      list_push_back l none v = some (ERROR_OUT_OF_MEMORY, l) ∧
      list_push_front l none v = some (ERROR_OUT_OF_MEMORY, l)) :=
  map_insert_out_of_memory 2 example_map_one
    { bucket_ok := true, element_ok := true, key_ok := true, node := none } [2] 7 0
    example_map_one_invariants.1 (by decide)
    (fun v hv => by
      have h : map_get 2 example_map_one [2] 0 = some (false, 0) := by decide
      rw [h] at hv
      simp at hv)
    (Or.inr (Or.inr (Or.inr rfl)))

/-! ## Theorems: hash codes and keys -/

/-- The loop of `hash_string` keeps the accumulator below `2 ^ 64`. -/
theorem hash_string_foldl_lt (s : c_string) :
    ∀ acc, acc < 2 ^ 64 → s.foldl hash_string_step acc < 2 ^ 64 := by
  induction s with
  | nil => intro acc h; exact h
  | cons c s ih =>
    intro acc _
    rw [List.foldl_cons]
    exact ih _ (Nat.mod_lt _ (by norm_num))

/-- C21: `hash_string` is a function of the bytes of the string (equal strings
get equal codes), its codes are below `2 ^ 64`, and the two strings of each of
the six pairs of `test_hash_string` get different codes: "abc123" and "abc124",
"abc123" and "bbc123", "abaaaa" and "aabaaa", "aaaaaa" and "aaaaab", "ba" and
"ab", "101010" and "010101". -/
theorem hash_string_test_pairs :
    (∀ s t : c_string, s = t → hash_string s = hash_string t) ∧
    (∀ s : c_string, hash_string s < 2 ^ 64) ∧
    hash_string [97, 98, 99, 49, 50, 51] ≠ hash_string [97, 98, 99, 49, 50, 52] ∧
    hash_string [97, 98, 99, 49, 50, 51] ≠ hash_string [98, 98, 99, 49, 50, 51] ∧
    hash_string [97, 98, 97, 97, 97, 97] ≠ hash_string [97, 97, 98, 97, 97, 97] ∧
    hash_string [97, 97, 97, 97, 97, 97] ≠ hash_string [97, 97, 97, 97, 97, 98] ∧
    hash_string [98, 97] ≠ hash_string [97, 98] ∧
    hash_string [49, 48, 49, 48, 49, 48] ≠ hash_string [48, 49, 48, 49, 48, 49] := by
  refine ⟨fun s t h => by rw [h], fun s => hash_string_foldl_lt s 0 (by norm_num),
    by decide, by decide, by decide, by decide, by decide, by decide⟩

/-- Witness for C21: the first assertion of `test_hash_string`, on "abc123". -/
theorem hash_string_test_pairs_witness :
    hash_string [97, 98, 99, 49, 50, 51] = hash_string [97, 98, 99, 49, 50, 51] :=
  hash_string_test_pairs.1 _ _ rfl

/-- On a map satisfying the map invariant `map_get` returns, with any fuel above
the size. -/
theorem map_get_total (fuel : Nat) (map : map_t) (key : c_string) (out : generic_value_t)
    (hinv : map_invariant map) (hfuel : map.size < fuel) :
    ∃ r, map_get fuel map key out = some r := by
  have hidx : hash_string key % map.capacity < map.capacity := Nat.mod_lt _ hinv.1
  obtain ⟨es, hrep, _⟩ := map_invariant_bucket_rep map hinv _ hidx
  have hlen : es.length < fuel := by
    have h1 := map_bucket_size_le map hinv _ hidx
    rw [map_bucket_rep_size map _ es hrep] at h1
    omega
  exact ⟨_, map_get_rep fuel map key out es hinv.1 hrep hlen⟩

/-- The address 9 is not used by the bucket of `example_map_one` that the key
with the single byte 9 selects. -/
theorem example_map_one_fresh : map_allocs_fresh example_map_one (example_allocs 9) [9] := by
  intro a bucket ha hb
  have h9 : hash_string [9] % example_map_one.capacity = 1 := by decide
  rw [h9] at hb
  simp only [example_map_one, if_true, Option.some.injEq] at hb
  simp only [example_allocs, Option.some.injEq] at ha
  subst hb
  subst ha
  simp [example_bucket_one]

/-- C22: on a map satisfying the map invariant, `map_insert` of `key` returns,
and for every other key (whatever its hash code and the bucket it selects)
`map_get` returns the same found flag and the same value after the insert as
before it. -/
theorem map_insert_other_keys (fuel : Nat) (map : map_t) (al : map_allocs) (key : c_string)
    (value : generic_value_t) (hinv : map_invariant map) (hfuel : map.size < fuel)
    (hfresh : map_allocs_fresh map al key) :
    ∃ e map1, map_insert fuel map al key value = some (e, map1) ∧
      ∀ (key1 : c_string) (out : generic_value_t) (fuel2 : Nat), key1 ≠ key →
        map.size < fuel2 → map1.size < fuel2 →
        ∃ r, map_get fuel2 map key1 out = some r ∧ map_get fuel2 map1 key1 out = some r := by
  have hidx : hash_string key % map.capacity < map.capacity := Nat.mod_lt _ hinv.1
  obtain ⟨es, hrep, _⟩ := map_invariant_bucket_rep map hinv _ hidx
  obtain ⟨e, map1, _, hins, _⟩ :=
    map_insert_spec fuel map al key value es hinv hrep hfuel (fun _ => hfresh)
  refine ⟨e, map1, hins, ?_⟩
  intro key1 out fuel2 hne hf2 hf1
  obtain ⟨r, hr⟩ := map_get_total fuel2 map key1 out hinv hf2
  refine ⟨r, hr, ?_⟩
  rw [map_get_insert_other fuel fuel2 map map1 al key key1 value out e hinv hfuel hfresh hins
    hne hf1 hf2]
  exact hr

/-- Witness for C22: the one-byte keys with byte values 1 and 9 both select
bucket 1; after the key 9 is inserted with value 8 into the map holding the
key 1 with value 0, both are retrieved with their values. -/
theorem map_insert_other_keys_witness :
    hash_string [1] % 10 = hash_string [9] % 10 ∧
    ∃ map1, map_insert 3 example_map_one (example_allocs 9) [9] 8 = some (0, map1) ∧
      map_get 3 example_map_one [1] 0 = some (true, 0) ∧
      map_get 3 map1 [1] 0 = some (true, 0) ∧ map_get 3 map1 [9] 0 = some (true, 8) := by
  obtain ⟨e, map1, hins, hother⟩ :=
    map_insert_other_keys 3 example_map_one (example_allocs 9) [9] 8
      example_map_one_invariants.1 (by decide) example_map_one_fresh
  have herr : (map_insert 3 example_map_one (example_allocs 9) [9] 8).map
      (fun r => (r.1, r.2.size)) = some (0, 2) := by decide
  have hnew : (map_insert 3 example_map_one (example_allocs 9) [9] 8).bind
      (fun r => map_get 3 r.2 [9] 0) = some (true, 8) := by decide
  rw [hins] at herr hnew
  simp only [Option.map_some', Option.some.injEq, Prod.mk.injEq] at herr
  obtain ⟨he, hsize⟩ := herr
  subst he
  obtain ⟨r, h1, h2⟩ := hother [1] 0 3 (by decide) (by decide) (by rw [hsize]; decide)
  have hone : map_get 3 example_map_one [1] 0 = some (true, 0) := by decide
  rw [hone] at h1
  obtain rfl := Option.some.inj h1
  exact ⟨by decide, map1, hins, hone, h2, hnew⟩

/-! ## Theorems: traversal order and lookup misses -/

/-- The entries of `n` slots from slot `k` on are the concatenation of the
contents of the slots `k`, `k + 1`, ... in ascending order. -/
theorem map_entries_from_flatMap (E : Nat → List (Nat × map_element_t)) (n : Nat) :
    ∀ k, map_entries_from E n k = (List.range' k n).flatMap E := by
  induction n with
  | zero => intro k; rfl
  | succ n ih =>
    intro k
    rw [List.range'_succ, List.flatMap_cons, ← ih (k + 1)]
    rfl

/-- The full traversal of a map reads the entries of all slots, in slot order. -/
theorem map_iterate_rep (fuel : Nat) (map : map_t) (E : Nat → List (Nat × map_element_t))
    (hinv : map_invariant map) (hrep : map_rep map E) (hfuel : map.size < fuel) :
    map_iterate fuel map
      = some ((map_entries_from E map.capacity 0).map (fun x => (x.2.key, x.2.value))) := by
  have hlen : (map_entries_from E map.capacity 0).length < fuel := by
    rw [← map_rep_size map E hinv hrep]; exact hfuel
  exact map_iterate_from_pos map E hrep _ (map_iterator_create map) fuel
    (map_iterator_create_pos map E hrep) hlen

/-- What `map_remove` does to the contents of the buckets: the bucket the key
selects loses at most the entry of the key, its other entries keep their order,
and the other buckets keep their content. -/
theorem map_remove_rep (fuel : Nat) (map : map_t) (key : c_string) (out : generic_value_t)
    (E : Nat → List (Nat × map_element_t)) (hinv : map_invariant map) (hrep : map_rep map E)
    (hfuel : map.size < fuel) :
    ∃ found out1 map1 E1, map_remove fuel map key out = some (found, out1, map1) ∧
      map_rep map1 E1 ∧ (∀ i, i ≠ hash_string key % map.capacity → E1 i = E i) ∧
      (E1 (hash_string key % map.capacity)).Sublist (E (hash_string key % map.capacity)) ∧
      ∀ y ∈ E (hash_string key % map.capacity), y.2.key ≠ key →
        y ∈ E1 (hash_string key % map.capacity) := by
  have hidx : hash_string key % map.capacity < map.capacity := Nat.mod_lt _ hinv.1
  have hbr := hrep _ hidx
  rcases list_key_split key (E (hash_string key % map.capacity)) with
    hnone | ⟨q1, x, q2, hsplit, hx, hq1⟩
  · have hlen : (E (hash_string key % map.capacity)).length < fuel := by
      have h1 := map_bucket_size_le map hinv _ hidx
      rw [map_bucket_rep_size map _ _ hbr] at h1
      omega
    exact ⟨false, out, map, E, map_remove_absent fuel map key out _ hinv.1 hbr hlen hnone,
      hrep, fun _ _ => rfl, List.Sublist.refl _, fun y hy _ => hy⟩
  · rw [hsplit] at hbr
    obtain ⟨map1, hrm, _, hcap, hother, hrep1, hsize⟩ :=
      map_remove_found fuel map key out q1 x q2 hinv hbr hfuel hx hq1
    have hsz : map1.size + (E (hash_string key % map.capacity)).length
        = map.size + (q1 ++ q2).length := by
      rw [hsplit]
      simp only [List.length_append, List.length_cons]
      omega
    refine ⟨true, x.2.value, map1, _, hrm,
      (map_rep_update map map1 E _ (q1 ++ q2) hinv hrep hidx hcap hother hrep1 hsz).2,
      fun i hi => Function.update_noteq hi _ _, ?_, ?_⟩
    · rw [Function.update_same, hsplit]
      exact List.Sublist.append (List.Sublist.refl q1) (List.sublist_cons_self x q2)
    · intro y hy hyk
      rw [Function.update_same]
      rw [hsplit] at hy
      rcases List.mem_append.1 hy with h | h
      · exact List.mem_append.2 (Or.inl h)
      · rcases List.mem_cons.1 h with h | h
        · rw [h] at hyk; exact absurd hx hyk
        · exact List.mem_append.2 (Or.inr h)

/-- C24: on a map satisfying the map invariant, for a key that the traversal
of the map does not visit, `map_get` and `map_remove` return false, the output
slot keeps its content, and `map_remove` leaves the map as it was. -/
theorem map_lookup_miss (fuel : Nat) (map : map_t) (key : c_string) (out : generic_value_t)
    (kvs : List (c_string × generic_value_t)) (hinv : map_invariant map)
    (hfuel : map.size < fuel) (hrun : map_iterate fuel map = some kvs)
    (habsent : key ∉ kvs.map Prod.fst) :
    map_get fuel map key out = some (false, out) ∧
      map_remove fuel map key out = some (false, out, map) := by
  obtain ⟨E, hrep⟩ := map_invariant_rep map hinv
  rw [map_iterate_rep fuel map E hinv hrep hfuel] at hrun
  obtain rfl := Option.some.inj hrun
  have hidx : hash_string key % map.capacity < map.capacity := Nat.mod_lt _ hinv.1
  have hbr := hrep _ hidx
  have hlen : (E (hash_string key % map.capacity)).length < fuel := by
    have h1 := map_bucket_size_le map hinv _ hidx
    rw [map_bucket_rep_size map _ _ hbr] at h1
    omega
  have hnone : ∀ y ∈ E (hash_string key % map.capacity), y.2.key ≠ key := by
    intro y hy hyk
    apply habsent
    have hmem : y ∈ map_entries_from E map.capacity 0 :=
      (map_entries_from_mem E y map.capacity 0).2
        ⟨hash_string key % map.capacity, Nat.zero_le _, by omega, hy⟩
    rw [List.map_map]
    exact List.mem_map.2 ⟨y, hmem, hyk⟩
  refine ⟨?_, map_remove_absent fuel map key out _ hinv.1 hbr hlen hnone⟩
  rw [map_get_rep fuel map key out _ hinv.1 hbr hlen, list_find_none key _ hnone]

/-- Witness for C24: in the map holding the one-byte key 1, the key 9 selects
the bucket of the key 1 and is not found, and the key 2 selects a null slot. -/
theorem map_lookup_miss_witness :
    (map_get 2 example_map_one [9] 5 = some (false, 5) ∧
      map_remove 2 example_map_one [9] 5 = some (false, 5, example_map_one)) ∧
    (map_get 2 example_map_one [2] 5 = some (false, 5) ∧
      map_remove 2 example_map_one [2] 5 = some (false, 5, example_map_one)) :=
  ⟨map_lookup_miss 2 example_map_one [9] 5 [([1], 0)] example_map_one_invariants.1
    (by decide) (by decide) (by decide),
   map_lookup_miss 2 example_map_one [2] 5 [([1], 0)] example_map_one_invariants.1
    (by decide) (by decide) (by decide)⟩

/-! ## Theorems: the maps reached from a fresh map -/

/-- On a map satisfying the map invariant `map_remove` returns, with any fuel
above the size; the map afterwards satisfies the map invariant, has the same
capacity, and satisfies the placement and uniqueness invariant if the map
before did. -/
theorem map_remove_total (fuel : Nat) (map : map_t) (key : c_string) (out : generic_value_t)
    (hinv : map_invariant map) (hfuel : map.size < fuel) :
    ∃ found out1 map1, map_remove fuel map key out = some (found, out1, map1) ∧
      map_invariant map1 ∧ map1.capacity = map.capacity ∧
      (map_key_invariant map → map_key_invariant map1) := by
  have hidx : hash_string key % map.capacity < map.capacity := Nat.mod_lt _ hinv.1
  obtain ⟨E, hrep⟩ := map_invariant_rep map hinv
  have hbr := hrep _ hidx
  rcases list_key_split key (E (hash_string key % map.capacity)) with
    hnone | ⟨q1, x, q2, hsplit, hx, hq1⟩
  · have hlen : (E (hash_string key % map.capacity)).length < fuel := by
      have h1 := map_bucket_size_le map hinv _ hidx
      rw [map_bucket_rep_size map _ _ hbr] at h1
      omega
    exact ⟨false, out, map, map_remove_absent fuel map key out _ hinv.1 hbr hlen hnone,
      hinv, rfl, fun h => h⟩
  · rw [hsplit] at hbr
    obtain ⟨map1, hrm, hinv1, hcap, hother, hrep1, hsize⟩ :=
      map_remove_found fuel map key out q1 x q2 hinv hbr hfuel hx hq1
    refine ⟨true, x.2.value, map1, hrm, hinv1, hcap, ?_⟩
    intro hkey
    have hsz : map1.size + (E (hash_string key % map.capacity)).length
        = map.size + (q1 ++ q2).length := by
      rw [hsplit]
      simp only [List.length_append, List.length_cons]
      omega
    have hrepu := (map_rep_update map map1 E _ (q1 ++ q2) hinv hrep hidx hcap hother hrep1
      hsz).2
    have hk := (map_key_invariant_rep map E hrep).1 hkey
    refine (map_key_invariant_rep map1 _ hrepu).2 ?_
    intro i hi
    rw [hcap] at hi ⊢
    by_cases hii : i = hash_string key % map.capacity
    · subst hii
      rw [Function.update_same]
      obtain ⟨h1, h2⟩ := hk _ hidx
      rw [hsplit] at h1 h2
      have hsub : (q1 ++ q2).Sublist (q1 ++ x :: q2) :=
        List.Sublist.append (List.Sublist.refl q1) (List.sublist_cons_self x q2)
      exact ⟨fun y hy => h1 y (hsub.subset hy), List.Nodup.sublist (List.Sublist.map _ hsub) h2⟩
    · rw [Function.update_noteq hii]
      exact hk i hi

/-- Every map reached from a fresh map satisfies the map invariants and has the
capacity 10. -/
theorem map_reachable_invariants (map : map_t) (hreach : map_reachable map) :
    map_invariants map ∧ map.capacity = 10 := by
  induction hreach with
  | create dealloc map0 hnew =>
    obtain ⟨hinv, _, _, hcap, _⟩ := map_create_invariant dealloc map0 hnew
    exact ⟨hinv, hcap⟩
  | insert fuel map map1 al key value e _ hfuel hfresh hins ih =>
    refine ⟨map_insert_invariants fuel map map1 al key value e ih.1 hfuel hfresh hins, ?_⟩
    have hidx : hash_string key % map.capacity < map.capacity := Nat.mod_lt _ ih.1.1.1
    obtain ⟨es, hrep, _⟩ := map_invariant_bucket_rep map ih.1.1 _ hidx
    obtain ⟨e2, map2, _, hins2, _, hcap, _⟩ :=
      map_insert_spec fuel map al key value es ih.1.1 hrep hfuel (fun _ => hfresh)
    rw [hins] at hins2
    obtain ⟨_, rfl⟩ : e = e2 ∧ map1 = map2 := by simpa using hins2
    rw [hcap]; exact ih.2
  | remove fuel map map1 key out out1 found _ hfuel hrm ih =>
    obtain ⟨found2, out2, map2, hrm2, hinv2, hcap, hkey⟩ :=
      map_remove_total fuel map key out ih.1.1 hfuel
    rw [hrm] at hrm2
    obtain ⟨_, _, rfl⟩ : found = found2 ∧ out1 = out2 ∧ map1 = map2 := by simpa using hrm2
    exact ⟨⟨hinv2, hkey ih.1.2⟩, by rw [hcap]; exact ih.2⟩
  | iterate map map1 iter _ hiter ih =>
    obtain ⟨hinv1, hcap, hkey, _⟩ := map_iterator_reachable_pos map map1 iter ih.1.1 hiter
    exact ⟨⟨hinv1, hkey ih.1.2⟩, by rw [hcap]; exact ih.2⟩

/-- A fresh map is reached. -/
theorem example_map_empty_reachable : map_reachable example_map_empty :=
  map_reachable.create none example_map_empty rfl

/-- C25: a map produced by `map_create` or `map_create_with_value_deallocator`
has capacity 10, size 0 and all slots null; every map reached from it by
`map_insert`, `map_remove` and iterator calls has capacity 10, and each of
`map_insert`, `map_remove`, `map_iterator_remove_current` on it returns a map
of the same capacity (`map_iterator_next` returns an iterator only). -/
theorem map_capacity_fixed (map : map_t) (hreach : map_reachable map) :
    map.capacity = 10 ∧
    (∀ dealloc, ∃ map0, map_create_with_value_deallocator true true dealloc = (0, some map0) ∧
      map0.capacity = 10 ∧ map_size map0 = 0 ∧ ∀ i, map0.buckets i = none) ∧
    (∃ map0, map_create true true = (0, some map0) ∧
      map0.capacity = 10 ∧ map_size map0 = 0 ∧ ∀ i, map0.buckets i = none) ∧
    (∀ fuel al key value, map.size < fuel → map_allocs_fresh map al key →
      ∃ e map1, map_insert fuel map al key value = some (e, map1) ∧
        map1.capacity = map.capacity) ∧
    (∀ fuel key out, map.size < fuel →
      ∃ found out1 map1, map_remove fuel map key out = some (found, out1, map1) ∧
        map1.capacity = map.capacity) ∧
    (∀ map1 iter, map_iterator_reachable map map1 iter →
      map1.capacity = map.capacity ∧
      (map_iterator_has_current map1 iter = true →
        (∃ v map2 iter1, map_iterator_remove_current map1 iter = some (v, map2, iter1) ∧
          map2.capacity = map.capacity) ∧
        ∃ iter1, map_iterator_next map1 iter = some iter1)) := by
  obtain ⟨⟨hinv, _⟩, hcap10⟩ := map_reachable_invariants map hreach
  refine ⟨hcap10, ?_, ?_, ?_, ?_, ?_⟩
  · intro dealloc
    obtain ⟨_, _, hsize, hcap, hnone⟩ := map_create_invariant dealloc _ rfl
    exact ⟨_, rfl, hcap, hsize, hnone⟩
  · obtain ⟨_, _, hsize, hcap, hnone⟩ := map_create_invariant none _ example_map_empty_create
    exact ⟨_, example_map_empty_create, hcap, hsize, hnone⟩
  · intro fuel al key value hfuel hfresh
    have hidx : hash_string key % map.capacity < map.capacity := Nat.mod_lt _ hinv.1
    obtain ⟨es, hrep, _⟩ := map_invariant_bucket_rep map hinv _ hidx
    obtain ⟨e, map1, _, hins, _, hcap, _⟩ :=
      map_insert_spec fuel map al key value es hinv hrep hfuel (fun _ => hfresh)
    exact ⟨e, map1, hins, hcap⟩
  · intro fuel key out hfuel
    obtain ⟨found, out1, map1, hrm, _, hcap, _⟩ := map_remove_total fuel map key out hinv hfuel
    exact ⟨found, out1, map1, hrm, hcap⟩
  · intro map1 iter hiter
    obtain ⟨hinv1, hcap, _, E, R, hrep, hpos⟩ :=
      map_iterator_reachable_pos map map1 iter hinv hiter
    refine ⟨hcap, fun hcur => ?_⟩
    obtain ⟨x, R1, rfl⟩ := map_iterator_pos_current map1 E iter R hpos hcur
    obtain ⟨map2, iter1, _, _, _, _, hrm, _, hcap2, _⟩ :=
      map_iterator_remove_pos map1 E iter x R1 hinv1 hrep hpos
    obtain ⟨_, _, iter2, hnext, _⟩ := map_iterator_step map1 E iter x R1 hrep hpos
    exact ⟨⟨x.2, map2, iter1, hrm, by rw [hcap2, hcap]⟩, ⟨iter2, hnext⟩⟩

/-- Witness for C25: the map after one insert into a fresh map. -/
theorem map_capacity_fixed_witness :
    ∃ e map1, map_insert 2 example_map_empty (example_allocs 0) [1] 0 = some (e, map1) ∧
      map1.capacity = 10 := by
  cases h : map_insert 2 example_map_empty (example_allocs 0) [1] 0 with
  | none =>
    have hsome : (map_insert 2 example_map_empty (example_allocs 0) [1] 0).isSome = true := by
      decide
    rw [h] at hsome
    cases hsome
  | some r =>
    obtain ⟨e, map1⟩ := r
    exact ⟨e, map1, rfl, (map_capacity_fixed map1
      (map_reachable.insert 2 example_map_empty map1 (example_allocs 0) [1] 0 e
        example_map_empty_reachable (by decide)
        (fun _ bucket _ hb => by simp [example_map_empty] at hb) h)).1⟩

/-- C26: in every map reached from a fresh map by `map_insert`, `map_remove`
and `map_iterator_remove_current`, every entry of the bucket at slot `i` has
`hash_string key % capacity = i` and caches `hash_string key` as its
`hash_code`, no two entries of a bucket have the same key, and no two entries
of the whole map have the same key: the keys of all entries, bucket after
bucket, are pairwise distinct. -/
theorem map_reachable_key_invariant (map : map_t) (hreach : map_reachable map) :
    map_key_invariant map ∧
    (∃ E, map_rep map E) ∧
    (∀ E, map_rep map E →
      (∀ i, i < map.capacity → ∀ x ∈ E i,
        hash_string x.2.key % map.capacity = i ∧ x.2.hash_code = hash_string x.2.key) ∧
      (((List.range map.capacity).flatMap E).map (fun x => x.2.key)).Nodup) := by
  obtain ⟨⟨hinv, hkey⟩, _⟩ := map_reachable_invariants map hreach
  refine ⟨hkey, map_invariant_rep map hinv, ?_⟩
  intro E hrep
  have hk := (map_key_invariant_rep map E hrep).1 hkey
  refine ⟨fun i hi => (hk i hi).1, ?_⟩
  rw [List.range_eq_range', ← map_entries_from_flatMap]
  exact map_entries_keys_nodup map.capacity E (fun i hi x hx => ((hk i hi).1 x hx).1)
    (fun i hi => (hk i hi).2) map.capacity 0 (by omega)

/-- Witness for C26: the map after one insert into a fresh map. -/
theorem map_reachable_key_invariant_witness :
    ∃ e map1, map_insert 2 example_map_empty (example_allocs 0) [1] 0 = some (e, map1) ∧
      map_key_invariant map1 := by
  cases h : map_insert 2 example_map_empty (example_allocs 0) [1] 0 with
  | none =>
    have hsome : (map_insert 2 example_map_empty (example_allocs 0) [1] 0).isSome = true := by
      decide
    rw [h] at hsome
    cases hsome
  | some r =>
    obtain ⟨e, map1⟩ := r
    exact ⟨e, map1, rfl, (map_reachable_key_invariant map1
      (map_reachable.insert 2 example_map_empty map1 (example_allocs 0) [1] 0 e
        example_map_empty_reachable (by decide)
        (fun _ bucket _ hb => by simp [example_map_empty] at hb) h)).1⟩

/-! ## Lemmas: the history of a map -/

/-- Removing the entry at position `j` of the bucket at slot `i` is, under the
placement and uniqueness invariant, dropping the entries with its key from
every bucket. -/
theorem map_erase_filter (map : map_t) (E : Nat → List (Nat × map_element_t)) (i j : Nat)
    (x : Nat × map_element_t)
    (hk : ∀ k, k < map.capacity →
      (∀ y ∈ E k, hash_string y.2.key % map.capacity = k ∧
        y.2.hash_code = hash_string y.2.key) ∧
      ((E k).map (fun y => y.2.key)).Nodup)
    (hi : i < map.capacity) (hx : (E i)[j]? = some x) :
    ∀ k, k < map.capacity →
      Function.update E i ((E i).eraseIdx j) k
        = (E k).filter (fun y => decide (y.2.key ∉ [x.2.key])) := by
  intro k hkc
  obtain ⟨pre, post, hsplit, _, herase⟩ := list_split_at (E i) j x hx
  have hxi : x ∈ E i := by rw [hsplit]; simp
  by_cases hki : k = i
  · subst hki
    rw [Function.update_same, herase]
    have hnd := (hk k hkc).2
    rw [hsplit, List.map_append, List.map_cons, List.nodup_append] at hnd
    have hpre : ∀ y ∈ pre, y.2.key ≠ x.2.key := fun y hy hyk =>
      hnd.2.2 (List.mem_map.2 ⟨y, hy, rfl⟩) (by rw [hyk]; simp)
    have hpost : ∀ y ∈ post, y.2.key ≠ x.2.key := fun y hy hyk =>
      (List.nodup_cons.1 hnd.2.1).1 (List.mem_map.2 ⟨y, hy, hyk⟩)
    rw [hsplit, List.filter_append, List.filter_cons]
    have h1 : pre.filter (fun y => decide (y.2.key ∉ [x.2.key])) = pre :=
      List.filter_eq_self.2 (fun y hy => by simpa using hpre y hy)
    have h2 : post.filter (fun y => decide (y.2.key ∉ [x.2.key])) = post :=
      List.filter_eq_self.2 (fun y hy => by simpa using hpost y hy)
    rw [h1, h2]
    simp
  · rw [Function.update_noteq hki]
    refine (List.filter_eq_self.2 (fun y hy => ?_)).symm
    have e1 := ((hk k hkc).1 y hy).1
    have e2 := ((hk i hi).1 x hxi).1
    have hne : y.2.key ≠ x.2.key := by
      intro h
      rw [h] at e1
      omega
    simpa using hne

/-- Dropping the entries of the keys `removed` from a bucket drops them from its
part of the keys and values in history order. -/
theorem map_live_bucket_filter (L : List (c_string × generic_value_t)) (capacity i : Nat)
    (removed : List c_string) (es es1 : List (Nat × map_element_t))
    (hmod : es.map (fun x => (x.2.key, x.2.value)) = map_live_bucket L capacity i)
    (hes1 : es1 = es.filter (fun y => decide (y.2.key ∉ removed))) :
    es1.map (fun x => (x.2.key, x.2.value))
      = map_live_bucket (map_live_remove L removed) capacity i := by
  subst hes1
  have h1 : (es.filter (fun y => decide (y.2.key ∉ removed))).map
      (fun x => (x.2.key, x.2.value))
      = (es.map (fun x => (x.2.key, x.2.value))).filter (fun kv => decide (kv.1 ∉ removed)) := by
    rw [List.filter_map]
    rfl
  rw [h1, hmod]
  unfold map_live_bucket map_live_remove
  rw [List.filter_filter, List.filter_filter]
  exact List.filter_congr (fun a _ => Bool.and_comm _ _)

/-- The states of a traversal: the map keeps the invariants and the capacity,
the iterator is at a position, and every bucket holds the entries it held at
the start without those of the removed keys. -/
theorem map_traversal_rep (map0 map : map_t) (iter : map_iterator_t) (removed : List c_string)
    (E0 : Nat → List (Nat × map_element_t)) (hinv : map_invariants map0)
    (hrep0 : map_rep map0 E0) (htr : map_traversal map0 map iter removed) :
    map_invariants map ∧ map.capacity = map0.capacity ∧
      ∃ E R, map_rep map E ∧ map_iterator_pos map E iter R ∧
        ∀ k, k < map.capacity → E k = (E0 k).filter (fun y => decide (y.2.key ∉ removed)) := by
  induction htr with
  | create =>
    exact ⟨hinv, rfl, E0, _, hrep0, map_iterator_create_pos map0 E0 hrep0,
      fun k _ => (List.filter_eq_self.2 (fun y _ => by simp)).symm⟩
  | next map iter iter1 removed _ hhas hnext ih =>
    obtain ⟨hinv1, hcap, E, R, hrep, hpos, hE⟩ := ih
    obtain ⟨x, R1, rfl⟩ := map_iterator_pos_current map E iter R hpos hhas
    obtain ⟨_, _, iter2, hnext2, hpos2⟩ := map_iterator_step map E iter x R1 hrep hpos
    rw [hnext] at hnext2
    obtain rfl := Option.some.inj hnext2
    exact ⟨hinv1, hcap, E, R1, hrep, hpos2, hE⟩
  | remove map map1 iter iter1 removed key v value _ hhas hget hrm ih =>
    obtain ⟨hinv1, hcap, E, R, hrep, hpos, hE⟩ := ih
    obtain ⟨x, R1, rfl⟩ := map_iterator_pos_current map E iter R hpos hhas
    obtain ⟨_, hget2, _⟩ := map_iterator_step map E iter x R1 hrep hpos
    rw [hget] at hget2
    obtain ⟨hkey, _⟩ := Prod.mk.inj (Option.some.inj hget2)
    obtain ⟨map2, iter2, i, j, hat, hx, hrm2, hinv2, hcap2, _, hrep2, hpos2, _⟩ :=
      map_iterator_remove_pos map E iter x R1 hinv1.1 hrep hpos
    rw [hrm] at hrm2
    obtain ⟨_, h2⟩ := Prod.mk.inj (Option.some.inj hrm2)
    obtain ⟨hm, hit⟩ := Prod.mk.inj h2
    subst hm; subst hit
    have hk := (map_key_invariant_rep map E hrep).1 hinv1.2
    refine ⟨⟨hinv2, map_key_invariant_erase map map1 E i j hinv1.2 hrep hcap2 hrep2⟩,
      by rw [hcap2, hcap], _, R1, hrep2, hpos2, ?_⟩
    intro k hkc
    rw [hcap2] at hkc
    rw [map_erase_filter map E i j x hk hat.2.1 hx k hkc, hE k hkc, List.filter_filter, hkey]
    refine List.filter_congr (fun y _ => ?_)
    simp [List.mem_cons, not_or]

/-- What `map_remove` does to the contents of the buckets under the map
invariants: it returns, and every bucket keeps its entries without those of
the key. -/
theorem map_remove_filter (fuel : Nat) (map : map_t) (key : c_string) (out : generic_value_t)
    (E : Nat → List (Nat × map_element_t)) (hinv : map_invariants map) (hrep : map_rep map E)
    (hfuel : map.size < fuel) :
    ∃ found out1 map1 E1, map_remove fuel map key out = some (found, out1, map1) ∧
      map_invariants map1 ∧ map1.capacity = map.capacity ∧ map_rep map1 E1 ∧
      ∀ k, k < map.capacity → E1 k = (E k).filter (fun y => decide (y.2.key ∉ [key])) := by
  have hidx : hash_string key % map.capacity < map.capacity := Nat.mod_lt _ hinv.1.1
  have hbr := hrep _ hidx
  have hk := (map_key_invariant_rep map E hrep).1 hinv.2
  rcases list_key_split key (E (hash_string key % map.capacity)) with
    hnone | ⟨q1, x, q2, hsplit, hx, hq1⟩
  · have hlen : (E (hash_string key % map.capacity)).length < fuel := by
      have h1 := map_bucket_size_le map hinv.1 _ hidx
      rw [map_bucket_rep_size map _ _ hbr] at h1
      omega
    refine ⟨false, out, map, E, map_remove_absent fuel map key out _ hinv.1.1 hbr hlen hnone,
      hinv, rfl, hrep, fun k hkc => (List.filter_eq_self.2 (fun y hy => ?_)).symm⟩
    have hne : y.2.key ≠ key := by
      by_cases hki : k = hash_string key % map.capacity
      · subst hki; exact hnone y hy
      · intro h
        have e1 := ((hk k hkc).1 y hy).1
        rw [h] at e1
        exact hki e1.symm
    simpa using hne
  · have hbr2 := hbr
    rw [hsplit] at hbr2
    obtain ⟨map1, hrm, hinv1, hcap, hother, hrep1, hsize⟩ :=
      map_remove_found fuel map key out q1 x q2 hinv.1 hbr2 hfuel hx hq1
    have herase : (E (hash_string key % map.capacity)).eraseIdx q1.length = q1 ++ q2 := by
      rw [hsplit, List.eraseIdx_append_of_length_le (le_refl _)]
      simp
    have hxj : (E (hash_string key % map.capacity))[q1.length]? = some x := by
      rw [hsplit, List.getElem?_append_right (le_refl _)]
      simp
    have hsz : map1.size + (E (hash_string key % map.capacity)).length
        = map.size + (q1 ++ q2).length := by
      rw [hsplit]
      simp only [List.length_append, List.length_cons]
      omega
    have hrepu := (map_rep_update map map1 E _ (q1 ++ q2) hinv.1 hrep hidx hcap hother hrep1
      hsz).2
    rw [← herase] at hrepu
    refine ⟨true, x.2.value, map1, _, hrm,
      ⟨hinv1, map_key_invariant_erase map map1 E _ q1.length hinv.2 hrep hcap hrepu⟩, hcap,
      hrepu, fun k hkc => ?_⟩
    rw [map_erase_filter map E _ q1.length x hk hidx hxj k hkc, hx]

/-- What an insert that returns 0 does to the contents of the buckets, in terms
of the keys and values in history order. -/
theorem map_insert_models (fuel : Nat) (map map1 : map_t) (al : map_allocs) (key : c_string)
    (value : generic_value_t) (L : List (c_string × generic_value_t))
    (E : Nat → List (Nat × map_element_t)) (hinv : map_invariants map) (hrep : map_rep map E)
    (hmod : ∀ i, i < map.capacity →
      (E i).map (fun x => (x.2.key, x.2.value)) = map_live_bucket L map.capacity i)
    (hfuel : map.size < fuel) (hfresh : map_allocs_fresh map al key)
    (hins : map_insert fuel map al key value = some (0, map1)) :
    map1.capacity = map.capacity ∧
    ∃ E1, map_rep map1 E1 ∧ ∀ i, i < map.capacity →
      (E1 i).map (fun x => (x.2.key, x.2.value))
        = map_live_bucket (map_live_insert L key value) map.capacity i := by
  have hidx : hash_string key % map.capacity < map.capacity := Nat.mod_lt _ hinv.1.1
  have hk := (map_key_invariant_rep map E hrep).1 hinv.2
  obtain ⟨e, map2, es1, hins2, _, hcap, _, hother, _, hrep1, hcases⟩ :=
    map_insert_spec fuel map al key value _ hinv.1 (hrep _ hidx) hfuel (fun _ => hfresh)
  rw [hins] at hins2
  obtain ⟨rfl, rfl⟩ : 0 = e ∧ map1 = map2 := by simpa using hins2
  refine ⟨hcap, ?_⟩
  have hother_key : ∀ i, i < map.capacity → i ≠ hash_string key % map.capacity →
      ∀ y ∈ E i, y.2.key ≠ key := by
    intro i hi hne y hy h
    have e1 := ((hk i hi).1 y hy).1
    rw [h] at e1
    exact hne e1.symm
  rcases hcases with ⟨he, _⟩ | ⟨_, hsize, q1, x, q2, hsplit, hx, hq1, hes⟩ |
      ⟨_, hsize, hnone, a, _, hes⟩
  · exact absurd rfl he
  · have hsz : map1.size + (E (hash_string key % map.capacity)).length
        = map.size + es1.length := by
      rw [hsize, hsplit, hes]; simp
    refine ⟨_, (map_rep_update map map1 E _ es1 hinv.1 hrep hidx hcap hother hrep1 hsz).2, ?_⟩
    have hxE : x ∈ E (hash_string key % map.capacity) := by rw [hsplit]; simp
    have hin : key ∈ L.map Prod.fst := by
      have hmem : (x.2.key, x.2.value) ∈ map_live_bucket L map.capacity
          (hash_string key % map.capacity) := by
        rw [← hmod _ hidx]
        exact List.mem_map.2 ⟨x, hxE, rfl⟩
      exact List.mem_map.2 ⟨_, (List.mem_filter.1 hmem).1, hx⟩
    have hq2 : ∀ y ∈ q2, y.2.key ≠ key := by
      have hnd := (hk _ hidx).2
      rw [hsplit, List.map_append, List.map_cons, List.nodup_append] at hnd
      intro y hy hyk
      exact (List.nodup_cons.1 hnd.2.1).1 (List.mem_map.2 ⟨y, hy, by rw [hyk, hx]⟩)
    intro i hi
    have hcomm : map_live_bucket (map_live_insert L key value) map.capacity i
        = (map_live_bucket L map.capacity i).map
            (fun kv => if kv.1 = key then (key, value) else kv) := by
      simp only [map_live_insert, if_pos hin, map_live_bucket]
      rw [List.filter_map]
      congr 1
      refine List.filter_congr (fun kv _ => ?_)
      by_cases hkv : kv.1 = key
      · simp [hkv]
      · simp [hkv]
    have hid : ∀ l : List (Nat × map_element_t), (∀ y ∈ l, y.2.key ≠ key) →
        l.map (fun x => (x.2.key, x.2.value))
          = (l.map (fun x => (x.2.key, x.2.value))).map
              (fun kv => if kv.1 = key then (key, value) else kv) := by
      intro l hl
      rw [List.map_map]
      refine List.map_congr_left (fun y hy => ?_)
      simp [hl y hy]
    rw [hcomm, ← hmod i hi]
    by_cases hii : i = hash_string key % map.capacity
    · subst hii
      rw [Function.update_same, hes, hsplit]
      simp only [List.map_append, List.map_cons]
      rw [← hid q1 hq1, ← hid q2 hq2]
      simp [map_entry_with_value, hx]
    · rw [Function.update_noteq hii]
      exact hid _ (hother_key i hi hii)
  · have hsz : map1.size + (E (hash_string key % map.capacity)).length
        = map.size + es1.length := by
      rw [hsize, hes]; simp; omega
    refine ⟨_, (map_rep_update map map1 E _ es1 hinv.1 hrep hidx hcap hother hrep1 hsz).2, ?_⟩
    have hnin : key ∉ L.map Prod.fst := by
      intro hmem
      obtain ⟨kv, hkv, hkey⟩ := List.mem_map.1 hmem
      have hb : kv ∈ map_live_bucket L map.capacity (hash_string key % map.capacity) :=
        List.mem_filter.2 ⟨hkv, by simp [hkey]⟩
      rw [← hmod _ hidx] at hb
      obtain ⟨y, hy, hykv⟩ := List.mem_map.1 hb
      exact hnone y hy (by rw [← hkey, ← hykv])
    intro i hi
    have hcomm : map_live_bucket (map_live_insert L key value) map.capacity i
        = map_live_bucket L map.capacity i
          ++ (if hash_string key % map.capacity = i then [(key, value)] else []) := by
      simp only [map_live_insert, if_neg hnin, map_live_bucket, List.filter_append]
      congr 1
      by_cases hki : hash_string key % map.capacity = i
      · simp [hki]
      · simp [hki]
    rw [hcomm, ← hmod i hi]
    by_cases hii : i = hash_string key % map.capacity
    · subst hii
      rw [Function.update_same, hes, if_pos rfl]
      simp [map_new_entry]
    · rw [Function.update_noteq hii, if_neg (fun h => hii h.symm), List.append_nil]

/-- Every map of a history satisfies the map invariants, and every bucket holds,
in its list order, its part of the keys and values in history order. -/
theorem map_history_models (map : map_t) (L : List (c_string × generic_value_t))
    (hhist : map_history map L) :
    map_invariants map ∧
    ∃ E, map_rep map E ∧ ∀ i, i < map.capacity →
      (E i).map (fun x => (x.2.key, x.2.value)) = map_live_bucket L map.capacity i := by
  induction hhist with
  | create dealloc map0 hnew =>
    obtain ⟨hinv, _, _, _, hnone⟩ := map_create_invariant dealloc map0 hnew
    refine ⟨hinv, fun _ => [], fun i _ => ?_, fun i _ => rfl⟩
    unfold map_bucket_rep
    rw [hnone i]
  | insert fuel map map1 al key value L _ hfuel hfresh hins ih =>
    obtain ⟨hinv, E, hrep, hmod⟩ := ih
    obtain ⟨hcap, E1, hrep1, hmod1⟩ :=
      map_insert_models fuel map map1 al key value L E hinv hrep hmod hfuel hfresh hins
    refine ⟨map_insert_invariants fuel map map1 al key value 0 hinv hfuel hfresh hins,
      E1, hrep1, ?_⟩
    rw [hcap]
    exact hmod1
  | insert_failed fuel map map1 al key value e L _ hfuel hfresh hne hins ih =>
    obtain ⟨hinv, E, hrep, hmod⟩ := ih
    have hidx : hash_string key % map.capacity < map.capacity := Nat.mod_lt _ hinv.1.1
    obtain ⟨e2, map2, es1, hins2, _, hcap, _, hother, _, _, hcases⟩ :=
      map_insert_spec fuel map al key value _ hinv.1 (hrep _ hidx) hfuel (fun _ => hfresh)
    rw [hins] at hins2
    obtain ⟨rfl, rfl⟩ : e = e2 ∧ map1 = map2 := by simpa using hins2
    have hsame : map1.buckets (hash_string key % map.capacity)
        = map.buckets (hash_string key % map.capacity) := by
      rcases hcases with ⟨_, _, _, hsame, _⟩ | ⟨he, _⟩ | ⟨he, _⟩
      · exact hsame
      · exact absurd he hne
      · exact absurd he hne
    refine ⟨map_insert_invariants fuel map map1 al key value e hinv hfuel hfresh hins,
      E, fun i hi => ?_, ?_⟩
    · rw [hcap] at hi
      refine map_bucket_rep_congr map map1 i (E i) ?_ (hrep i hi)
      by_cases hii : i = hash_string key % map.capacity
      · rw [hii]; exact hsame
      · exact hother i hii
    · rw [hcap]
      exact hmod
  | remove fuel map map1 key out out1 found L _ hfuel hrm ih =>
    obtain ⟨hinv, E, hrep, hmod⟩ := ih
    obtain ⟨found2, out2, map2, E1, hrm2, hinv2, hcap, hrep1, hE1⟩ :=
      map_remove_filter fuel map key out E hinv hrep hfuel
    rw [hrm] at hrm2
    obtain ⟨_, _, rfl⟩ : found = found2 ∧ out1 = out2 ∧ map1 = map2 := by simpa using hrm2
    refine ⟨hinv2, E1, hrep1, fun i hi => ?_⟩
    rw [hcap] at hi ⊢
    exact map_live_bucket_filter L map.capacity i [key] (E i) (E1 i) (hmod i hi) (hE1 i hi)
  | traverse map map1 iter removed L _ htr ih =>
    obtain ⟨hinv, E, hrep, hmod⟩ := ih
    obtain ⟨hinv1, hcap, E1, _, hrep1, _, hE1⟩ :=
      map_traversal_rep map map1 iter removed E hinv hrep htr
    refine ⟨hinv1, E1, hrep1, fun i hi => ?_⟩
    have hE1i := hE1 i hi
    rw [hcap] at hi ⊢
    exact map_live_bucket_filter L map.capacity i removed (E i) (E1 i) (hmod i hi) hE1i

/-! ## Theorems: the order of a traversal -/

/-- Mapping over the concatenation of the contents of slots that all are below
the capacity, when every such slot holds its part of `L`. -/
theorem map_flatMap_live (L : List (c_string × generic_value_t)) (capacity : Nat)
    (E : Nat → List (Nat × map_element_t))
    (hmod : ∀ i, i < capacity →
      (E i).map (fun x => (x.2.key, x.2.value)) = map_live_bucket L capacity i) :
    ∀ l : List Nat, (∀ i ∈ l, i < capacity) →
      (l.flatMap E).map (fun x => (x.2.key, x.2.value))
        = l.flatMap (map_live_bucket L capacity) := by
  intro l
  induction l with
  | nil => intro _; rfl
  | cons i l ih =>
    intro h
    rw [List.flatMap_cons, List.flatMap_cons, List.map_append,
      hmod i (h i (List.mem_cons_self _ _)), ih (fun k hk => h k (List.mem_cons_of_mem _ hk))]

/-- The address 9 is not in use in the bucket of `example_history_one` that the
key 9 selects. -/
theorem example_history_one_fresh :
    map_allocs_fresh example_history_one (example_allocs 9) [9] := by
  intro a bucket ha hb
  have hm : (example_history_one.buckets
      (hash_string [9] % example_history_one.capacity)).map (fun b => (b.mem 9).isNone)
      = some true := by decide
  simp only [example_allocs, Option.some.injEq] at ha
  subst ha
  rw [hb] at hm
  simpa using hm

/-- The address 0 is not in use in the bucket of `example_history_three` that
the key 1 selects: the removal has freed it. -/
theorem example_history_three_fresh :
    map_allocs_fresh example_history_three (example_allocs 0) [1] := by
  intro a bucket ha hb
  have hm : (example_history_three.buckets
      (hash_string [1] % example_history_three.capacity)).map (fun b => (b.mem 0).isNone)
      = some true := by decide
  simp only [example_allocs, Option.some.injEq] at ha
  subst ha
  rw [hb] at hm
  simpa using hm

/-- The history of `example_history_four`: insert of the key 1, insert of the
key 9, removal of the key 1, insert of the key 1; the key 9 now stands before
the key 1. -/
theorem example_history_four_history :
    map_history example_history_four [([9], 8), ([1], 0)] := by
  have h0 : map_history example_map_empty [] := map_history.create none example_map_empty rfl
  have h1 := map_history.insert 5 example_map_empty example_history_one (example_allocs 0)
    [1] 0 [] h0 (by decide) (fun _ bucket _ hb => by simp [example_map_empty] at hb) rfl
  have h2 := map_history.insert 5 example_history_one example_history_two (example_allocs 9)
    [9] 8 _ h1 (by decide) example_history_one_fresh rfl
  have h3 := map_history.remove 5 example_history_two example_history_three [1] 0 0 true _ h2
    (by decide) rfl
  have h4 := map_history.insert 5 example_history_three example_history_four (example_allocs 0)
    [1] 0 _ h3 (by decide) example_history_three_fresh rfl
  have e : map_live_insert (map_live_remove (map_live_insert (map_live_insert [] [1] 0) [9] 8)
      [[1]]) [1] 0 = [([9], 8), ([1], 0)] := by decide
  rw [e] at h4
  exact h4

/-- The history of `example_history_five`: that of `example_history_four`
followed by a traversal that removes the first entry it visits, the key 9. -/
theorem example_history_five_history : map_history example_history_five [([1], 0)] := by
  have htr : map_traversal example_history_four example_history_five _ [[9]] :=
    map_traversal.remove example_history_four example_history_five
      (map_iterator_create example_history_four) _ [] [9] 8 _ map_traversal.create
      (by decide) (by decide) rfl
  have h5 := map_history.traverse example_history_four example_history_five _ [[9]] _
    example_history_four_history htr
  have e : map_live_remove [([9], 8), ([1], 0)] [[9]] = [([1], 0)] := by decide
  rw [e] at h5
  exact h5

/-- Counterexample for C23: after `map_insert` of the key 1, `map_insert` of the
key 9, `map_remove` of the key 1 and `map_insert` of the key 1 again, on a fresh
map, the map satisfies the map invariants, both keys are in bucket 1, and the
traversal visits the key 9 before the key 1, while the order in which the keys
were first inserted is 1 before 9. -/
theorem map_first_inserted_counterexample :
    map_insert 5 example_map_empty (example_allocs 0) [1] 0 = some (0, example_history_one) ∧
    map_insert 5 example_history_one (example_allocs 9) [9] 8
      = some (0, example_history_two) ∧
    map_remove 5 example_history_two [1] 0 = some (true, 0, example_history_three) ∧
    map_insert 5 example_history_three (example_allocs 0) [1] 0
      = some (0, example_history_four) ∧
    map_invariants example_history_four ∧
    hash_string [1] % example_history_four.capacity = 1 ∧
    hash_string [9] % example_history_four.capacity = 1 ∧
    map_iterate 5 example_history_two = some [([1], 0), ([9], 8)] ∧
    map_iterate 5 example_history_four = some [([9], 8), ([1], 0)] ∧
    map_keys_first_inserted [[1], [9], [1]] = [[1], [9]] ∧
    (map_iterate 5 example_history_four).map (List.map Prod.fst)
      ≠ some (map_keys_first_inserted [[1], [9], [1]]) :=
  ⟨rfl, rfl, rfl, rfl, (map_history_models _ _ example_history_four_history).1, by decide,
    by decide, by decide, by decide, by decide, by decide⟩

/-- C23 (amended): on a map satisfying the map invariant the full traversal
from `map_iterate` visits the concatenation, over the slots 0 to `capacity - 1`
in ascending order, of the content `E i` of each bucket in front-to-back order
(`E i` is empty for a null slot, else what `list_iterate` of the bucket reads).
For a map with the history `L` (the keys and values in the order in which the
entries now stored were created: an insert of a key that is not present puts it
last, also when the key was present and removed before; an insert of a present
key, `map_remove` and the removals of a traversal leave the others in place),
the content of the bucket at slot `i` is the part of `L` whose keys select the
slot `i`, in the order of `L`. -/
theorem map_iterate_history_order (fuel : Nat) (map : map_t) (hinv : map_invariant map)
    (hfuel : map.size < fuel) :
    ∃ E, map_rep map E ∧
      map_iterate fuel map
        = some (((List.range map.capacity).flatMap E).map (fun x => (x.2.key, x.2.value))) ∧
      (∀ i, i < map.capacity → map.buckets i = none → E i = []) ∧
      (∀ i bucket, i < map.capacity → map.buckets i = some bucket →
        list_iterate fuel bucket = some ((E i).map Prod.snd)) ∧
      (∀ L, map_history map L →
        (∀ i, i < map.capacity →
          (E i).map (fun x => (x.2.key, x.2.value)) = map_live_bucket L map.capacity i) ∧
        map_iterate fuel map
          = some ((List.range map.capacity).flatMap (map_live_bucket L map.capacity))) := by
  obtain ⟨E, hrep⟩ := map_invariant_rep map hinv
  have hrun : map_iterate fuel map
      = some (((List.range map.capacity).flatMap E).map (fun x => (x.2.key, x.2.value))) := by
    rw [map_iterate_rep fuel map E hinv hrep hfuel, map_entries_from_flatMap,
      List.range_eq_range']
  refine ⟨E, hrep, hrun, ?_, ?_, ?_⟩
  · intro i hi hb
    have hbr := hrep i hi
    unfold map_bucket_rep at hbr
    rw [hb] at hbr
    exact hbr
  · intro i bucket hi hb
    have hbr := hrep i hi
    have hlen : (E i).length < fuel := by
      have h1 := map_bucket_size_le map hinv i hi
      rw [map_bucket_rep_size map i _ hbr] at h1
      omega
    unfold map_bucket_rep at hbr
    rw [hb] at hbr
    exact list_iterate_rep bucket (E i) fuel hbr.1.1 hlen
  · intro L hhist
    obtain ⟨_, E1, hrep1, hmod1⟩ := map_history_models map L hhist
    have hmod : ∀ i, i < map.capacity →
        (E i).map (fun x => (x.2.key, x.2.value)) = map_live_bucket L map.capacity i := by
      intro i hi
      rw [map_bucket_rep_unique map i (E i) (E1 i) (hrep i hi) (hrep1 i hi)]
      exact hmod1 i hi
    refine ⟨hmod, ?_⟩
    rw [hrun, map_flatMap_live L map.capacity E hmod (List.range map.capacity)
      (fun i hi => List.mem_range.1 hi)]

/-- Witness for C23: the map after insert of the key 1, insert of the key 9,
removal of the key 1 and insert of the key 1 again is traversed in the order
9, 1; after a traversal that removes the key 9 with
`map_iterator_remove_current` the key 1 is left. -/
theorem map_iterate_history_order_witness :
    (map_iterate 5 example_history_four
      = some ((List.range example_history_four.capacity).flatMap
          (map_live_bucket [([9], 8), ([1], 0)] example_history_four.capacity)) ∧
      map_iterate 5 example_history_four = some [([9], 8), ([1], 0)]) ∧
    (map_iterate 5 example_history_five
      = some ((List.range example_history_five.capacity).flatMap
          (map_live_bucket [([1], 0)] example_history_five.capacity)) ∧
      map_iterate 5 example_history_five = some [([1], 0)]) := by
  obtain ⟨E, _, _, _, _, hL⟩ := map_iterate_history_order 5 example_history_four
    (map_history_models _ _ example_history_four_history).1.1 (by decide)
  obtain ⟨E5, _, _, _, _, hL5⟩ := map_iterate_history_order 5 example_history_five
    (map_history_models _ _ example_history_five_history).1.1 (by decide)
  exact ⟨⟨(hL _ example_history_four_history).2, by decide⟩,
    ⟨(hL5 _ example_history_five_history).2, by decide⟩⟩

end Cutils
